import Mathlib

/-!
# Verification of the non-grid-path-finder visibility-graph pathfinding engine

Shallow embedding of the core of `SCLeoX/non-grid-path-finder` (Rust):

* `src/geometry/vec2.rs`, `src/geometry/segment.rs` — 2-D vectors and exact
  segment intersection.  `f64` values are modelled as `ℚ`: every arithmetic
  operation the intersection routine performs (add, sub, mul, div, compare)
  is exact on the rational inputs considered here, and `f64::EPSILON` is the
  exact rational `2⁻⁵²`.
* `src/geometry/angle.rs` — `Direction` (angle in `(-π, π]`) and `Angle`
  (angle in `(0, 2π]`) arithmetic, modelled over `ℝ` because it feeds on
  `atan2`/`sin`/`cos`.
* `src/navigation.rs` — obstacle model, visibility-graph builder, the A*
  adapter and `find_path`.
* `src/a_star.rs` — the generic A* search.  `N64` (NaN-free `f64`) is
  modelled as `ℚ`, `+∞` (`f64::INFINITY`, the initial g-score) as `none` in
  an `Option ℚ`.

Functions of this repository that are used by `src/navigation.rs` but whose
source is not available (`Shape::winding_order`, `Shape::reverse`,
`Shape::prev_vertex`, `Shape::next_vertex`, `Segment::connective_intersect`)
are modelled from the spec; each such definition carries a doc comment
starting with `Modelled from the spec:`.

The geometric filters of the graph builder (`is_in_connectable_range` and
the occlusion scan) act on the builder purely as a boolean of the candidate
vertex pair, and they are built on `f64::atan2`; the structural theorems
about the builder and the search are therefore proved for an *arbitrary*
boolean filter (a strictly stronger statement than for the particular one).
-/

namespace PathFinder

/-! ## Rational 2-D geometry (`vec2.rs`, `segment.rs`) -/

/-- `f64::EPSILON = 2⁻⁵²`, the absolute tolerance used by every geometric
comparison in `segment.rs`. -/
def EPSILON : ℚ := 1 / 2 ^ 52

/-- `Vec2` (`vec2.rs`): a pair of coordinates.  Modelled with rational
coordinates; all operations used by segment intersection are exact. -/
structure Vec2 where
  x : ℚ
  y : ℚ
  deriving DecidableEq, Repr

namespace Vec2

def sub (a b : Vec2) : Vec2 := ⟨a.x - b.x, a.y - b.y⟩

/-- `Vec2::cross`: `x1·y2 − y1·x2`. -/
def cross (a b : Vec2) : ℚ := a.x * b.y - a.y * b.x

/-- `Vec2::dist_squared`. -/
def dist_squared (a b : Vec2) : ℚ := (a.x - b.x) ^ 2 + (a.y - b.y) ^ 2

end Vec2

/-- `Segment` (`segment.rs`): an ordered pair of endpoints. -/
structure Segment where
  p0 : Vec2
  p1 : Vec2
  deriving DecidableEq, Repr

namespace Segment

/-- `Linear::is_vertical`: `(p0.x − p1.x).abs() <= f64::EPSILON`. -/
def isVertical (s : Segment) : Bool := |s.p0.x - s.p1.x| ≤ EPSILON

/-- `Linear::slope`: `(p1.y − p0.y) / (p1.x − p0.x)`.  Only ever consulted
by the code on segments that failed the `is_vertical` test, so the rational
division (which, unlike `f64`, yields `0` on a zero denominator) agrees with
the source wherever the source evaluates it. -/
def slope (s : Segment) : ℚ := (s.p1.y - s.p0.y) / (s.p1.x - s.p0.x)

/-- `min_max` (`segment.rs`). -/
def minMax (v0 v1 : ℚ) : ℚ × ℚ := if v0 < v1 then (v0, v1) else (v1, v0)

/-- `contains` (`segment.rs`): `min ≤ value ≤ max`. -/
def containsVal (b0 b1 value : ℚ) : Bool :=
  let mm := minMax b0 b1
  mm.1 ≤ value ∧ value ≤ mm.2

/-- `Segment::find_intersection_with_segment_only_other_vertical`:
`self` is not vertical, `other` is. -/
def findIntersectionOnlyOtherVertical (s other : Segment) : Option Vec2 :=
  if containsVal s.p0.x s.p1.x other.p0.x then
    let intersectY := s.p0.y + (other.p0.x - s.p0.x) * s.slope
    if containsVal other.p0.y other.p1.y intersectY then
      some ⟨other.p0.x, intersectY⟩
    else
      none
  else
    none

/-- `Segment::intersect_segment` (`segment.rs`), translated branch for
branch.  Finds the intersection of `self` and `other`. -/
def intersectSegment (s other : Segment) : Option Vec2 :=
  if s.isVertical then
    let selfX := s.p0.x
    if other.isVertical then
      if |selfX - other.p0.x| ≥ EPSILON then
        none
      else
        -- Vertical collinear
        let mm := minMax other.p0.y other.p1.y
        if s.p0.y < mm.1 ∧ s.p1.y < mm.1 then none
        else if s.p0.y > mm.2 ∧ s.p1.y > mm.2 then none
        else
          -- Use the point that is closer to self.p0
          if s.p0.y < mm.1 then
            if other.p0.y < other.p1.y then some other.p0 else some other.p1
          else if s.p0.y > mm.2 then
            if other.p0.y < other.p1.y then some other.p1 else some other.p0
          else
            some s.p0
    else
      findIntersectionOnlyOtherVertical other s
  else if other.isVertical then
    findIntersectionOnlyOtherVertical s other
  else
    let selfSlope := s.slope
    let otherSlope := other.slope
    if |selfSlope - otherSlope| ≤ EPSILON then
      let interp := other.p0.y - selfSlope * (other.p0.x - s.p0.x)
      if |interp - s.p0.y| ≥ EPSILON then
        none -- Parallel
      else
        -- Non-vertical collinear
        let mm := minMax other.p0.x other.p1.x
        if s.p0.x < mm.1 ∧ s.p1.x < mm.1 then none
        else if s.p0.x > mm.2 ∧ s.p1.x > mm.2 then none
        else
          if s.p0.x < mm.1 then
            if other.p0.x < other.p1.x then some other.p0 else some other.p1
          else if s.p0.x > mm.2 then
            if other.p0.x < other.p1.x then some other.p1 else some other.p0
          else
            some s.p0
    else
      let interp := s.p0.y + selfSlope * (other.p0.x - s.p0.x)
      let slopeDiff := selfSlope - otherSlope
      let intersectX := other.p0.x + (other.p0.y - interp) / slopeDiff
      if containsVal s.p0.x s.p1.x intersectX ∧
          containsVal other.p0.x other.p1.x intersectX then
        some ⟨intersectX, s.p0.y + selfSlope * (intersectX - s.p0.x)⟩
      else
        none

/-- `Segment::intersect::<Segment>` (`segment.rs`):
`self.intersect(other) = other.intersect_segment(self)`. -/
def intersect (s other : Segment) : Option Vec2 :=
  intersectSegment other s

end Segment

/-! ## Generic A* search (`a_star.rs`)

`N64` (a NaN-forbidding `f64`) is modelled as `ℚ`; `f64::INFINITY` (the
initial g-score of every node) is modelled as `none : Option ℚ`, and the
`usize::MAX` sentinel of `came_from` as `none : Option ℕ`.  The `Vec`s
indexed by node id are modelled as total functions `ℕ → _`; the claims
about the search only concern executions in which every touched index is
in bounds, which is where the Rust code is defined at all. -/

/-- The `AStarInput` trait (`a_star.rs`).  `end()` is named `goal` because
`end` is a Lean keyword. -/
structure AStarInput where
  len : ℕ
  start : ℕ
  goal : ℕ
  neighbors : ℕ → List ℕ
  distance : ℕ → ℕ → ℚ
  heuristic : ℕ → ℚ

/-- `struct NodeCost` (`a_star.rs`): a frontier entry. -/
structure NodeCost where
  node : ℕ
  fScore : ℚ
  deriving DecidableEq, Repr

namespace NodeCost

/-- The strict order derived from `impl Ord for NodeCost`:
`cmp(self, other) = other.f_score.cmp(&self.f_score).then(self.node.cmp(&other.node))`,
so `a` is less than `b` iff `b.f_score < a.f_score`, or the f-scores are
equal and `a.node < b.node`. -/
def ltB (a b : NodeCost) : Bool := b.fScore < a.fScore ∨ (b.fScore = a.fScore ∧ a.node < b.node)

end NodeCost

/-- The greatest entry of `m :: l` in the `NodeCost` order (the entry a
`BinaryHeap<NodeCost>` yields first).  Scans left to right, replacing the
running maximum only on strictly greater entries. -/
def maxEntry (m : NodeCost) : List NodeCost → NodeCost
  | [] => m
  | e :: rest => maxEntry (if NodeCost.ltB m e then e else m) rest

/-- `BinaryHeap::pop`: remove and return the greatest entry.  The order on
distinct `NodeCost` values is total and strict, so which entry a binary
heap yields is determined by the multiset of entries; the remainder is the
queue with one occurrence of that entry removed. -/
def popMax (q : List NodeCost) : Option (NodeCost × List NodeCost) :=
  match q with
  | [] => none
  | e :: rest =>
    let m := maxEntry e rest
    some (m, q.erase m)

/-- The mutable state of `a_star`'s main loop. -/
structure AStarState where
  openQueue : List NodeCost
  closedSet : ℕ → Bool
  cameFrom : ℕ → Option ℕ
  gScore : ℕ → Option ℚ

/-- `tentative < g` on scores with `none = +∞`: `+∞` is less than nothing,
and every finite score is less than `+∞`. -/
def optLtB (t g : Option ℚ) : Bool :=
  match t, g with
  | none, _ => false
  | some _, none => true
  | some a, some b => a < b

/-- `g + d` on scores with `none = +∞`: `∞ + d = ∞`. -/
def optAdd (g : Option ℚ) (d : ℚ) : Option ℚ := g.map (· + d)

/-- The body of `for &neighbor in input.neighbors(current)` in `a_star`:
on a strict improvement of the neighbor's g-score, record the predecessor,
update the g-score, push the neighbor with its new f-score, and mark
`current` in the closed set. -/
def expandNeighbor (input : AStarInput) (current : ℕ) (st : AStarState)
    (neighbor : ℕ) : AStarState :=
  let tentative := optAdd (st.gScore current) (input.distance current neighbor)
  if optLtB tentative (st.gScore neighbor) then
    { openQueue := ⟨neighbor, tentative.getD 0 + input.heuristic neighbor⟩ :: st.openQueue,
      closedSet := Function.update st.closedSet current true,
      cameFrom := Function.update st.cameFrom neighbor (some current),
      gScore := Function.update st.gScore neighbor tentative }
  else
    st

/-- The whole neighbor loop of one expansion of `current`. -/
def expandAll (input : AStarInput) (current : ℕ) (st : AStarState) : AStarState :=
  (input.neighbors current).foldl (expandNeighbor input current) st

/-- The path-reconstruction loop of `a_star` (`while current != usize::MAX`
followed by `path.reverse()`), with fuel: the Rust loop would run forever on
a cyclic `came_from`, which the fuelled model reports as `none`.  The Rust
code pushes each node to the back and reverses at the end; prepending to the
accumulator produces the same (start-to-goal) list directly. -/
def reconstructPath (cameFrom : ℕ → Option ℕ) : ℕ → ℕ → List ℕ → Option (List ℕ)
  | 0, _, _ => none
  | fuel + 1, current, acc =>
    match cameFrom current with
    | none => some (current :: acc)
    | some c => reconstructPath cameFrom fuel c (current :: acc)

/-- The `while let Some(NodeCost { node: current, .. }) = open_queue.pop()`
loop of `a_star`, with fuel.  Both fuel exhaustion and an exhausted
frontier yield `none`; every `some` result is an actual return value of
the Rust loop. -/
def aStarLoop (input : AStarInput) : ℕ → AStarState → Option (List ℕ)
  | 0, _ => none
  | fuel + 1, st =>
    match popMax st.openQueue with
    | none => none
    | some (e, rest) =>
      let current := e.node
      if current = input.goal then
        reconstructPath st.cameFrom (input.len + 1) current []
      else if st.closedSet current then
        aStarLoop input fuel { st with openQueue := rest }
      else
        aStarLoop input fuel (expandAll input current { st with openQueue := rest })

/-- The state of `a_star` just before its main loop. -/
def aStarInit (input : AStarInput) : AStarState :=
  { openQueue := [⟨input.start, input.heuristic input.start⟩],
    closedSet := fun _ => false,
    cameFrom := fun _ => none,
    gScore := Function.update (fun _ => none) input.start (some 0) }

/-- `pub fn a_star` (`a_star.rs`). -/
def aStar (fuel : ℕ) (input : AStarInput) : Option (List ℕ) :=
  aStarLoop input fuel (aStarInit input)

/-! ### Specification-side notions for the search: walks, their costs, and
the true shortest-path distance. -/

/-- The total edge distance along a node list. -/
def pathCost (input : AStarInput) : List ℕ → ℚ
  | [] => 0
  | [_] => 0
  | a :: b :: rest => input.distance a b + pathCost input (b :: rest)

/-- `l` is a walk from `a` to `b` in the graph described by `input`:
nonempty, starting at `a`, ending at `b`, each step moving to a neighbor. -/
def IsWalkBetween (input : AStarInput) (a b : ℕ) (l : List ℕ) : Prop :=
  l.head? = some a ∧ l.getLast? = some b ∧
    List.Chain' (fun x y => y ∈ input.neighbors x) l

instance (input : AStarInput) (a b : ℕ) (l : List ℕ) :
    Decidable (IsWalkBetween input a b l) := by
  unfold IsWalkBetween
  infer_instance

/-- Walks from `a`, built up step by step from the back; equivalent to
`IsWalkBetween` (see `walkTo_iff_isWalkBetween`) but with an induction
principle matching how the search extends paths. -/
inductive WalkTo (input : AStarInput) (a : ℕ) : ℕ → List ℕ → Prop
  | base : WalkTo input a a [a]
  | step {u v : ℕ} {l : List ℕ} : WalkTo input a u l → v ∈ input.neighbors u →
      WalkTo input a v (l ++ [v])

/-- `a ≤ b` on scores with `none = +∞`. -/
def optLe (a b : Option ℚ) : Prop :=
  match a, b with
  | _, none => True
  | none, some _ => False
  | some x, some y => x ≤ y

/-- All lists of length at most `n` whose entries are below `len`:
a finite universe containing every duplicate-free walk. -/
def listsLE (len : ℕ) : ℕ → Finset (List ℕ)
  | 0 => {[]}
  | n + 1 =>
    {[]} ∪ (Finset.range len ×ˢ listsLE len n).image fun p => p.1 :: p.2

/-- The duplicate-free walks from `input.start` to `u` (all of whose nodes
are below `input.len`).  Finitely many; any walk can be shortened to one of
them without increasing its cost, so their minimum cost is the true
shortest-path distance. -/
def simpleWalks (input : AStarInput) (u : ℕ) : Finset (List ℕ) :=
  (listsLE input.len input.len).filter fun l =>
    IsWalkBetween input input.start u l ∧ l.Nodup

/-- The true shortest-path distance from `input.start` to `u`
(`none` when `u` is unreachable). -/
def shortestDist (input : AStarInput) (u : ℕ) : Option ℚ :=
  ((simpleWalks input u).image (pathCost input)).min

/-- The inductive invariant of `a_star`'s main loop, relating the queue,
the closed set, the predecessor map and the g-scores.  `g_entry_or_settled`
is the key clause: a node with a finite g-score either still has a frontier
entry matching its current g-score, or all of its neighbors have already
been relaxed from its current g-score. -/
structure Inv (input : AStarInput) (st : AStarState) : Prop where
  g_start : st.gScore input.start = some 0
  g_nonneg : ∀ n v, st.gScore n = some v → 0 ≤ v
  g_realizable : ∀ n v, st.gScore n = some v →
    ∃ l, WalkTo input input.start n l ∧ pathCost input l = v
  came_start : st.cameFrom input.start = none
  came_of_g : ∀ n v, st.gScore n = some v → n ≠ input.start →
    ∃ c, st.cameFrom n = some c
  came_edge : ∀ n c, st.cameFrom n = some c → n ∈ input.neighbors c ∧
    ∃ vn vc, st.gScore n = some vn ∧ st.gScore c = some vc ∧
      vc + input.distance c n ≤ vn
  queue_bound : ∀ e ∈ st.openQueue, ∃ v, st.gScore e.node = some v ∧
    v + input.heuristic e.node ≤ e.fScore
  g_entry_or_settled : ∀ n v, st.gScore n = some v →
    (∃ e ∈ st.openQueue, e.node = n ∧ e.fScore = v + input.heuristic n) ∨
    (∀ m ∈ input.neighbors n, optLe (st.gScore m) (some (v + input.distance n m)))
  closed_settled : ∀ n, st.closedSet n = true →
    ∃ v, st.gScore n = some v ∧ shortestDist input n = some v ∧
      (∀ m ∈ input.neighbors n, optLe (st.gScore m) (some (v + input.distance n m)))

/-- A six-node weighted graph on which `a_star` returns a suboptimal path
even though its heuristic is admissible and its distances are nonnegative.
Node 0 is the start, node 5 the goal; the shortest path is
`0 → 1 → 2 → 5` of cost 24, but the search returns `0 → 3 → 5` of cost 25:
node 2 is closed while holding a suboptimal g-score (it relaxed nodes 5 and
4 from g = 6), and the later pop carrying its improved g-score 4 is
discarded by the closed-set check. -/
def cexInput : AStarInput where
  len := 6
  start := 0
  goal := 5
  neighbors n :=
    match n with
    | 0 => [1, 2, 3]
    | 1 => [2]
    | 2 => [5, 4]
    | 3 => [5]
    | _ => []
  distance a b :=
    match a, b with
    | 0, 1 => 2
    | 0, 2 => 6
    | 0, 3 => 4
    | 1, 2 => 2
    | 2, 5 => 20
    | 2, 4 => 2
    | 3, 5 => 21
    | _, _ => 0
  heuristic n :=
    match n with
    | 1 => 22
    | 3 => 4
    | 4 => 40
    | _ => 0

/-- An admissibility certificate for `cexInput.heuristic`: a feasible
potential dominating the heuristic (`D n` is the true remaining distance
from `n` to the goal, `+∞` truncated to the heuristic's value). -/
def cexPotential (n : ℕ) : ℚ :=
  match n with
  | 0 => 24
  | 1 => 22
  | 2 => 20
  | 3 => 21
  | 4 => 40
  | _ => 0

/-- A two-node graph with a consistent (zero) heuristic, used to witness
the consistency-based optimality theorem on a concrete run. -/
def consistentInput : AStarInput where
  len := 2
  start := 0
  goal := 1
  neighbors n := if n = 0 then [1] else []
  distance _ _ := 3
  heuristic _ := 0

/-! ## Navigation (`navigation.rs`)

`NavigationObstacle` stores a canonicalized vertex list together with the
precomputed per-vertex concavity bits (`concave_vertices`); the graph
builder and `find_path` consume exactly these two fields, so they are
modelled as data here.  The geometric classification that *produces* the
bits involves `f64::atan2` and is modelled separately over `ℝ` (see the
`Angles` section).

The two geometric filters of the builder and of `find_path` —
`is_in_connectable_range` (src, built on `f64::atan2`) and the occlusion
scan — act on the graph structure purely as a boolean of the candidate
pair, so the structural theorems take them as an arbitrary parameter
`accepts`/`inRange` and hold for every value of it.  Likewise the `N64`
Euclidean distance (`Vec2::dist`, a square root) enters the A* adapter as
an arbitrary parameter `euclid`. -/

/-- `NavigationObstacle` (`navigation.rs`) as consumed by the graph
builder: the canonicalized shape's vertices and the concavity bit-vector.
Well-formedness (`NavigationObstacle::new` always produces one bit per
vertex) is the hypothesis `obstaclesWF`. -/
structure NavigationObstacle where
  vertices : List Vec2
  concaveVertices : List Bool
  deriving DecidableEq, Repr

/-- One bit per vertex, as `NavigationObstacle::new` guarantees. -/
def obstaclesWF (obstacles : List NavigationObstacle) : Prop :=
  ∀ o ∈ obstacles, o.concaveVertices.length = o.vertices.length

/-- `struct Node` (`navigation.rs`): a navigation-graph node. -/
structure GraphNode where
  connections : List ℕ
  position : Vec2
  deriving DecidableEq, Repr

instance : Inhabited GraphNode := ⟨⟨[], ⟨0, 0⟩⟩⟩

/-- The vertices of all obstacles in builder order (obstacle-then-vertex),
paired with their concavity bits; position `j` in this list is global node
id `j`. -/
def flattenVerts (obstacles : List NavigationObstacle) : List (Vec2 × Bool) :=
  obstacles.flatMap fun o => o.vertices.zip o.concaveVertices

/-- `nodes_count` (`navigation.rs`): the fold summing every obstacle's
vertex count. -/
def nodesCount (obstacles : List NavigationObstacle) : ℕ :=
  (obstacles.map fun o => o.vertices.length).sum

/-- `navigation_graph[j].connections.push(i)`. -/
def appendConn (g : List GraphNode) (j i : ℕ) : List GraphNode :=
  g.set j ⟨(g.getD j default).connections ++ [i], (g.getD j default).position⟩

/-- Processing one vertex of the builder loop (`navigation.rs`, lines
136–204).  `n` is `nodes_count`, `flags j` the concavity bit of global
vertex `j`, and `accepts j i` the conjunction of the two
`is_in_connectable_range` tests and the occlusion scan for the candidate
pair `(j, i)` (`j < i`).  A convex vertex contributes a node with no
connections; a reflex vertex first reserves the placeholder `n + 1` (the
query end node's id), then records a symmetric edge to every accepted
earlier reflex vertex. -/
def buildStep (n : ℕ) (accepts : ℕ → ℕ → Bool) (flags : ℕ → Bool)
    (graph : List GraphNode) (v : Vec2 × Bool) : List GraphNode :=
  let i := graph.length
  if v.2 = false then
    graph ++ [⟨[], v.1⟩]
  else
    let accepted := (List.range i).filter fun j => flags j && accepts j i
    let graph' := accepted.foldl (fun g j => appendConn g j i) graph
    graph' ++ [⟨(n + 1) :: accepted, v.1⟩]

/-- `Navigation::build_navigation_graph` (`navigation.rs`). -/
def buildNavigationGraph (accepts : ℕ → ℕ → Bool)
    (obstacles : List NavigationObstacle) : List GraphNode :=
  let verts := flattenVerts obstacles
  verts.foldl
    (buildStep (nodesCount obstacles) accepts fun j => (verts.getD j (⟨0, 0⟩, false)).2) []

/-- `struct Navigation` (`navigation.rs`). -/
structure Navigation where
  obstacles : List NavigationObstacle
  navigationGraph : List GraphNode

/-- `Navigation::new` (`navigation.rs`), with the geometric filter of the
builder abstracted as `accepts`. -/
def Navigation.new (accepts : ℕ → ℕ → Bool) (obstacles : List NavigationObstacle) :
    Navigation :=
  { obstacles := obstacles, navigationGraph := buildNavigationGraph accepts obstacles }

/-- Modelled from the spec: `Segment::connective_intersect` is code of this
repository that is not under `src/` (only its callers are).  §4.3/§4.4
describe the test as "the candidate segment must not properly intersect any
edge" / "the direct segment does not cross any obstacle edge"; it is
modelled as "the exact intersection routine reports an intersection point".
Every theorem below depends only on *which boolean* this function returns,
never on its internal structure. -/
def connectiveIntersect (s other : Segment) : Bool :=
  (Segment.intersectSegment s other).isSome

/-- `Shape::segments` (`shape.rs`): the boundary segments, consecutive
vertices plus the wrap-around from the last vertex to the first; one
degenerate self-segment for a single vertex; none for an empty shape. -/
def shapeSegmentsAux (first previous : Vec2) : List Vec2 → List Segment
  | [] => [⟨previous, first⟩]
  | next :: rest => ⟨previous, next⟩ :: shapeSegmentsAux first next rest

def shapeSegments : List Vec2 → List Segment
  | [] => []
  | v :: rest => shapeSegmentsAux v v rest

/-- `Navigation::intersects_with_obstacle` (`navigation.rs`). -/
def intersectsWithObstacle (nav : Navigation) (segment : Segment) : Bool :=
  nav.obstacles.any fun o => (shapeSegments o.vertices).any fun s => connectiveIntersect segment s

/-- `NavigationAStarInput::get_node_position` (`navigation.rs`). -/
def getNodePosition (nav : Navigation) (startPos endPos : Vec2) (nodeId : ℕ) : Vec2 :=
  if nodeId = nav.navigationGraph.length then startPos
  else if nodeId = nav.navigationGraph.length + 1 then endPos
  else (nav.navigationGraph.getD nodeId default).position

/-- `NavigationAStarInput::neighbors` (`navigation.rs`), instrumented:
`none` models a Rust panic — indexing `navigation_graph[node]` out of
bounds (in particular on the end id `len + 1`), or slicing `&conns[1..]`
of an empty connection list (a convex-vertex node). -/
def adapterNeighborsChecked (nav : Navigation) (startConnections : List ℕ)
    (endCandidates : ℕ → Bool) (node : ℕ) : Option (List ℕ) :=
  if node = nav.navigationGraph.length then some startConnections
  else if node < nav.navigationGraph.length then
    let conns := (nav.navigationGraph.getD node default).connections
    if endCandidates node then some conns
    else if 1 ≤ conns.length then some (conns.drop 1) else none
  else none

/-- The `AStarInput` impl of `NavigationAStarInput` (`navigation.rs`), with
the Euclidean `N64` distance abstracted as `euclid` (it is an `f64` square
root).  `neighbors` uses the unchecked projection of
`adapterNeighborsChecked`; the checked run below proves the projection is
never exercised where the Rust code would panic. -/
def navigationAStarInput (euclid : Vec2 → Vec2 → ℚ) (nav : Navigation)
    (startPos endPos : Vec2) (startConnections : List ℕ)
    (endCandidates : ℕ → Bool) : AStarInput where
  len := nav.navigationGraph.length + 2
  start := nav.navigationGraph.length
  goal := nav.navigationGraph.length + 1
  neighbors node := (adapterNeighborsChecked nav startConnections endCandidates node).getD []
  distance a b :=
    euclid (getNodePosition nav startPos endPos a) (getNodePosition nav startPos endPos b)
  heuristic node := euclid (getNodePosition nav startPos endPos node) endPos

/-- `a_star`'s main loop with panic-instrumented neighbor access: the outer
`none` means the Rust code would panic (`neighborsChecked` failed on a
popped node); `some r` means the loop finishes normally with result `r`
(fuel exhaustion is reported as a normal `none` result, not a panic). -/
def aStarLoopChecked (input : AStarInput) (neighborsChecked : ℕ → Option (List ℕ)) :
    ℕ → AStarState → Option (Option (List ℕ))
  | 0, _ => some none
  | fuel + 1, st =>
    match popMax st.openQueue with
    | none => some none
    | some (e, rest) =>
      let current := e.node
      if current = input.goal then
        some (reconstructPath st.cameFrom (input.len + 1) current [])
      else if st.closedSet current then
        aStarLoopChecked input neighborsChecked fuel { st with openQueue := rest }
      else
        match neighborsChecked current with
        | none => none
        | some ns =>
          aStarLoopChecked input neighborsChecked fuel
            (ns.foldl (expandNeighbor input current) { st with openQueue := rest })

/-- `Navigation::find_path` (`navigation.rs`), panic-instrumented like
`aStarLoopChecked` (outer `none` = panic, which `find_path_never_panics`
rules out).  The per-query start connections and end candidates are
computed exactly as in the source: skip convex vertices, then apply the
`is_in_connectable_range` filter (`inRange`, abstracted — it is built on
`f64::atan2`) and the occlusion test against all obstacles. -/
def findPath (accepts : ℕ → ℕ → Bool) (inRange : ℕ → Vec2 → Bool)
    (euclid : Vec2 → Vec2 → ℚ) (obstacles : List NavigationObstacle)
    (startPos endPos : Vec2) (fuel : ℕ) : Option (Option (List Vec2)) :=
  let nav := Navigation.new accepts obstacles
  if ¬ intersectsWithObstacle nav ⟨startPos, endPos⟩ then some (some [startPos, endPos])
  else
    let verts := flattenVerts obstacles
    let startConnections := (List.range verts.length).filter fun j =>
      (verts.getD j (⟨0, 0⟩, false)).2 && inRange j startPos &&
        ! intersectsWithObstacle nav ⟨startPos, (verts.getD j (⟨0, 0⟩, false)).1⟩
    let endCandidates := fun j =>
      (verts.getD j (⟨0, 0⟩, false)).2 && inRange j endPos &&
        ! intersectsWithObstacle nav ⟨endPos, (verts.getD j (⟨0, 0⟩, false)).1⟩
    let input := navigationAStarInput euclid nav startPos endPos startConnections endCandidates
    (aStarLoopChecked input
        (adapterNeighborsChecked nav startConnections endCandidates) fuel
        (aStarInit input)).map
      (Option.map fun l => l.map (getNodePosition nav startPos endPos))


/-! ## Real-valued angles, the obstacle constructor and the clearance
expansion (`angle.rs`, the trigonometric part of `vec2.rs`,
`NavigationObstacle::new` and `NavigationObstacle::expand`)

The concavity classification and the clearance expansion are built on
`f64::atan2`, `sin` and `cos`; these are idealized as the exact real
functions (`Complex.arg`, `Real.sin`, `Real.cos`), so this section is
necessarily noncomputable and concrete instances are evaluated by `simp`
and `norm_num` at symbolically known angles.  Points are pairs `ℝ × ℝ`. -/

noncomputable section RealAngles

/-- `Vec2` subtraction over `ℝ` (`vec2.rs`). -/
def vsub (a b : ℝ × ℝ) : ℝ × ℝ := (a.1 - b.1, a.2 - b.2)

/-- `Vec2` addition over `ℝ` (`vec2.rs`). -/
def vadd (a b : ℝ × ℝ) : ℝ × ℝ := (a.1 + b.1, a.2 + b.2)

/-- `impl Mul<f64> for Vec2` over `ℝ` (`vec2.rs`). -/
def vmul (a : ℝ × ℝ) (m : ℝ) : ℝ × ℝ := (a.1 * m, a.2 * m)

/-- `Vec2::cross` over `ℝ` (`vec2.rs`). -/
def crossR (a b : ℝ × ℝ) : ℝ := a.1 * b.2 - a.2 * b.1

/-- The dot product of two real plane vectors (specification-side, used to
state perpendicularity and unit length of edge normals in C9). -/
def dotR (a b : ℝ × ℝ) : ℝ := a.1 * b.1 + a.2 * b.2

/-- `bound_direction` (`angle.rs`): rebound a direction into `(-π, π]`. -/
def boundDirectionR (x : ℝ) : ℝ :=
  if x > Real.pi then x - 2 * Real.pi
  else if x ≤ -Real.pi then x + 2 * Real.pi
  else x

/-- `bound_angle` (`angle.rs`): rebound an angle into `(0, 2π]`. -/
def boundAngleR (x : ℝ) : ℝ :=
  if x > 2 * Real.pi then x - 2 * Real.pi
  else if x ≤ 0 then x + 2 * Real.pi
  else x

/-- `f64::atan2` idealized: `y.atan2(x)` is the argument of the complex
number `x + y·i`, valued in `(-π, π]` (used by `Vec2::atan2`). -/
def atan2R (y x : ℝ) : ℝ := Complex.arg ⟨x, y⟩

/-- `Vec2::direction` over `ℝ` (`vec2.rs`); `Direction` values are the
reals in `(-π, π]`, `Angle` values the reals in `(0, 2π]`. -/
def vdir (v : ℝ × ℝ) : ℝ := atan2R v.2 v.1

/-- `Vec2::unit` (`vec2.rs`): cosine and sine of
`direction.as_angle_from_positive_x().as_radians()`. -/
def unitR (d : ℝ) : ℝ × ℝ := (Real.cos (boundAngleR d), Real.sin (boundAngleR d))

/-- `Vec2::dir_mag` (`vec2.rs`). -/
def dirMagR (d m : ℝ) : ℝ × ℝ := vmul (unitR d) m

/-- Modelled from the spec: `Shape::prev_vertex` is code of this
repository that is not under `src/` (only its callers are).  §3 documents
"previous/next vertex relative to an index" of an implicitly closed
polygon: the cyclic predecessor. -/
def prevVertexR (vs : List (ℝ × ℝ)) (i : ℕ) : ℝ × ℝ :=
  if i = 0 then vs.getD (vs.length - 1) (0, 0) else vs.getD (i - 1) (0, 0)

/-- Modelled from the spec: `Shape::next_vertex`, the cyclic successor
(§3). -/
def nextVertexR (vs : List (ℝ × ℝ)) (i : ℕ) : ℝ × ℝ :=
  if i + 1 = vs.length then vs.getD 0 (0, 0) else vs.getD (i + 1) (0, 0)

/-- `ShapeWindingOrder` (`geometry`). -/
inductive ShapeWindingOrderR where
  | Clockwise
  | CounterClockwise
  deriving DecidableEq

/-- The shoelace sum of a closed vertex cycle: the cross products of
consecutive vertex pairs, including the wrap-around pair. -/
def shoelaceR (vs : List (ℝ × ℝ)) : ℝ :=
  ((vs.zip (vs.rotate 1)).map fun p => crossR p.1 p.2).sum

/-- Modelled from the spec: `Shape::winding_order` is code of this
repository that is not under `src/`.  §3/§4.1 document it as the "sign of
the polygon's signed area (shoelace sum)", used once to canonicalize an
obstacle.  The app's positions are screen coordinates (y pointing down),
where a positive shoelace sum — as computed by the usual formula — is a
*visually clockwise* cycle, so the positive sign maps to `Clockwise`.
This is the only assignment coherent with the rest of the code: the
canonical winding must make `NavigationObstacle::expand` (whose arc fans
step from `prev_direction - π/2` to `next_direction + π/2` at marked
vertices) buffer obstacles outward into "a larger polygon" (§2.2, the
documented purpose of clearance expansion); under the opposite assignment
every canonical obstacle would shrink instead. -/
def windingOrderR (vs : List (ℝ × ℝ)) : ShapeWindingOrderR :=
  if 0 < shoelaceR vs then ShapeWindingOrderR.Clockwise
  else ShapeWindingOrderR.CounterClockwise

/-- The canonicalization step of `NavigationObstacle::new`
(`navigation.rs` lines 17-20), with `Shape::reverse` modelled from the
spec ("reverse if clockwise", §4.1). -/
def newShapeR (vertices : List (ℝ × ℝ)) : List (ℝ × ℝ) :=
  if windingOrderR vertices = ShapeWindingOrderR.Clockwise then
    vertices.reverse
  else vertices

/-- The value `theta` computed by `NavigationObstacle::new` and
`NavigationObstacle::expand` for vertex `i` (`navigation.rs` lines 23-25
and 40-43): `next_direction - prev_direction` as an `Angle` in
`(0, 2π]`. -/
def thetaAt (vs : List (ℝ × ℝ)) (i : ℕ) : ℝ :=
  boundAngleR (vdir (vsub (nextVertexR vs i) (vs.getD i (0, 0)))
    - vdir (vsub (prevVertexR vs i) (vs.getD i (0, 0))))

/-- The concavity bit `NavigationObstacle::new` pushes for vertex `i` of
the canonicalized shape (`theta.as_radians() < PI`, `navigation.rs` line
26). -/
def newConcaveBit (vertices : List (ℝ × ℝ)) (i : ℕ) : Prop :=
  thetaAt (newShapeR vertices) i < Real.pi

/-- Specification-side notion (C8): the signed turn at vertex `i` — the
direction of the outgoing edge minus the direction of the incoming edge,
rebounded into `(-π, π]`. -/
def signedTurnAt (vs : List (ℝ × ℝ)) (i : ℕ) : ℝ :=
  boundDirectionR (vdir (vsub (nextVertexR vs i) (vs.getD i (0, 0)))
    - vdir (vsub (vs.getD i (0, 0)) (prevVertexR vs i)))

/-- Specification-side notion (C8): the interior angle at vertex `i`,
"measured via the signed turn between the incoming and outgoing edge
directions". -/
def interiorAngleAt (vs : List (ℝ × ℝ)) (i : ℕ) : ℝ :=
  Real.pi - signedTurnAt vs i

/-- The fan loop of `NavigationObstacle::expand` (`navigation.rs` lines
52-57): `count` points at distance `delta` from `v`, the direction
starting at `cur` and stepping down by the `Angle` `sigma`
(`Direction - Angle` rebounds into `(-π, π]`). -/
def fanAux (v : ℝ × ℝ) (delta sigma : ℝ) : ℝ → ℕ → List (ℝ × ℝ)
  | _, 0 => []
  | cur, k + 1 =>
    vadd v (dirMagR cur delta) ::
      fanAux v delta sigma (boundDirectionR (cur - sigma)) k

/-- The body of `NavigationObstacle::expand` for vertex `i`
(`navigation.rs` lines 39-67): a marked (reflex-classified) vertex emits
an arc fan of `steps + 1` points from the outward perpendicular of the
incoming edge to that of the outgoing edge, skipped if the angular span is
exactly `2π`; any other vertex emits the single mitred offset point. -/
def expandStepR (vs : List (ℝ × ℝ)) (delta resolution : ℝ) (i : ℕ) :
    List (ℝ × ℝ) :=
  let v := vs.getD i (0, 0)
  let pd := vdir (vsub (prevVertexR vs i) v)
  let nd := vdir (vsub (nextVertexR vs i) v)
  let theta := boundAngleR (nd - pd)
  if theta < Real.pi then
    let startDir := boundDirectionR (pd - Real.pi / 2)
    let endDir := boundDirectionR (nd + Real.pi / 2)
    let angleDiff := boundAngleR (startDir - endDir)
    if angleDiff = 2 * Real.pi then []
    else
      let steps : ℕ := max (round (angleDiff / resolution)).toNat 1
      fanAux v delta (angleDiff / (steps : ℝ)) startDir (steps + 1)
  else
    let sl := delta / Real.sin (2 * Real.pi - theta)
    [vadd v (vadd (dirMagR pd sl) (dirMagR nd sl))]

/-- The vertex list `NavigationObstacle::expand` accumulates
(`expanded_vertices`): one contribution per vertex, in order. -/
def expandVerticesR (vs : List (ℝ × ℝ)) (delta resolution : ℝ) :
    List (ℝ × ℝ) :=
  (List.range vs.length).flatMap (expandStepR vs delta resolution)

/-- The vertex list of `NavigationObstacle::new(vertices).expand(delta,
resolution)`: the expansion runs on the canonicalized shape. -/
def expandObstacleR (vertices : List (ℝ × ℝ)) (delta resolution : ℝ) :
    List (ℝ × ℝ) :=
  expandVerticesR (newShapeR vertices) delta resolution

/-- Cyclic access into a closed vertex list. -/
def cyclicGet (l : List (ℝ × ℝ)) (j : ℕ) : ℝ × ℝ :=
  l.getD (j % l.length) (0, 0)

/-- Specification-side notion (C9): discrete convexity of a closed vertex
cycle — at every vertex the boundary turns strictly in the same direction
(negative cross product of consecutive edges, the turn direction of a
canonical — positive-shoelace-reversed — cycle). -/
def ConvexCycle (l : List (ℝ × ℝ)) : Prop :=
  ∀ j, j < l.length →
    crossR (vsub (cyclicGet l (j + 1)) (cyclicGet l j))
      (vsub (cyclicGet l (j + 2)) (cyclicGet l (j + 1))) < 0

/-- The C9 square obstacle. -/
def squareR : List (ℝ × ℝ) := [(2, 2), (8, 2), (8, 8), (2, 8)]

/-- The number of fan steps `NavigationObstacle::expand` takes at each
corner of the C9 square: every corner spans an angle of `π/2`, so `steps`
is `max(round((π/2) / resolution), 1)`. -/
def stepsFor (resolution : ℝ) : ℕ :=
  max (round (Real.pi / 2 / resolution)).toNat 1

/-- The closed form of one arc fan: `count` points on the unit circle
around `c` starting at angle `d0` and stepping down by `sigma`. -/
def fanMap (c : ℝ × ℝ) (d0 sigma : ℝ) (count : ℕ) : List (ℝ × ℝ) :=
  (List.range count).map fun k : ℕ =>
    vadd c (Real.cos (d0 - (k : ℝ) * sigma), Real.sin (d0 - (k : ℝ) * sigma))

end RealAngles


noncomputable section RealAngles2

/-- The canonicalized C9 square: `NavigationObstacle::new` reverses the
positively-wound input square. -/
def squareCanon : List (ℝ × ℝ) := [(2, 8), (8, 8), (8, 2), (2, 2)]

end RealAngles2


noncomputable section RealAngles3

/-- Specification-side (C9): the outward unit normals of the canonical
square's four edges, in edge order (top edge `(2,8)→(8,8)` of the
canonicalized cycle first). -/
def nuList : List (ℝ × ℝ) := [(0, 1), (1, 0), (0, -1), (-1, 0)]

end RealAngles3


/-! ### Completeness machinery for the search: `came_from` chains, the
consistency-free loop invariant, and the discrete termination measure. -/

/-- A rooted `came_from` chain ending at `n`: a nonempty duplicate-free
list whose consecutive entries follow the predecessor map and whose head
has no predecessor.  Running the reconstruction loop from `n` returns
exactly this list. -/
structure CameChain (st : AStarState) (n : ℕ) (l : List ℕ) : Prop where
  ne_nil : l ≠ []
  last_eq : l.getLast? = some n
  chain : List.Chain' (fun a b => st.cameFrom b = some a) l
  rooted : ∃ h0, l.head? = some h0 ∧ st.cameFrom h0 = none
  nodup : l.Nodup

/-- The `came_from` edge clause as a standalone predicate: every recorded
predecessor is a real graph edge whose relaxation inequality still holds.
Needed at the intermediate states of the neighbor-relaxation fold. -/
def CameEdgeP (input : AStarInput) (st : AStarState) : Prop :=
  ∀ n c, st.cameFrom n = some c → n ∈ input.neighbors c ∧
    ∃ vn vc, st.gScore n = some vn ∧ st.gScore c = some vc ∧
      vc + input.distance c n ≤ vn

/-- Every node with a finite g-score has a rooted `came_from` chain. -/
def CFChainP (st : AStarState) : Prop :=
  ∀ n v, st.gScore n = some v → ∃ l, CameChain st n l

/-- The consistency-free invariant of `a_star`'s main loop: enough to
prove termination and completeness (a path is returned whenever the goal
is reachable) for *every* heuristic, but silent about optimality.
`entry_or_expanded` is the key liveness clause: a node with a finite
g-score either still has a frontier entry or has already pushed a finite
g-score onto all of its neighbors; `goal_entry` records that the goal is
never expanded (the loop returns first), so a queued goal entry can only
disappear by being popped and returned. -/
structure InvC (input : AStarInput) (st : AStarState) : Prop where
  gstart_fin : ∃ v, st.gScore input.start = some v
  g_nonneg : ∀ n v, st.gScore n = some v → 0 ≤ v
  g_real : ∀ n v, st.gScore n = some v →
    ∃ l, WalkTo input input.start n l ∧ pathCost input l = v
  came_edge : CameEdgeP input st
  cf_chain : CFChainP st
  queue_fin : ∀ e ∈ st.openQueue, ∃ v, st.gScore e.node = some v
  entry_or_expanded : ∀ n v, st.gScore n = some v →
    (∃ e ∈ st.openQueue, e.node = n) ∨
    (∀ m ∈ input.neighbors n, ∃ w, st.gScore m = some w)
  closed_fin : ∀ n, st.closedSet n = true →
    ∀ m ∈ input.neighbors n, ∃ w, st.gScore m = some w
  goal_not_closed : st.closedSet input.goal = false
  goal_entry : ∀ v, st.gScore input.goal = some v →
    ∃ e ∈ st.openQueue, e.node = input.goal

/-- The product of the denominators of all edge distances.  Every walk
cost times `denomProd` is an integer, so strictly decreasing sequences of
g-scores are finite. -/
def denomProd (input : AStarInput) : ℕ :=
  Finset.prod (Finset.range input.len ×ˢ Finset.range input.len)
    (fun p => (input.distance p.1 p.2).den)

/-- The rank of a g-score on the discrete value grid `(1/D)·ℕ`. -/
def rankOf (D : ℕ) : Option ℚ → ℕ
  | none => 0
  | some v => (v * (D : ℚ)).num.toNat

/-- How many nodes still have an infinite g-score. -/
def noneCount (input : AStarInput) (st : AStarState) : ℕ :=
  ((Finset.range input.len).filter (fun n => st.gScore n = none)).card

/-- The total rank of the g-scores of all nodes. -/
def rankSum (input : AStarInput) (st : AStarState) : ℕ :=
  Finset.sum (Finset.range input.len)
    (fun n => rankOf (denomProd input) (st.gScore n))

/-! # Part II: theorems -/

theorem pathCost_cons_cons (input : AStarInput) (a b : ℕ) (rest : List ℕ) :
    pathCost input (a :: b :: rest) = input.distance a b + pathCost input (b :: rest) := rfl

theorem pathCost_split (input : AStarInput) (l1 l2 : List ℕ) (x : ℕ) :
    pathCost input (l1 ++ x :: l2) = pathCost input (l1 ++ [x]) + pathCost input (x :: l2) := by
  induction l1 with
  | nil =>
    cases l2 with
    | nil => simp [pathCost]
    | cons b r => simp [pathCost]
  | cons a l1 ih =>
    cases l1 with
    | nil =>
      cases l2 with
      | nil => simp [pathCost]
      | cons b r =>
        show input.distance a x + pathCost input (x :: b :: r)
          = (input.distance a x + pathCost input [x]) + pathCost input (x :: b :: r)
        simp [pathCost]
    | cons c l1' =>
      have h1 : pathCost input ((a :: c :: l1') ++ x :: l2)
          = input.distance a c + pathCost input ((c :: l1') ++ x :: l2) := rfl
      have h2 : pathCost input ((a :: c :: l1') ++ [x])
          = input.distance a c + pathCost input ((c :: l1') ++ [x]) := rfl
      rw [h1, h2, ih]
      ring

theorem pathCost_snoc (input : AStarInput) (l : List ℕ) (u v : ℕ)
    (h : l.getLast? = some u) :
    pathCost input (l ++ [v]) = pathCost input l + input.distance u v := by
  induction l with
  | nil => simp at h
  | cons a rest ih =>
    cases rest with
    | nil =>
      simp at h
      subst h
      simp [pathCost]
    | cons b r =>
      have h' : (b :: r).getLast? = some u := by
        rw [List.getLast?_cons_cons] at h
        exact h
      have e1 : pathCost input ((a :: b :: r) ++ [v])
          = input.distance a b + pathCost input ((b :: r) ++ [v]) := rfl
      rw [e1, ih h', pathCost_cons_cons]
      ring

theorem WalkTo.ne_nil {input : AStarInput} {a b : ℕ} {l : List ℕ}
    (h : WalkTo input a b l) : l ≠ [] := by
  induction h with
  | base => simp
  | step _ _ _ => simp

theorem WalkTo.head {input : AStarInput} {a b : ℕ} {l : List ℕ}
    (h : WalkTo input a b l) : l.head? = some a := by
  induction h with
  | base => rfl
  | @step u v l' hw _ ih =>
    cases l' with
    | nil => exact absurd rfl hw.ne_nil
    | cons x r => simpa using ih

theorem WalkTo.last {input : AStarInput} {a b : ℕ} {l : List ℕ}
    (h : WalkTo input a b l) : l.getLast? = some b := by
  induction h with
  | base => rfl
  | step _ _ _ => simp

theorem WalkTo.chain {input : AStarInput} {a b : ℕ} {l : List ℕ}
    (h : WalkTo input a b l) : List.Chain' (fun x y => y ∈ input.neighbors x) l := by
  induction h with
  | base => simp
  | @step u v l' hw hn ih =>
    rw [List.chain'_append]
    refine ⟨ih, List.chain'_singleton _, ?_⟩
    intro y hy z hz
    simp at hz
    subst hz
    rw [hw.last] at hy
    simp at hy
    subst hy
    exact hn

theorem WalkTo.isWalkBetween {input : AStarInput} {a b : ℕ} {l : List ℕ}
    (h : WalkTo input a b l) : IsWalkBetween input a b l :=
  ⟨h.head, h.last, h.chain⟩

theorem isWalkBetween_walkTo {input : AStarInput} {a : ℕ} :
    ∀ (l : List ℕ) (b : ℕ), IsWalkBetween input a b l → WalkTo input a b l := by
  intro l
  induction l using List.reverseRecOn with
  | nil =>
    intro b h
    obtain ⟨h1, _, _⟩ := h
    simp at h1
  | append_singleton l' x ih =>
    intro b h
    obtain ⟨h1, h2, h3⟩ := h
    have hxb : x = b := by simpa using h2
    subst hxb
    cases l' with
    | nil =>
      have : x = a := by simpa using h1
      subst this
      exact WalkTo.base
    | cons y r =>
      have hh : (y :: r).head? = some a := by simpa using h1
      set u := (y :: r).getLast (by simp) with hu_def
      have hu : (y :: r).getLast? = some u := List.getLast?_eq_getLast _ _
      have h3' : List.Chain' (fun s t => t ∈ input.neighbors s) ((y :: r) ++ [x]) := h3
      have hsplit := List.chain'_append.mp h3'
      have hch : List.Chain' (fun s t => t ∈ input.neighbors s) (y :: r) := hsplit.1
      have hadj : x ∈ input.neighbors u := hsplit.2.2 u (by simpa using hu) x (by simp)
      exact WalkTo.step (ih u ⟨hh, hu, hch⟩) hadj

theorem walkTo_iff_isWalkBetween {input : AStarInput} {a b : ℕ} {l : List ℕ} :
    WalkTo input a b l ↔ IsWalkBetween input a b l :=
  ⟨WalkTo.isWalkBetween, isWalkBetween_walkTo l b⟩


theorem chain_pathCost_nonneg (input : AStarInput)
    (hd : ∀ a b, b ∈ input.neighbors a → 0 ≤ input.distance a b) :
    ∀ l : List ℕ, List.Chain' (fun x y => y ∈ input.neighbors x) l → 0 ≤ pathCost input l := by
  intro l
  induction l with
  | nil => intro _; exact le_refl _
  | cons a rest ih =>
    intro hc
    cases rest with
    | nil => exact le_refl _
    | cons b r =>
      rw [List.chain'_cons] at hc
      have h1 := hd a b hc.1
      have h2 := ih hc.2
      rw [pathCost_cons_cons]
      linarith

/-- Every decomposition point of a walk is itself reached by the walk's
prefix up to it. -/
theorem WalkTo.prefixWalk {input : AStarInput} {a b : ℕ} {l : List ℕ}
    (h : WalkTo input a b l) :
    ∀ p x q, l = p ++ x :: q → WalkTo input a x (p ++ [x]) := by
  induction h with
  | base =>
    intro p x q heq
    cases p with
    | nil =>
      simp only [List.nil_append, List.cons.injEq] at heq
      rw [← heq.1]
      exact WalkTo.base
    | cons c p' =>
      exfalso
      have := congrArg List.length heq
      simp at this
  | @step u v l' hw hn ih =>
    intro p x q heq
    cases q using List.reverseRecOn with
    | nil =>
      have h2 := List.append_inj' heq rfl
      obtain ⟨rfl, h2⟩ := h2
      simp only [List.cons.injEq] at h2
      rw [← h2.1]
      exact WalkTo.step hw hn
    | append_singleton q' w _ =>
      rw [show p ++ x :: (q' ++ [w]) = (p ++ x :: q') ++ [w] by simp] at heq
      have h2 := List.append_inj' heq rfl
      exact ih p x q' h2.1

/-- The suffix of a walk from any decomposition point is a neighbor chain. -/
theorem WalkTo.chain_suffix {input : AStarInput} {a b : ℕ} {l : List ℕ}
    (h : WalkTo input a b l) (p : List ℕ) (x : ℕ) (q : List ℕ) (heq : l = p ++ x :: q) :
    List.Chain' (fun s t => t ∈ input.neighbors s) (x :: q) :=
  List.Chain'.suffix h.chain ⟨p, heq.symm⟩

/-- Any walk can be replaced by a duplicate-free walk of no greater cost:
removing a cycle removes a nonnegative amount of cost. -/
theorem walkTo_nodup (input : AStarInput)
    (hd : ∀ a b, b ∈ input.neighbors a → 0 ≤ input.distance a b)
    {a b : ℕ} {l : List ℕ} (h : WalkTo input a b l) :
    ∃ l', WalkTo input a b l' ∧ l'.Nodup ∧ pathCost input l' ≤ pathCost input l := by
  induction h with
  | base => exact ⟨[a], WalkTo.base, by simp, le_refl _⟩
  | @step u v l' hw hn ih =>
    obtain ⟨l1, hw1, hnd1, hc1⟩ := ih
    by_cases hv : v ∈ l1
    · obtain ⟨p, q, rfl⟩ := List.append_of_mem hv
      refine ⟨p ++ [v], hw1.prefixWalk p v q rfl, ?_, ?_⟩
      · have hsub : List.Sublist (p ++ [v]) (p ++ v :: q) :=
          List.Sublist.append_left (List.Sublist.cons₂ v (List.nil_sublist q)) p
        exact hnd1.sublist hsub
      · have hsplit : pathCost input (p ++ v :: q)
            = pathCost input (p ++ [v]) + pathCost input (v :: q) :=
          pathCost_split input p q v
        have hq0 : 0 ≤ pathCost input (v :: q) :=
          chain_pathCost_nonneg input hd _ (hw1.chain_suffix p v q rfl)
        have hsnoc : pathCost input (l' ++ [v]) = pathCost input l' + input.distance u v :=
          pathCost_snoc input l' u v hw.last
        have hd0 := hd u v hn
        rw [hsnoc]
        linarith
    · refine ⟨l1 ++ [v], WalkTo.step hw1 hn, ?_, ?_⟩
      · rw [List.nodup_append]
        refine ⟨hnd1, by simp, ?_⟩
        intro x hx
        simp only [List.mem_singleton]
        intro hxv
        exact hv (hxv ▸ hx)
      · have hsnoc1 : pathCost input (l1 ++ [v]) = pathCost input l1 + input.distance u v :=
          pathCost_snoc input l1 u v hw1.last
        have hsnoc : pathCost input (l' ++ [v]) = pathCost input l' + input.distance u v :=
          pathCost_snoc input l' u v hw.last
        rw [hsnoc1, hsnoc]
        linarith


/-- All nodes of a walk from `start` are below `len` when the graph is
well-formed. -/
theorem WalkTo.nodes_lt {input : AStarInput} {a b : ℕ} {l : List ℕ}
    (h : WalkTo input a b l) (ha : a < input.len)
    (hwf : ∀ x y, y ∈ input.neighbors x → y < input.len) :
    ∀ x ∈ l, x < input.len := by
  induction h with
  | base => intro x hx; simp at hx; rwa [hx]
  | @step u v l' hw hn ih =>
    intro x hx
    rw [List.mem_append] at hx
    rcases hx with hx | hx
    · exact ih x hx
    · simp at hx
      rw [hx]
      exact hwf u v hn

theorem mem_listsLE (len : ℕ) :
    ∀ (n : ℕ) (l : List ℕ), l.length ≤ n → (∀ x ∈ l, x < len) → l ∈ listsLE len n := by
  intro n
  induction n with
  | zero =>
    intro l hlen _
    rw [Nat.le_zero, List.length_eq_zero] at hlen
    subst hlen
    simp [listsLE]
  | succ n ih =>
    intro l hlen hmem
    cases l with
    | nil => simp [listsLE]
    | cons x r =>
      have hx : x < len := hmem x (by simp)
      have hr : r ∈ listsLE len n :=
        ih r (by simpa using Nat.lt_succ_iff.mp (Nat.lt_of_lt_of_le (by simp) hlen))
          (fun y hy => hmem y (by simp [hy]))
      rw [listsLE]
      apply Finset.mem_union_right
      rw [Finset.mem_image]
      exact ⟨(x, r), by rw [Finset.mem_product]; exact ⟨Finset.mem_range.mpr hx, hr⟩, rfl⟩

/-- A duplicate-free list with entries below `len` has length at most `len`. -/
theorem nodup_length_le (len : ℕ) (l : List ℕ) (hnd : l.Nodup)
    (hmem : ∀ x ∈ l, x < len) : l.length ≤ len := by
  classical
  have h1 : l.length = l.toFinset.card := (List.toFinset_card_of_nodup hnd).symm
  have h2 : l.toFinset ⊆ Finset.range len := by
    intro x hx
    rw [List.mem_toFinset] at hx
    exact Finset.mem_range.mpr (hmem x hx)
  calc l.length = l.toFinset.card := h1
    _ ≤ (Finset.range len).card := Finset.card_le_card h2
    _ = len := Finset.card_range len

/-- Membership characterization of `simpleWalks`. -/
theorem mem_simpleWalks {input : AStarInput} {u : ℕ} {l : List ℕ}
    (hstart : input.start < input.len)
    (hwf : ∀ x y, y ∈ input.neighbors x → y < input.len)
    (hw : IsWalkBetween input input.start u l) (hnd : l.Nodup) :
    l ∈ simpleWalks input u := by
  rw [simpleWalks, Finset.mem_filter]
  refine ⟨?_, hw, hnd⟩
  have hb := (isWalkBetween_walkTo l u hw).nodes_lt hstart hwf
  exact mem_listsLE input.len input.len l (nodup_length_le input.len l hnd hb) hb

/-- `shortestDist` is a lower bound on the cost of every walk. -/
theorem shortestDist_le {input : AStarInput} {u : ℕ} {l : List ℕ}
    (hstart : input.start < input.len)
    (hwf : ∀ x y, y ∈ input.neighbors x → y < input.len)
    (hd : ∀ a b, b ∈ input.neighbors a → 0 ≤ input.distance a b)
    (hw : IsWalkBetween input input.start u l) :
    ∃ w, shortestDist input u = some w ∧ w ≤ pathCost input l := by
  obtain ⟨l', hw', hnd', hc'⟩ := walkTo_nodup input hd (isWalkBetween_walkTo l u hw)
  have hmem : l' ∈ simpleWalks input u := mem_simpleWalks hstart hwf hw'.isWalkBetween hnd'
  have hmem2 : pathCost input l' ∈ (simpleWalks input u).image (pathCost input) :=
    Finset.mem_image_of_mem _ hmem
  obtain ⟨w, hwmin⟩ := Finset.min_of_mem hmem2
  refine ⟨w, hwmin, ?_⟩
  have := Finset.min_le_of_eq hmem2 hwmin
  linarith
  
/-- A finite `shortestDist` is attained by a duplicate-free walk. -/
theorem shortestDist_attained {input : AStarInput} {u : ℕ} {w : ℚ}
    (h : shortestDist input u = some w) :
    ∃ l, IsWalkBetween input input.start u l ∧ l.Nodup ∧ pathCost input l = w := by
  have hmem := Finset.mem_of_min h
  rw [Finset.mem_image] at hmem
  obtain ⟨l, hl, hc⟩ := hmem
  rw [simpleWalks, Finset.mem_filter] at hl
  exact ⟨l, hl.2.1, hl.2.2, hc⟩


/-! ### Score-order and frontier-order lemmas -/

theorem optLe_refl (a : Option ℚ) : optLe a a := by
  cases a <;> simp [optLe]

theorem optLe_trans {a b c : Option ℚ} (h1 : optLe a b) (h2 : optLe b c) : optLe a c := by
  cases a <;> cases b <;> cases c <;> first
  | (simp [optLe] at h1 h2 ⊢; linarith)
  | simp [optLe] at h1 h2 ⊢

theorem optLtB_false_iff {t g : Option ℚ} : optLtB t g = false ↔ optLe g t := by
  cases t <;> cases g <;> simp [optLtB, optLe]

theorem optLtB_true_dest {t g : Option ℚ} (h : optLtB t g = true) :
    ∃ a, t = some a ∧ (∀ b, g = some b → a < b) := by
  cases t with
  | none => simp [optLtB] at h
  | some a =>
    refine ⟨a, rfl, ?_⟩
    intro b hb
    subst hb
    simpa [optLtB] using h

theorem optAdd_some (v : ℚ) (d : ℚ) : optAdd (some v) d = some (v + d) := rfl

theorem optAdd_none (d : ℚ) : optAdd none d = none := rfl

theorem optLe_some_iff {a b : ℚ} : optLe (some a) (some b) ↔ a ≤ b := Iff.rfl

theorem optLe_mono_add {a b d : ℚ} (h : a ≤ b) : optLe (some (a + d)) (some (b + d)) := by
  rw [optLe_some_iff]
  linarith

theorem NodeCost.ltB_false_iff {a b : NodeCost} :
    NodeCost.ltB a b = false ↔
      (a.fScore ≤ b.fScore ∧ (b.fScore = a.fScore → b.node ≤ a.node)) := by
  simp only [NodeCost.ltB, decide_eq_false_iff_not, not_or, not_and, not_lt]

theorem NodeCost.ltB_false_trans {a b c : NodeCost}
    (h1 : NodeCost.ltB a b = false) (h2 : NodeCost.ltB b c = false) :
    NodeCost.ltB a c = false := by
  rw [NodeCost.ltB_false_iff] at h1 h2 ⊢
  obtain ⟨h1f, h1n⟩ := h1
  obtain ⟨h2f, h2n⟩ := h2
  refine ⟨le_trans h1f h2f, fun he => ?_⟩
  have hbf : b.fScore = a.fScore := le_antisymm (by linarith) (by linarith)
  have hcf : c.fScore = b.fScore := by linarith
  exact le_trans (h2n hcf) (h1n hbf)

theorem maxEntry_mem (m : NodeCost) (l : List NodeCost) : maxEntry m l ∈ m :: l := by
  induction l generalizing m with
  | nil => simp [maxEntry]
  | cons e rest ih =>
    rw [maxEntry]
    by_cases hc : NodeCost.ltB m e
    · rw [if_pos hc]
      rcases List.mem_cons.mp (ih e) with h | h
      · simp [h]
      · simp [h]
    · rw [if_neg hc]
      rcases List.mem_cons.mp (ih m) with h | h
      · simp [h]
      · simp [h]

theorem maxEntry_not_lt (m : NodeCost) (l : List NodeCost) :
    ∀ x ∈ m :: l, NodeCost.ltB (maxEntry m l) x = false := by
  induction l generalizing m with
  | nil =>
    intro x hx
    simp at hx
    subst hx
    rw [NodeCost.ltB_false_iff]
    exact ⟨le_refl _, fun _ => le_refl _⟩
  | cons e rest ih =>
    intro x hx
    rw [maxEntry]
    set m' := if NodeCost.ltB m e then e else m with hm'
    have hm'notlt : NodeCost.ltB m' m = false ∧ NodeCost.ltB m' e = false := by
      by_cases hc : NodeCost.ltB m e
      · rw [hm', if_pos hc]
        constructor
        · -- ltB m e = true means e is strictly greater; show ltB e m = false
          rw [NodeCost.ltB_false_iff]
          simp only [NodeCost.ltB, decide_eq_true_eq] at hc
          rcases hc with h | ⟨hf, hn⟩
          · exact ⟨le_of_lt h, fun he => by simp [he] at h⟩
          · exact ⟨hf.le, fun _ => le_of_lt hn⟩
        · rw [NodeCost.ltB_false_iff]
          exact ⟨le_refl _, fun _ => le_refl _⟩
      · rw [hm', if_neg hc]
        refine ⟨?_, by simpa using eq_false_of_ne_true hc⟩
        rw [NodeCost.ltB_false_iff]
        exact ⟨le_refl _, fun _ => le_refl _⟩
    rcases List.mem_cons.mp hx with hxm | hx'
    · exact hxm ▸ NodeCost.ltB_false_trans (ih m' m' (by simp [maxEntry_mem])) hm'notlt.1
    · rcases List.mem_cons.mp hx' with hxe | hxr
      · exact hxe ▸ NodeCost.ltB_false_trans (ih m' m' (by simp [maxEntry_mem])) hm'notlt.2
      · exact ih m' x (by simp [hxr])

theorem popMax_none_iff (q : List NodeCost) : popMax q = none ↔ q = [] := by
  cases q <;> simp [popMax]

theorem popMax_mem {q : List NodeCost} {e : NodeCost} {rest : List NodeCost}
    (h : popMax q = some (e, rest)) : e ∈ q ∧ rest = q.erase e := by
  cases q with
  | nil => simp [popMax] at h
  | cons a r =>
    rw [popMax] at h
    simp only [Option.some.injEq, Prod.mk.injEq] at h
    obtain ⟨he, hrest⟩ := h
    exact ⟨he ▸ maxEntry_mem a r, by rw [← hrest, he]⟩

theorem popMax_min_f {q : List NodeCost} {e : NodeCost} {rest : List NodeCost}
    (h : popMax q = some (e, rest)) :
    ∀ x ∈ q, e.fScore ≤ x.fScore ∧ (x.fScore = e.fScore → x.node ≤ e.node) := by
  cases q with
  | nil => simp [popMax] at h
  | cons a r =>
    rw [popMax] at h
    simp only [Option.some.injEq, Prod.mk.injEq] at h
    intro x hx
    have := maxEntry_not_lt a r x hx
    rw [h.1] at this
    exact NodeCost.ltB_false_iff.mp this

theorem popMax_rest_mem {q : List NodeCost} {e : NodeCost} {rest : List NodeCost}
    (h : popMax q = some (e, rest)) : ∀ x ∈ rest, x ∈ q := by
  intro x hx
  rw [(popMax_mem h).2] at hx
  exact List.mem_of_mem_erase hx

/-! ### Heuristic telescoping along a chain -/

theorem chain_heuristic_le (input : AStarInput)
    (hh : ∀ a b, b ∈ input.neighbors a → input.heuristic a ≤ input.distance a b + input.heuristic b) :
    ∀ (q : List ℕ) (x u : ℕ), List.Chain' (fun s t => t ∈ input.neighbors s) (x :: q) →
      (x :: q).getLast? = some u →
      input.heuristic x ≤ pathCost input (x :: q) + input.heuristic u := by
  intro q
  induction q with
  | nil =>
    intro x u _ hlast
    simp at hlast
    subst hlast
    simp [pathCost]
  | cons y r ih =>
    intro x u hchain hlast
    rw [List.chain'_cons] at hchain
    have h1 := hh x y hchain.1
    have h2 := ih y u hchain.2 (by simpa using hlast)
    rw [pathCost_cons_cons]
    linarith


theorem optLe_some_dest {a : Option ℚ} {b : ℚ} (h : optLe a (some b)) :
    ∃ a', a = some a' ∧ a' ≤ b := by
  cases a with
  | none => simp [optLe] at h
  | some x => exact ⟨x, rfl, h⟩

theorem WalkTo.eq_snoc {input : AStarInput} {a b : ℕ} {l : List ℕ}
    (h : WalkTo input a b l) : ∃ p, l = p ++ [b] := by
  cases h with
  | base => exact ⟨[], rfl⟩
  | step _ _ => exact ⟨_, rfl⟩

/-- One neighbor-relaxation either changes nothing (no strict improvement)
or performs the full update of `a_star`'s inner loop. -/
theorem expandNeighbor_cases (input : AStarInput) (u : ℕ) (st : AStarState) (m : ℕ) :
    (expandNeighbor input u st m = st ∧
      optLtB (optAdd (st.gScore u) (input.distance u m)) (st.gScore m) = false) ∨
    (∃ vu, st.gScore u = some vu ∧
      optLtB (some (vu + input.distance u m)) (st.gScore m) = true ∧
      expandNeighbor input u st m =
        { openQueue := ⟨m, (vu + input.distance u m) + input.heuristic m⟩ :: st.openQueue,
          closedSet := Function.update st.closedSet u true,
          cameFrom := Function.update st.cameFrom m (some u),
          gScore := Function.update st.gScore m (some (vu + input.distance u m)) }) := by
  by_cases hc : optLtB (optAdd (st.gScore u) (input.distance u m)) (st.gScore m) = true
  · right
    obtain ⟨t, ht, _⟩ := optLtB_true_dest hc
    cases hgu : st.gScore u with
    | none => rw [hgu] at ht; simp [optAdd] at ht
    | some vu =>
      rw [hgu] at ht
      rw [optAdd_some] at ht
      obtain rfl : t = vu + input.distance u m := by simpa using ht.symm
      have hc' : optLtB (some (vu + input.distance u m)) (st.gScore m) = true := by
        rwa [hgu, optAdd_some] at hc
      refine ⟨vu, rfl, hc', ?_⟩
      rw [expandNeighbor, hgu]
      rw [optAdd_some]
      rw [if_pos hc']
      rfl
  · left
    have hc' : optLtB (optAdd (st.gScore u) (input.distance u m)) (st.gScore m) = false :=
      Bool.eq_false_iff.mpr hc
    refine ⟨?_, hc'⟩
    rw [expandNeighbor, if_neg (by simp [hc'])]


/-- Complete description of one expansion (`expandAll`) relative to the
state it starts from: the expanded node's g-score is untouched, g-scores
only decrease, every change is a relaxation from `u` (recording predecessor
`u`, the exact tentative score, and a matching pushed frontier entry),
every processed neighbor ends up bounded by its tentative score, the queue
only gains relaxation entries, and the closed set only gains `u`. -/
theorem expandAll_facts (input : AStarInput) (u : ℕ) (vu : ℚ)
    (hd : ∀ a b, b ∈ input.neighbors a → 0 ≤ input.distance a b) :
    ∀ (l : List ℕ) (st0 st' : AStarState), (∀ m ∈ l, m ∈ input.neighbors u) →
      st0.gScore u = some vu →
      st' = List.foldl (expandNeighbor input u) st0 l →
      (st'.gScore u = some vu) ∧
      (∀ n, optLe (st'.gScore n) (st0.gScore n)) ∧
      (∀ n, (st'.gScore n = st0.gScore n ∧ st'.cameFrom n = st0.cameFrom n) ∨
        (n ∈ input.neighbors u ∧ st'.gScore n = some (vu + input.distance u n) ∧
         st'.cameFrom n = some u ∧
         optLtB (some (vu + input.distance u n)) (st0.gScore n) = true ∧
         (∃ p ∈ st'.openQueue, p.node = n ∧
            p.fScore = (vu + input.distance u n) + input.heuristic n))) ∧
      (∀ m ∈ l, optLe (st'.gScore m) (some (vu + input.distance u m))) ∧
      (∀ p ∈ st'.openQueue, p ∈ st0.openQueue ∨
        (p.node ∈ input.neighbors u ∧
         st'.gScore p.node = some (vu + input.distance u p.node) ∧
         p.fScore = (vu + input.distance u p.node) + input.heuristic p.node)) ∧
      (∀ p ∈ st0.openQueue, p ∈ st'.openQueue) ∧
      (∀ n, st'.closedSet n = st0.closedSet n ∨ (n = u ∧ st'.closedSet n = true)) := by
  intro l
  induction l with
  | nil =>
    intro st0 st' _ hgu hst'
    rw [List.foldl_nil] at hst'
    subst hst'
    refine ⟨hgu, fun n => optLe_refl _, fun n => Or.inl ⟨rfl, rfl⟩, by simp,
      fun p hp => Or.inl hp, fun p hp => hp, fun n => Or.inl rfl⟩
  | cons m0 l' ih =>
    intro st0 st' hmem hgu hst'
    rw [List.foldl_cons] at hst'
    have hm0 : m0 ∈ input.neighbors u := hmem m0 (by simp)
    rcases expandNeighbor_cases input u st0 m0 with ⟨heq, hnolt⟩ | ⟨vu', hgu', hlt, heq⟩
    · -- no improvement: state unchanged at this step
      rw [heq] at hst'
      obtain ⟨hA, hB, hCD, hE, hF, hH, hG⟩ :=
        ih st0 st' (fun m hm => hmem m (by simp [hm])) hgu hst'
      refine ⟨hA, hB, hCD, ?_, hF, hH, hG⟩
      intro m hm
      rcases List.mem_cons.mp hm with rfl | hm'
      · -- bound for m0 from the failed test
        rw [hgu, optAdd_some] at hnolt
        have h1 : optLe (st0.gScore m) (some (vu + input.distance u m)) :=
          optLtB_false_iff.mp hnolt
        exact optLe_trans (hB m) h1
      · exact hE m hm'
    · -- improvement: the full update happened
      have hveq : vu' = vu := by rw [hgu] at hgu'; simpa using hgu'.symm
      rw [hveq] at hlt heq
      set st1 : AStarState :=
        { openQueue := ⟨m0, (vu + input.distance u m0) + input.heuristic m0⟩ :: st0.openQueue,
          closedSet := Function.update st0.closedSet u true,
          cameFrom := Function.update st0.cameFrom m0 (some u),
          gScore := Function.update st0.gScore m0 (some (vu + input.distance u m0)) }
        with hst1
      rw [heq] at hst'
      have hm0u : m0 ≠ u := by
        intro hmu
        rw [hmu] at hlt hm0
        rw [hgu] at hlt
        obtain ⟨a, ha, hab⟩ := optLtB_true_dest hlt
        have h1 := hab vu rfl
        have h2 : a = vu + input.distance u u := by simpa using ha.symm
        have h3 := hd u u hm0
        rw [h2] at h1
        linarith
      have hg1 : st1.gScore = Function.update st0.gScore m0 (some (vu + input.distance u m0)) := rfl
      have hc1 : st1.cameFrom = Function.update st0.cameFrom m0 (some u) := rfl
      have hq1 : st1.openQueue
          = ⟨m0, (vu + input.distance u m0) + input.heuristic m0⟩ :: st0.openQueue := rfl
      have hcl1 : st1.closedSet = Function.update st0.closedSet u true := rfl
      have hgu1 : st1.gScore u = some vu := by
        rw [hg1, Function.update_noteq (Ne.symm hm0u)]
        exact hgu
      obtain ⟨hA, hB, hCD, hE, hF, hH, hG⟩ :=
        ih st1 st' (fun m hm => hmem m (by simp [hm])) hgu1 hst'
      have hg1m0 : st1.gScore m0 = some (vu + input.distance u m0) := by
        rw [hg1, Function.update_same]
      have hg1other : ∀ n, n ≠ m0 → st1.gScore n = st0.gScore n := by
        intro n hn
        rw [hg1, Function.update_noteq hn]
      have hc1other : ∀ n, n ≠ m0 → st1.cameFrom n = st0.cameFrom n := by
        intro n hn
        rw [hc1, Function.update_noteq hn]
      have hstargm0 : st'.gScore m0 = some (vu + input.distance u m0) := by
        rcases hCD m0 with ⟨he1, _⟩ | ⟨_, he1, _, _, _⟩
        · rw [he1, hg1m0]
        · exact he1
      have hstarcm0 : st'.cameFrom m0 = some u := by
        rcases hCD m0 with ⟨_, he2⟩ | ⟨_, _, he2, _, _⟩
        · rw [he2, hc1, Function.update_same]
        · exact he2
      refine ⟨hA, ?_, ?_, ?_, ?_, ?_, ?_⟩
      · -- B: st' ≤ st0 pointwise
        intro n
        refine optLe_trans (hB n) ?_
        by_cases hn : n = m0
        · rw [hn, hg1m0]
          obtain ⟨a, ha, hab⟩ := optLtB_true_dest hlt
          obtain rfl : a = vu + input.distance u m0 := by simpa using ha.symm
          cases hg0 : st0.gScore m0 with
          | none => simp [optLe]
          | some w => exact (hab w hg0).le
        · rw [hg1other n hn]; exact optLe_refl _
      · -- CD
        intro n
        by_cases hn : n = m0
        · rw [hn]
          right
          refine ⟨hm0, hstargm0, hstarcm0, hlt, ?_⟩
          -- the pushed entry survives
          have hp0 : (⟨m0, (vu + input.distance u m0) + input.heuristic m0⟩ : NodeCost)
              ∈ st1.openQueue := by rw [hq1]; simp
          exact ⟨_, hH _ hp0, rfl, rfl⟩
        · rcases hCD n with ⟨he1, he2⟩ | ⟨hn1, hn2, hn3, hn4, hn5⟩
          · left
            rw [he1, he2, hg1other n hn, hc1other n hn]
            exact ⟨rfl, rfl⟩
          · right
            rw [hg1other n hn] at hn4
            exact ⟨hn1, hn2, hn3, hn4, hn5⟩
      · -- E
        intro m hm
        rcases List.mem_cons.mp hm with rfl | hm'
        · rw [hstargm0]; exact optLe_refl _
        · exact hE m hm'
      · -- F
        intro p hp
        rcases hF p hp with hp1 | hp2
        · rw [hq1] at hp1
          rcases List.mem_cons.mp hp1 with hpeq | hp1'
          · right
            rw [hpeq]
            exact ⟨hm0, hstargm0, rfl⟩
          · exact Or.inl hp1'
        · exact Or.inr hp2
      · -- H
        intro p hp
        refine hH p ?_
        rw [hq1]
        simp [hp]
      · -- G
        intro n
        rcases hG n with hg | hg
        · by_cases hn : n = u
          · right
            refine ⟨hn, ?_⟩
            rw [hg, hcl1, hn, Function.update_same]
          · left
            rw [hg, hcl1, Function.update_noteq hn]
        · exact Or.inr hg


/-- If a walk's endpoint has a g-score above the walk's cost, some edge of
the walk is still relaxable: its source's g-score is within the prefix cost
but its target's g-score exceeds prefix cost plus edge cost. -/
theorem walk_violation (input : AStarInput) (g : ℕ → Option ℚ) {a u : ℕ} {P : List ℕ}
    (hW : WalkTo input a u P) (hga : optLe (g a) (some 0))
    (hviol : ¬ optLe (g u) (some (pathCost input P))) :
    ∃ p x y s vx, P = p ++ x :: y :: s ∧ g x = some vx ∧
      vx ≤ pathCost input (p ++ [x]) ∧
      ¬ optLe (g y) (some (pathCost input (p ++ [x]) + input.distance x y)) := by
  induction hW with
  | base =>
    exfalso
    apply hviol
    simpa [pathCost] using hga
  | @step u0 v l hw hn ih =>
    by_cases hub : optLe (g u0) (some (pathCost input l))
    · obtain ⟨p, hp⟩ := hw.eq_snoc
      obtain ⟨vx, hvx, hvxle⟩ := optLe_some_dest hub
      refine ⟨p, u0, v, [], vx, ?_, hvx, ?_, ?_⟩
      · rw [hp]; simp
      · rw [← hp]; exact hvxle
      · rw [← hp]
        rw [pathCost_snoc input l u0 v hw.last] at hviol
        exact hviol
    · obtain ⟨p, x, y, s, vx, hPeq, h1, h2, h3⟩ := ih hub
      refine ⟨p, x, y, s ++ [v], vx, ?_, h1, h2, h3⟩
      rw [hPeq]
      simp

/-- Key consequence of the invariant: whatever entry the frontier yields,
the popped node's current g-score is already the true shortest-path
distance — provided the heuristic is consistent. -/
theorem popped_g_eq_shortest (input : AStarInput)
    (hd : ∀ a b, b ∈ input.neighbors a → 0 ≤ input.distance a b)
    (hh : ∀ a b, b ∈ input.neighbors a →
      input.heuristic a ≤ input.distance a b + input.heuristic b)
    (hwf : ∀ x y, y ∈ input.neighbors x → y < input.len)
    (hstart : input.start < input.len)
    {st : AStarState} {e : NodeCost} {rest : List NodeCost}
    (hInv : Inv input st) (hpop : popMax st.openQueue = some (e, rest)) :
    ∃ v, st.gScore e.node = some v ∧ shortestDist input e.node = some v := by
  obtain ⟨hemem, _⟩ := popMax_mem hpop
  obtain ⟨v, hgv, hfb⟩ := hInv.queue_bound e hemem
  obtain ⟨lw, hlw, hlc⟩ := hInv.g_realizable e.node v hgv
  obtain ⟨w, hwd, hwle⟩ := shortestDist_le hstart hwf hd hlw.isWalkBetween
  refine ⟨v, hgv, ?_⟩
  by_cases hveq : w = v
  · rwa [hveq] at hwd
  have hwlt : w < v := lt_of_le_of_ne (hlc ▸ hwle) hveq
  exfalso
  obtain ⟨P, hPw, _, hPc⟩ := shortestDist_attained hwd
  have hPW := isWalkBetween_walkTo P e.node hPw
  have hviol : ¬ optLe (st.gScore e.node) (some (pathCost input P)) := by
    rw [hgv, hPc]
    simp only [optLe, not_le]
    exact hwlt
  have hga : optLe (st.gScore input.start) (some 0) := by
    rw [hInv.g_start]
    exact le_refl (0:ℚ)
  obtain ⟨p, x, y, s, vx, hPeq, hgx, hvxle, hnotle⟩ :=
    walk_violation input st.gScore hPW hga hviol
  have hchain : List.Chain' (fun s t => t ∈ input.neighbors s) (x :: y :: s) :=
    hPW.chain_suffix p x (y :: s) hPeq
  have hadjxy : y ∈ input.neighbors x := (List.chain'_cons.mp hchain).1
  rcases hInv.g_entry_or_settled x vx hgx with ⟨e', he'mem, he'node, he'f⟩ | hsettled
  · have hmin := (popMax_min_f hpop e' he'mem).1
    have hlastxys : (x :: y :: s).getLast? = some e.node := by
      have h1 := hPW.last
      rw [hPeq, List.getLast?_append_of_ne_nil p (by simp)] at h1
      exact h1
    have htel := chain_heuristic_le input hh (y :: s) x e.node hchain hlastxys
    have hsplitc := pathCost_split input p (y :: s) x
    rw [← hPeq] at hsplitc
    rw [hPc] at hsplitc
    linarith
  · apply hnotle
    refine optLe_trans (hsettled y hadjxy) ?_
    simp only [optLe]
    linarith


/-- Popping an already-closed node preserves the invariant: the state is
unchanged apart from the removed frontier entry, whose role is covered by
`closed_settled`. -/
theorem inv_skip (input : AStarInput) {st : AStarState} {e : NodeCost}
    {rest : List NodeCost} (hInv : Inv input st)
    (hpop : popMax st.openQueue = some (e, rest)) (hcl : st.closedSet e.node = true) :
    Inv input { st with openQueue := rest } := by
  obtain ⟨hemem, hrest⟩ := popMax_mem hpop
  refine ⟨hInv.g_start, hInv.g_nonneg, hInv.g_realizable, hInv.came_start,
    hInv.came_of_g, hInv.came_edge, ?_, ?_, hInv.closed_settled⟩
  · intro p hp
    exact hInv.queue_bound p (popMax_rest_mem hpop p hp)
  · intro n vn hg
    rcases hInv.g_entry_or_settled n vn hg with ⟨e', he'mem, he'n, he'f⟩ | hs
    · by_cases hee : e' = e
      · subst hee
        rw [he'n] at hcl
        obtain ⟨vc, hvc, _, hbound⟩ := hInv.closed_settled n hcl
        right
        rw [hg] at hvc
        obtain rfl : vn = vc := by simpa using hvc
        exact hbound
      · exact Or.inl ⟨e', by rw [hrest]; exact (List.mem_erase_of_ne hee).mpr he'mem, he'n, he'f⟩
    · exact Or.inr hs

/-- Expanding a non-closed popped node preserves the invariant.  This is
where consistency of the heuristic enters, through
`popped_g_eq_shortest`. -/
theorem inv_expand (input : AStarInput)
    (hd : ∀ a b, b ∈ input.neighbors a → 0 ≤ input.distance a b)
    (hh : ∀ a b, b ∈ input.neighbors a →
      input.heuristic a ≤ input.distance a b + input.heuristic b)
    (hwf : ∀ x y, y ∈ input.neighbors x → y < input.len)
    (hstart : input.start < input.len)
    {st : AStarState} {e : NodeCost} {rest : List NodeCost} (hInv : Inv input st)
    (hpop : popMax st.openQueue = some (e, rest)) :
    Inv input (expandAll input e.node { st with openQueue := rest }) := by
  obtain ⟨hemem, hrest⟩ := popMax_mem hpop
  obtain ⟨vu, hgu, hdelta⟩ := popped_g_eq_shortest input hd hh hwf hstart hInv hpop
  obtain ⟨hA, hB, hCD, hE, hF, hH, hG⟩ :=
    expandAll_facts input e.node vu hd (input.neighbors e.node)
      { st with openQueue := rest } (expandAll input e.node { st with openQueue := rest })
      (fun m hm => hm) hgu rfl
  have hvu0 : 0 ≤ vu := hInv.g_nonneg e.node vu hgu
  -- the start node's scores never change during an expansion
  have hstartfix : (expandAll input e.node { st with openQueue := rest }).gScore input.start
        = some 0 ∧
      (expandAll input e.node { st with openQueue := rest }).cameFrom input.start
        = st.cameFrom input.start := by
    rcases hCD input.start with ⟨h1, h2⟩ | ⟨hmem, _, _, hstrict, _⟩
    · exact ⟨h1.trans hInv.g_start, h2⟩
    · exfalso
      have hd0 := hd e.node input.start hmem
      rw [show ({ st with openQueue := rest } : AStarState).gScore = st.gScore from rfl,
        hInv.g_start] at hstrict
      obtain ⟨t, ht, hlt'⟩ := optLtB_true_dest hstrict
      have h0 := hlt' 0 rfl
      have : t = vu + input.distance e.node input.start := by simpa using ht.symm
      rw [this] at h0
      linarith
  -- a closed node's g-score never changes (it is already at its shortest distance)
  have hclosedfix : ∀ n, st.closedSet n = true →
      (expandAll input e.node { st with openQueue := rest }).gScore n = st.gScore n := by
    intro n hcln
    rcases hCD n with ⟨h1, _⟩ | ⟨hmem, hgn, _, hstrict, _⟩
    · exact h1
    · exfalso
      obtain ⟨vc, hvc, hdc, _⟩ := hInv.closed_settled n hcln
      rw [show ({ st with openQueue := rest } : AStarState).gScore = st.gScore from rfl,
        hvc] at hstrict
      obtain ⟨t, ht, hlt'⟩ := optLtB_true_dest hstrict
      have hvclt := hlt' vc rfl
      have hteq : t = vu + input.distance e.node n := by simpa using ht.symm
      -- but vu + d(e.node, n) is the cost of a walk to n, so ≥ δ(n) = vc
      obtain ⟨lw, hlw, hlc⟩ := hInv.g_realizable e.node vu hgu
      have hw2 := WalkTo.step hlw hmem
      obtain ⟨w2, hw2d, hw2le⟩ := shortestDist_le hstart hwf hd hw2.isWalkBetween
      rw [hdc] at hw2d
      obtain rfl : w2 = vc := by simpa using hw2d.symm
      rw [pathCost_snoc input lw e.node n hlw.last, hlc] at hw2le
      rw [hteq] at hvclt
      linarith
  refine ⟨hstartfix.1, ?_, ?_, hstartfix.2.trans hInv.came_start, ?_, ?_, ?_, ?_, ?_⟩
  · -- g_nonneg
    intro n vn hg
    rcases hCD n with ⟨h1, _⟩ | ⟨hmem, hgn, _, _, _⟩
    · exact hInv.g_nonneg n vn (h1 ▸ hg)
    · rw [hgn] at hg
      obtain rfl : vn = vu + input.distance e.node n := by simpa using hg.symm
      have := hd e.node n hmem
      linarith
  · -- g_realizable
    intro n vn hg
    rcases hCD n with ⟨h1, _⟩ | ⟨hmem, hgn, _, _, _⟩
    · exact hInv.g_realizable n vn (h1 ▸ hg)
    · rw [hgn] at hg
      obtain rfl : vn = vu + input.distance e.node n := by simpa using hg.symm
      obtain ⟨lw, hlw, hlc⟩ := hInv.g_realizable e.node vu hgu
      exact ⟨lw ++ [n], WalkTo.step hlw hmem,
        by rw [pathCost_snoc input lw e.node n hlw.last, hlc]⟩
  · -- came_of_g
    intro n vn hg hne
    rcases hCD n with ⟨h1, h2⟩ | ⟨_, _, hcn, _, _⟩
    · obtain ⟨c, hc⟩ := hInv.came_of_g n vn (h1 ▸ hg) hne
      exact ⟨c, h2.trans hc⟩
    · exact ⟨e.node, hcn⟩
  · -- came_edge
    intro n c hc
    rcases hCD n with ⟨h1, h2⟩ | ⟨hmem, hgn, hcn, _, _⟩
    · rw [h2] at hc
      obtain ⟨hadj, vn, vc, hvn, hvc, hedge⟩ := hInv.came_edge n c hc
      refine ⟨hadj, vn, ?_⟩
      have hble := hB c
      rw [show ({ st with openQueue := rest } : AStarState).gScore = st.gScore from rfl,
        hvc] at hble
      obtain ⟨vc', hvc', hvc'le⟩ := optLe_some_dest hble
      exact ⟨vc', h1.trans hvn, hvc', by linarith⟩
    · rw [hcn] at hc
      obtain rfl : c = e.node := by simpa using hc.symm
      exact ⟨hmem, vu + input.distance e.node n, vu, hgn, hA, le_refl _⟩
  · -- queue_bound
    intro p hp
    rcases hF p hp with hp0 | ⟨hmem, hgp, hfp⟩
    · have hpm : p ∈ st.openQueue := popMax_rest_mem hpop p hp0
      obtain ⟨v, hv, hvf⟩ := hInv.queue_bound p hpm
      have hble := hB p.node
      rw [show ({ st with openQueue := rest } : AStarState).gScore = st.gScore from rfl,
        hv] at hble
      obtain ⟨v', hv', hv'le⟩ := optLe_some_dest hble
      exact ⟨v', hv', by linarith⟩
    · exact ⟨vu + input.distance e.node p.node, hgp, le_of_eq hfp.symm⟩
  · -- g_entry_or_settled
    intro n vn hg
    by_cases hnu : n = e.node
    · right
      rw [hnu] at hg ⊢
      obtain rfl : vn = vu := by rw [hA] at hg; simpa using hg.symm
      intro m hm
      exact hE m hm
    · rcases hCD n with ⟨h1, _⟩ | ⟨hmem, hgn, _, _, hp⟩
      · have hgold : st.gScore n = some vn := h1 ▸ hg
        rcases hInv.g_entry_or_settled n vn hgold with ⟨e', he'mem, he'n, he'f⟩ | hs
        · by_cases hee : e' = e
          · exfalso
            apply hnu
            rw [← he'n, hee]
          · left
            refine ⟨e', hH e' ?_, he'n, he'f⟩
            rw [show ({ st with openQueue := rest } : AStarState).openQueue = rest from rfl,
              hrest]
            exact (List.mem_erase_of_ne hee).mpr he'mem
        · right
          intro m hm
          refine optLe_trans (hB m) ?_
          rw [show ({ st with openQueue := rest } : AStarState).gScore = st.gScore from rfl]
          exact hs m hm
      · left
        obtain ⟨p, hpmem, hpn, hpf⟩ := hp
        rw [hgn] at hg
        obtain rfl : vn = vu + input.distance e.node n := by simpa using hg.symm
        exact ⟨p, hpmem, hpn, hpf⟩
  · -- closed_settled
    intro n hcln
    rcases hG n with hcl1 | ⟨hnu, _⟩
    · rw [show ({ st with openQueue := rest } : AStarState).closedSet = st.closedSet from rfl]
        at hcl1
      rw [hcl1] at hcln
      obtain ⟨vc, hvc, hdc, hbound⟩ := hInv.closed_settled n hcln
      refine ⟨vc, ?_, hdc, ?_⟩
      · rw [hclosedfix n hcln]
        exact hvc
      · intro m hm
        refine optLe_trans (hB m) ?_
        rw [show ({ st with openQueue := rest } : AStarState).gScore = st.gScore from rfl]
        exact hbound m hm
    · refine ⟨vu, ?_, ?_, ?_⟩
      · rw [hnu]; exact hA
      · rw [hnu]; exact hdelta
      · rw [hnu]
        intro m hm
        exact hE m hm


/-- The invariant holds just before the main loop. -/
theorem inv_init (input : AStarInput) : Inv input (aStarInit input) := by
  have hg : (aStarInit input).gScore
      = Function.update (fun _ => none) input.start (some 0) := rfl
  have hq : (aStarInit input).openQueue
      = [⟨input.start, input.heuristic input.start⟩] := rfl
  have hcf : (aStarInit input).cameFrom = fun _ => none := rfl
  have hcs : (aStarInit input).closedSet = fun _ => false := rfl
  have hgn : ∀ n v, (aStarInit input).gScore n = some v → n = input.start ∧ v = 0 := by
    intro n v h
    rw [hg] at h
    by_cases hn : n = input.start
    · rw [hn, Function.update_same] at h
      exact ⟨hn, by simpa using h.symm⟩
    · rw [Function.update_noteq hn] at h
      simp at h
  refine ⟨?_, ?_, ?_, ?_, ?_, ?_, ?_, ?_, ?_⟩
  · rw [hg, Function.update_same]
  · intro n v h
    rw [(hgn n v h).2]
  · intro n v h
    obtain ⟨hn1, hv1⟩ := hgn n v h
    rw [hn1, hv1]
    exact ⟨[input.start], WalkTo.base, rfl⟩
  · rw [hcf]
  · intro n v h hne
    exact absurd (hgn n v h).1 hne
  · intro n c h
    rw [hcf] at h
    simp at h
  · intro p hp
    rw [hq] at hp
    simp at hp
    rw [hp, hg]
    refine ⟨0, by rw [Function.update_same], by simp⟩
  · intro n v h
    obtain ⟨hn1, hv1⟩ := hgn n v h
    left
    refine ⟨⟨input.start, input.heuristic input.start⟩, by rw [hq]; simp, hn1.symm, ?_⟩
    rw [hn1, hv1]
    ring
  · intro n h
    rw [hcs] at h
    simp at h

/-- The shape of a successful run of the reconstruction loop: the result is
a `came_from` chain whose head has no predecessor and whose last element is
the node the loop started from. -/
theorem reconstructPath_spec (cameFrom : ℕ → Option ℕ) :
    ∀ (fuel : ℕ) (cur : ℕ) (acc p : List ℕ),
      reconstructPath cameFrom fuel cur acc = some p →
      ∃ l, p = l ++ acc ∧ l ≠ [] ∧ l.getLast? = some cur ∧
        List.Chain' (fun a b => cameFrom b = some a) l ∧
        ∃ h0, l.head? = some h0 ∧ cameFrom h0 = none := by
  intro fuel
  induction fuel with
  | zero => intro cur acc p h; simp [reconstructPath] at h
  | succ n ih =>
    intro cur acc p h
    rw [reconstructPath] at h
    cases hc : cameFrom cur with
    | none =>
      rw [hc] at h
      simp only [Option.some.injEq] at h
      exact ⟨[cur], by rw [← h]; simp, by simp, by simp, by simp, cur, rfl, hc⟩
    | some c =>
      rw [hc] at h
      obtain ⟨l, hp, hne, hlast, hchain, h0, hh0, hcn⟩ := ih c (cur :: acc) p h
      refine ⟨l ++ [cur], by rw [hp]; simp, by simp, by simp, ?_, h0, ?_, hcn⟩
      · rw [List.chain'_append]
        refine ⟨hchain, List.chain'_singleton _, ?_⟩
        intro y hy z hz
        rw [Option.mem_def] at hy hz
        rw [hlast] at hy
        simp only [Option.some.injEq] at hy
        simp only [List.head?_cons, Option.some.injEq] at hz
        rw [← hy, ← hz]
        exact hc
      · cases l with
        | nil => exact absurd rfl hne
        | cons a r => simpa using hh0
    
/-- Following the `came_from` chain yields a genuine walk from the start
whose cost is bounded by the endpoint's g-score. -/
theorem chain_walk_cost (input : AStarInput) {st : AStarState} (hInv : Inv input st) :
    ∀ (l : List ℕ) (u : ℕ) (vu : ℚ),
      List.Chain' (fun a b => st.cameFrom b = some a) l →
      l.getLast? = some u → st.gScore u = some vu →
      (∃ h0, l.head? = some h0 ∧ st.cameFrom h0 = none) →
      WalkTo input input.start u l ∧ pathCost input l ≤ vu := by
  intro l
  induction l using List.reverseRecOn with
  | nil =>
    intro u vu _ hlast _ _
    simp at hlast
  | append_singleton l' b ihl =>
    intro u vu hchain hlast hg hhead
    obtain rfl : b = u := by simpa using hlast
    cases l' with
    | nil =>
      obtain ⟨h0, hh0, hcn⟩ := hhead
      have hb0 : h0 = b := by simpa using hh0.symm
      rw [← hb0] at hg ⊢
      by_cases hus : h0 = input.start
      · rw [hus] at hg ⊢
        constructor
        · simpa using WalkTo.base
        · simpa [pathCost] using hInv.g_nonneg input.start vu hg
      · obtain ⟨c, hc⟩ := hInv.came_of_g h0 vu hg hus
        rw [hcn] at hc
        simp at hc
    | cons y r =>
      have hsplit := List.chain'_append.mp
        (show List.Chain' (fun s t => st.cameFrom t = some s) ((y :: r) ++ [b]) from hchain)
      set a := (y :: r).getLast (by simp) with ha
      have halast : (y :: r).getLast? = some a := List.getLast?_eq_getLast _ _
      have hlink : st.cameFrom b = some a :=
        hsplit.2.2 a (by simpa using halast) b (by simp)
      obtain ⟨hadj, vn, vc, hvn, hvc, hedge⟩ := hInv.came_edge b a hlink
      obtain rfl : vn = vu := by rw [hg] at hvn; simpa using hvn.symm
      obtain ⟨h0, hh0, hcn⟩ := hhead
      have hh0' : (y :: r).head? = some h0 := by simpa using hh0
      obtain ⟨hwalk, hcost⟩ := ihl a vc hsplit.1 halast hvc ⟨h0, hh0', hcn⟩
      refine ⟨WalkTo.step hwalk hadj, ?_⟩
      rw [pathCost_snoc input (y :: r) a b halast]
      linarith


/-- When the goal node is popped, the reconstructed path is a walk from
start to goal realizing the true shortest-path distance. -/
theorem goalPop_optimal (input : AStarInput)
    (hd : ∀ a b, b ∈ input.neighbors a → 0 ≤ input.distance a b)
    (hh : ∀ a b, b ∈ input.neighbors a →
      input.heuristic a ≤ input.distance a b + input.heuristic b)
    (hwf : ∀ x y, y ∈ input.neighbors x → y < input.len)
    (hstart : input.start < input.len)
    {st : AStarState} {e : NodeCost} {rest : List NodeCost} {p : List ℕ}
    (hInv : Inv input st) (hpop : popMax st.openQueue = some (e, rest))
    (hgoal : e.node = input.goal)
    (hrec : reconstructPath st.cameFrom (input.len + 1) e.node [] = some p) :
    IsWalkBetween input input.start input.goal p ∧
      shortestDist input input.goal = some (pathCost input p) ∧
      ∀ q, IsWalkBetween input input.start input.goal q →
        pathCost input p ≤ pathCost input q := by
  obtain ⟨v, hgv, hsd⟩ := popped_g_eq_shortest input hd hh hwf hstart hInv hpop
  obtain ⟨l, hpl, hlne, hlast, hchain, hhead⟩ :=
    reconstructPath_spec st.cameFrom (input.len + 1) e.node [] p hrec
  rw [List.append_nil] at hpl
  subst hpl
  obtain ⟨hwalk, hcost⟩ := chain_walk_cost input hInv p e.node v hchain hlast hgv hhead
  obtain ⟨w, hwd, hwle⟩ := shortestDist_le hstart hwf hd hwalk.isWalkBetween
  rw [hsd] at hwd
  have hwv : w = v := by simpa using hwd.symm
  have hceq : pathCost input p = v := le_antisymm hcost (hwv ▸ hwle)
  rw [hgoal] at hsd hwalk
  refine ⟨hwalk.isWalkBetween, by rw [hceq]; exact hsd, ?_⟩
  intro q hq
  have hq' := isWalkBetween_walkTo q input.goal hq
  obtain ⟨w2, hw2d, hw2le⟩ := shortestDist_le hstart hwf hd hq'.isWalkBetween
  rw [hsd] at hw2d
  have : w2 = v := by simpa using hw2d.symm
  rw [hceq]
  linarith [this ▸ hw2le]

/-- Any successful run of `a_star`'s main loop from an invariant state
returns a start-to-goal walk of minimum cost. -/
theorem aStarLoop_optimal (input : AStarInput)
    (hd : ∀ a b, b ∈ input.neighbors a → 0 ≤ input.distance a b)
    (hh : ∀ a b, b ∈ input.neighbors a →
      input.heuristic a ≤ input.distance a b + input.heuristic b)
    (hwf : ∀ x y, y ∈ input.neighbors x → y < input.len)
    (hstart : input.start < input.len) :
    ∀ (fuel : ℕ) (st : AStarState) (p : List ℕ), Inv input st →
      aStarLoop input fuel st = some p →
      IsWalkBetween input input.start input.goal p ∧
        shortestDist input input.goal = some (pathCost input p) ∧
        ∀ q, IsWalkBetween input input.start input.goal q →
          pathCost input p ≤ pathCost input q := by
  intro fuel
  induction fuel with
  | zero =>
    intro st p _ h
    simp [aStarLoop] at h
  | succ n ih =>
    intro st p hInv hrun
    rw [aStarLoop] at hrun
    cases hpop : popMax st.openQueue with
    | none => rw [hpop] at hrun; simp at hrun
    | some pr =>
      obtain ⟨e, rest⟩ := pr
      rw [hpop] at hrun
      simp only at hrun
      by_cases hgoal : e.node = input.goal
      · rw [if_pos hgoal] at hrun
        exact goalPop_optimal input hd hh hwf hstart hInv hpop hgoal hrun
      · rw [if_neg hgoal] at hrun
        by_cases hcl : st.closedSet e.node = true
        · rw [if_pos hcl] at hrun
          exact ih { st with openQueue := rest } p (inv_skip input hInv hpop hcl) hrun
        · rw [if_neg hcl] at hrun
          exact ih _ p (inv_expand input hd hh hwf hstart hInv hpop) hrun


/-- A feasible potential dominating the heuristic certifies admissibility:
the heuristic never overestimates the cost of any walk to the goal. -/
theorem admissible_of_potential (input : AStarInput) (D : ℕ → ℚ)
    (hD : ∀ a b, b ∈ input.neighbors a → D a ≤ input.distance a b + D b)
    (hDg : D input.goal ≤ 0)
    (hhD : ∀ n, input.heuristic n ≤ D n) :
    ∀ n l, IsWalkBetween input n input.goal l → input.heuristic n ≤ pathCost input l := by
  intro n l hw
  obtain ⟨h1, h2, h3⟩ := hw
  cases l with
  | nil => simp at h1
  | cons x q =>
    obtain rfl : x = n := by simpa using h1
    have := chain_heuristic_le { input with heuristic := D } hD q x input.goal h3 h2
    have hpc : ∀ l : List ℕ, pathCost { input with heuristic := D } l = pathCost input l := by
      intro l
      induction l with
      | nil => rfl
      | cons a r ihr =>
        cases r with
        | nil => rfl
        | cons b r' =>
          rw [pathCost_cons_cons, pathCost_cons_cons, ihr]
    rw [hpc] at this
    calc input.heuristic x ≤ D x := hhD x
      _ ≤ pathCost input (x :: q) + D input.goal := this
      _ ≤ pathCost input (x :: q) := by linarith

/-- C1 counterexample: on `cexInput` every distance is nonnegative and the
heuristic is admissible (it never overestimates the cost of any walk to the
goal), yet `a_star` returns the path `[0, 3, 5]` of total edge distance 25
while the walk `[0, 1, 2, 5]` reaches the goal with total edge distance 24;
the returned path's cost is not the true shortest-path distance. -/
theorem aStar_admissible_can_be_suboptimal :
    (∀ a b, 0 ≤ cexInput.distance a b) ∧
    (∀ n l, IsWalkBetween cexInput n cexInput.goal l →
      cexInput.heuristic n ≤ pathCost cexInput l) ∧
    aStar 12 cexInput = some [0, 3, 5] ∧
    IsWalkBetween cexInput cexInput.start cexInput.goal [0, 1, 2, 5] ∧
    pathCost cexInput [0, 1, 2, 5] = 24 ∧
    pathCost cexInput [0, 3, 5] = 25 := by
  refine ⟨?_, ?_, ?_, ?_, ?_, ?_⟩
  · intro a b
    simp only [cexInput]
    split <;> norm_num
  · refine admissible_of_potential cexInput cexPotential ?_ ?_ ?_
    · intro a b hb
      rcases a with _ | _ | _ | _ | _ | _ | a <;>
        simp only [cexInput] at hb <;> simp at hb
      · rcases hb with rfl | rfl | rfl <;> norm_num [cexPotential, cexInput]
      · rw [hb]; norm_num [cexPotential, cexInput]
      · rcases hb with rfl | rfl <;> norm_num [cexPotential, cexInput]
      · rw [hb]; norm_num [cexPotential, cexInput]
    · norm_num [cexPotential, cexInput]
    · intro n
      rcases n with _ | _ | _ | _ | _ | _ | n
      · norm_num [cexPotential, cexInput]
      · norm_num [cexPotential, cexInput]
      · norm_num [cexPotential, cexInput]
      · norm_num [cexPotential, cexInput]
      · norm_num [cexPotential, cexInput]
      · norm_num [cexPotential, cexInput]
      · show (0:ℚ) ≤ 0
        norm_num
  · norm_num [aStar, aStarInit, aStarLoop, popMax, maxEntry, NodeCost.ltB, expandAll,
      expandNeighbor, optAdd, optLtB, reconstructPath, cexInput, Function.update]
  · refine ⟨rfl, rfl, ?_⟩
    norm_num [cexInput]
  · norm_num [pathCost, cexInput]
  · norm_num [pathCost, cexInput]

namespace Segment

theorem intersectX_symm (s o : Segment) (h : s.slope - o.slope ≠ 0) :
    o.p0.x + (o.p0.y - (s.p0.y + s.slope * (o.p0.x - s.p0.x))) / (s.slope - o.slope) =
    s.p0.x + (s.p0.y - (o.p0.y + o.slope * (s.p0.x - o.p0.x))) / (o.slope - s.slope) := by
  have h' : o.slope - s.slope ≠ 0 := fun hc => h (by linarith [sub_eq_zero.mp hc])
  field_simp
  ring

theorem intersectY_symm (s o : Segment) (h : s.slope - o.slope ≠ 0) :
    s.p0.y + s.slope *
      ((o.p0.x + (o.p0.y - (s.p0.y + s.slope * (o.p0.x - s.p0.x))) / (s.slope - o.slope)) - s.p0.x) =
    o.p0.y + o.slope *
      ((o.p0.x + (o.p0.y - (s.p0.y + s.slope * (o.p0.x - s.p0.x))) / (s.slope - o.slope)) - o.p0.x) := by
  field_simp
  ring

/-- C5 counterexample: `intersect` is not symmetric.  In the
vertical-collinear overlap branch the returned endpoint depends on argument
order — the same configurations the repository's own unit tests exercise
one order at a time. -/
theorem intersect_not_symmetric :
    Segment.intersect ⟨⟨5, 20⟩, ⟨5, 5⟩⟩ ⟨⟨5, 10⟩, ⟨5, 15⟩⟩ = some ⟨5, 10⟩ ∧
    Segment.intersect ⟨⟨5, 10⟩, ⟨5, 15⟩⟩ ⟨⟨5, 20⟩, ⟨5, 5⟩⟩ = some ⟨5, 15⟩ ∧
    ((⟨5, 10⟩ : Vec2) ≠ ⟨5, 15⟩) := by
  refine ⟨?_, ?_, by decide⟩ <;>
    norm_num [Segment.intersect, Segment.intersectSegment, Segment.isVertical,
      Segment.minMax, Segment.containsVal, Segment.findIntersectionOnlyOtherVertical,
      Segment.slope, EPSILON]

/-- C5 (amended): `intersect` is symmetric away from the (near-)collinear
configurations: when both segments are vertical with `x`-offset at least
`EPSILON`, when exactly one is vertical, and when both are non-vertical
with slope difference exceeding `EPSILON`. -/
theorem intersect_symm_of_generic (A B : Segment)
    (h : (A.isVertical = true ∧ B.isVertical = true ∧ EPSILON ≤ |A.p0.x - B.p0.x|) ∨
         (A.isVertical ≠ B.isVertical) ∨
         (A.isVertical = false ∧ B.isVertical = false ∧ EPSILON < |A.slope - B.slope|)) :
    A.intersect B = B.intersect A := by
  show intersectSegment B A = intersectSegment A B
  rcases h with ⟨hA, hB, hx⟩ | hne | ⟨hA, hB, hs⟩
  · have hx' : EPSILON ≤ |B.p0.x - A.p0.x| := by rwa [abs_sub_comm]
    simp [intersectSegment, hA, hB, ge_iff_le, hx, hx']
  · cases hA : A.isVertical with
    | false =>
      have hB : B.isVertical = true := by
        cases hBv : B.isVertical with
        | false => exact absurd (hA.trans hBv.symm) hne
        | true => rfl
      simp [intersectSegment, hA, hB]
    | true =>
      have hB : B.isVertical = false := by
        cases hBv : B.isVertical with
        | true => exact absurd (hA.trans hBv.symm) hne
        | false => rfl
      simp [intersectSegment, hA, hB]
  · have hd : B.slope - A.slope ≠ 0 := by
      intro hc
      have h0 : A.slope - B.slope = 0 := by linarith [sub_eq_zero.mp hc]
      rw [h0] at hs
      have he : (0:ℚ) < EPSILON := by norm_num [EPSILON]
      simp only [abs_zero] at hs
      linarith
    have hs1 : ¬ (|A.slope - B.slope| ≤ EPSILON) := not_le.mpr hs
    have hs2 : ¬ (|B.slope - A.slope| ≤ EPSILON) := by rwa [abs_sub_comm]
    simp only [intersectSegment, hA, hB, Bool.false_eq_true, if_false, if_neg hs1, if_neg hs2]
    have hxeq := intersectX_symm B A hd
    rw [hxeq]
    have hyeq := intersectY_symm B A hd
    rw [hxeq] at hyeq
    rw [hyeq]
    exact if_congr and_comm rfl rfl

theorem intersect_symm_of_generic_witness :
    ((Segment.isVertical ⟨⟨0, 0⟩, ⟨1, 0⟩⟩ = false ∧ Segment.isVertical ⟨⟨0, 1⟩, ⟨1, 3⟩⟩ = false ∧
      EPSILON < |Segment.slope ⟨⟨0, 0⟩, ⟨1, 0⟩⟩ - Segment.slope ⟨⟨0, 1⟩, ⟨1, 3⟩⟩|) ∧
    Segment.intersect ⟨⟨0, 0⟩, ⟨1, 0⟩⟩ ⟨⟨0, 1⟩, ⟨1, 3⟩⟩
      = Segment.intersect ⟨⟨0, 1⟩, ⟨1, 3⟩⟩ ⟨⟨0, 0⟩, ⟨1, 0⟩⟩) := by
  have h : Segment.isVertical ⟨⟨0, 0⟩, ⟨1, 0⟩⟩ = false ∧
      Segment.isVertical ⟨⟨0, 1⟩, ⟨1, 3⟩⟩ = false ∧
      EPSILON < |Segment.slope ⟨⟨0, 0⟩, ⟨1, 0⟩⟩ - Segment.slope ⟨⟨0, 1⟩, ⟨1, 3⟩⟩| := by
    norm_num [Segment.isVertical, Segment.slope, EPSILON]
  exact ⟨h, intersect_symm_of_generic _ _ (Or.inr (Or.inr h))⟩

end Segment


theorem optLe_of_optLtB {a b : Option ℚ} (h : optLtB a b = true) : optLe a b := by
  cases a <;> cases b <;> first
  | (simp [optLtB, optLe] at h ⊢; linarith)
  | simp [optLtB, optLe] at h ⊢

theorem optLtB_of_optLe_of_optLtB {a b c : Option ℚ} (h1 : optLe a b)
    (h2 : optLtB b c = true) : optLtB a c = true := by
  cases a <;> cases b <;> cases c <;> first
  | (simp [optLtB, optLe] at h1 h2 ⊢; linarith)
  | simp [optLtB, optLe] at h1 h2 ⊢

theorem optLtB_irrefl (a : Option ℚ) : optLtB a a = false := by
  cases a <;> simp [optLtB]

/-- C3 counterexample: with two frontier entries of equal f-score, the heap
pops the one with the *larger* node id — here node 2 although node 1 is
present with the same f-score 5. -/
theorem popMax_ties_break_to_larger_node :
    (popMax [⟨1, 5⟩, ⟨2, 5⟩]).map Prod.fst = some ⟨2, 5⟩ ∧
    (⟨1, 5⟩ : NodeCost) ∈ [(⟨1, 5⟩ : NodeCost), ⟨2, 5⟩] ∧
    (⟨1, (5:ℚ)⟩ : NodeCost).fScore = (⟨2, (5:ℚ)⟩ : NodeCost).fScore ∧
    ¬ ((⟨2, (5:ℚ)⟩ : NodeCost).node ≤ (⟨1, (5:ℚ)⟩ : NodeCost).node) := by
  refine ⟨?_, by simp, rfl, by norm_num⟩
  norm_num [popMax, maxEntry, NodeCost.ltB]

/-- C3 (amended): the frontier pops an entry of minimum f-score, and among
entries of equal f-score the one with the *largest* node id (the derived
`Ord` reverses the f-score comparison but not the node comparison, and
`BinaryHeap::pop` takes the maximum). -/
theorem popMax_pops_min_f_max_node {q : List NodeCost} {e : NodeCost}
    {rest : List NodeCost} (h : popMax q = some (e, rest)) :
    ∀ x ∈ q, e.fScore ≤ x.fScore ∧ (x.fScore = e.fScore → x.node ≤ e.node) :=
  popMax_min_f h

theorem popMax_pops_min_f_max_node_witness :
    popMax [⟨1, 5⟩, ⟨2, 5⟩] = some (⟨2, 5⟩, [⟨1, 5⟩]) ∧
    ∀ x ∈ [(⟨1, 5⟩ : NodeCost), ⟨2, 5⟩],
      (⟨2, (5:ℚ)⟩ : NodeCost).fScore ≤ x.fScore ∧
      (x.fScore = (⟨2, (5:ℚ)⟩ : NodeCost).fScore → x.node ≤ (⟨2, (5:ℚ)⟩ : NodeCost).node) := by
  have hb : ((⟨1, 5⟩ : NodeCost) == ⟨2, 5⟩) = false := by
    rw [beq_eq_false_iff_ne]
    intro h
    exact absurd (congrArg NodeCost.node h) (by norm_num)
  have hpop : popMax [(⟨1, 5⟩ : NodeCost), ⟨2, 5⟩] = some (⟨2, 5⟩, [⟨1, 5⟩]) := by
    norm_num [popMax, maxEntry, NodeCost.ltB, List.erase, hb]
  exact ⟨hpop, popMax_pops_min_f_max_node hpop⟩

/-- Monotonicity facts of one expansion, without any precondition: g-scores
only decrease, any strict decrease forces the expanded node into the closed
set, the expanded node enters the closed set only on a strict decrease of a
processed neighbor, and the closed set only grows. -/
theorem expandAll_closed_facts (input : AStarInput) (u : ℕ) :
    ∀ (l : List ℕ) (st0 st' : AStarState),
      st' = List.foldl (expandNeighbor input u) st0 l →
      (∀ n, optLe (st'.gScore n) (st0.gScore n)) ∧
      (∀ n, optLtB (st'.gScore n) (st0.gScore n) = true → st'.closedSet u = true) ∧
      (st'.closedSet u = true → st0.closedSet u = true ∨
        ∃ m ∈ l, optLtB (st'.gScore m) (st0.gScore m) = true) ∧
      (∀ n, st0.closedSet n = true → st'.closedSet n = true) := by
  intro l
  induction l with
  | nil =>
    intro st0 st' hst'
    rw [List.foldl_nil] at hst'
    subst hst'
    refine ⟨fun n => optLe_refl _, ?_, fun h => Or.inl h, fun n h => h⟩
    intro n h
    rw [optLtB_irrefl] at h
    exact absurd h (by simp)
  | cons m0 l' ih =>
    intro st0 st' hst'
    rw [List.foldl_cons] at hst'
    rcases expandNeighbor_cases input u st0 m0 with ⟨heq, _⟩ | ⟨vu, hgu, hlt, heq⟩
    · rw [heq] at hst'
      obtain ⟨ha, hb, hc, hd2⟩ := ih st0 st' hst'
      refine ⟨ha, hb, ?_, hd2⟩
      intro h
      rcases hc h with h1 | ⟨m, hm, h2⟩
      · exact Or.inl h1
      · exact Or.inr ⟨m, by simp [hm], h2⟩
    · rw [heq] at hst'
      set st1 : AStarState :=
        { openQueue := ⟨m0, (vu + input.distance u m0) + input.heuristic m0⟩ :: st0.openQueue,
          closedSet := Function.update st0.closedSet u true,
          cameFrom := Function.update st0.cameFrom m0 (some u),
          gScore := Function.update st0.gScore m0 (some (vu + input.distance u m0)) } with hst1
      obtain ⟨ha, hb, hc, hd2⟩ := ih st1 st' hst'
      have hg1 : st1.gScore = Function.update st0.gScore m0 (some (vu + input.distance u m0)) :=
        rfl
      have hcl1 : st1.closedSet = Function.update st0.closedSet u true := rfl
      have hcl1u : st1.closedSet u = true := by rw [hcl1, Function.update_same]
      have hclosedu : st'.closedSet u = true := hd2 u hcl1u
      have hg1le : ∀ n, optLe (st1.gScore n) (st0.gScore n) := by
        intro n
        by_cases hn : n = m0
        · rw [hn, hg1, Function.update_same]
          exact optLe_of_optLtB hlt
        · rw [hg1, Function.update_noteq hn]
          exact optLe_refl _
      refine ⟨?_, fun n _ => hclosedu, ?_, ?_⟩
      · intro n
        exact optLe_trans (ha n) (hg1le n)
      · intro _
        right
        refine ⟨m0, by simp, optLtB_of_optLe_of_optLtB (ha m0) ?_⟩
        rw [hg1, Function.update_same]
        exact hlt
      · intro n hn
        refine hd2 n ?_
        by_cases hnu : n = u
        · rw [hnu]; exact hcl1u
        · rw [hcl1, Function.update_noteq hnu]
          exact hn


/-- C4: the closed set is written only as a side effect of a successful
relaxation.  (i) For a non-closed expanded node, it ends up closed iff the
expansion strictly improved at least one of its neighbors' g-scores (so a
popped node with no improvable neighbor is never marked visited); and
(ii) popping an already-closed non-goal node skips it: the loop continues
on the remaining queue with the state otherwise untouched. -/
theorem closed_set_marked_only_on_relaxation (input : AStarInput) (st : AStarState)
    (current : ℕ) :
    (st.closedSet current = false →
      ((expandAll input current st).closedSet current = true ↔
        ∃ m ∈ input.neighbors current,
          optLtB ((expandAll input current st).gScore m) (st.gScore m) = true)) ∧
    (∀ e rest fuel, popMax st.openQueue = some (e, rest) → e.node ≠ input.goal →
      st.closedSet e.node = true →
      aStarLoop input (fuel + 1) st = aStarLoop input fuel { st with openQueue := rest }) := by
  constructor
  · intro hcl
    obtain ⟨_, hb, hc, _⟩ :=
      expandAll_closed_facts input current (input.neighbors current) st
        (expandAll input current st) rfl
    constructor
    · intro h
      rcases hc h with h1 | h2
      · rw [hcl] at h1
        exact absurd h1 (by simp)
      · exact h2
    · intro ⟨m, _, hm⟩
      exact hb m hm
  · intro e rest fuel hpop hgoal hcl
    rw [aStarLoop, hpop]
    simp only
    rw [if_neg hgoal, if_pos hcl]

theorem closed_set_marked_only_on_relaxation_witness :
    ((aStarInit consistentInput).closedSet 0 = false) ∧
    ((expandAll consistentInput 0 (aStarInit consistentInput)).closedSet 0 = true ↔
      ∃ m ∈ consistentInput.neighbors 0,
        optLtB ((expandAll consistentInput 0 (aStarInit consistentInput)).gScore m)
          ((aStarInit consistentInput).gScore m) = true) := by
  have h0 : (aStarInit consistentInput).closedSet 0 = false := rfl
  exact ⟨h0,
    (closed_set_marked_only_on_relaxation consistentInput (aStarInit consistentInput) 0).1 h0⟩


/-- C2: if the straight segment from start to end intersects no obstacle
boundary segment, `find_path` immediately returns the two-point path
`[start, end]` (for any geometric-filter and distance oracles, any fuel —
the graph search is not consulted). -/
theorem findPath_direct (accepts : ℕ → ℕ → Bool) (inRange : ℕ → Vec2 → Bool)
    (euclid : Vec2 → Vec2 → ℚ) (obstacles : List NavigationObstacle)
    (startPos endPos : Vec2) (fuel : ℕ)
    (h : ∀ o ∈ obstacles, ∀ s ∈ shapeSegments o.vertices,
      connectiveIntersect ⟨startPos, endPos⟩ s = false) :
    findPath accepts inRange euclid obstacles startPos endPos fuel
      = some (some [startPos, endPos]) := by
  rw [findPath, if_pos]
  intro hc
  rw [intersectsWithObstacle] at hc
  simp only [List.any_eq_true] at hc
  obtain ⟨o, ho, s, hs, hcs⟩ := hc
  have ho' : o ∈ obstacles := ho
  rw [h o ho' s hs] at hcs
  exact absurd hcs (by simp)

theorem findPath_direct_witness :
    findPath (fun _ _ => false) (fun _ _ => false) (fun _ _ => 0) []
      ⟨0, 0⟩ ⟨20, 20⟩ 0 = some (some [⟨0, 0⟩, ⟨20, 20⟩]) :=
  findPath_direct (fun _ _ => false) (fun _ _ => false) (fun _ _ => 0) []
    ⟨0, 0⟩ ⟨20, 20⟩ 0 (by simp)


/-! ### Structure of the graph produced by the builder -/

theorem appendConn_length (g : List GraphNode) (j i : ℕ) :
    (appendConn g j i).length = g.length := by
  simp [appendConn]

theorem appendConn_getD_self (g : List GraphNode) (j i : ℕ) (h : j < g.length) :
    (appendConn g j i).getD j default
      = ⟨(g.getD j default).connections ++ [i], (g.getD j default).position⟩ := by
  simp [appendConn, List.getD_eq_getElem?_getD, List.getElem?_set_self h]

theorem appendConn_getD_ne (g : List GraphNode) (j i k : ℕ) (h : k ≠ j) :
    (appendConn g j i).getD k default = g.getD k default := by
  simp [appendConn, List.getD_eq_getElem?_getD, List.getElem?_set_ne (Ne.symm h)]

/-- The inner `for j in accepted` fold of the builder: it preserves the
length, appends `i` to exactly the connection lists of the members of
`accepted`, and leaves every other node untouched. -/
theorem appendConn_fold (i : ℕ) (acc : List ℕ) :
    ∀ (g : List GraphNode), acc.Nodup → (∀ j ∈ acc, j < g.length) →
      ((acc.foldl (fun g2 j => appendConn g2 j i) g).length = g.length ∧
       (∀ j ∈ acc,
          (acc.foldl (fun g2 j => appendConn g2 j i) g).getD j default
            = ⟨(g.getD j default).connections ++ [i], (g.getD j default).position⟩) ∧
       (∀ k, k ∉ acc →
          (acc.foldl (fun g2 j => appendConn g2 j i) g).getD k default
            = g.getD k default)) := by
  induction acc with
  | nil =>
    intro g _ _
    exact ⟨rfl, by simp, fun _ _ => rfl⟩
  | cons j rest ih =>
    intro g hnd hlt
    have hjg : j < g.length := hlt j (List.mem_cons_self _ _)
    have hjnr : j ∉ rest := (List.nodup_cons.mp hnd).1
    have hndr : rest.Nodup := (List.nodup_cons.mp hnd).2
    have hltr : ∀ m ∈ rest, m < (appendConn g j i).length := by
      intro m hm; rw [appendConn_length]; exact hlt m (List.mem_cons_of_mem _ hm)
    obtain ⟨hlen, hmem, hout⟩ := ih (appendConn g j i) hndr hltr
    refine ⟨?_, ?_, ?_⟩
    · simp only [List.foldl_cons]
      rw [hlen, appendConn_length]
    · intro m hm
      rcases List.mem_cons.mp hm with heq | hmr
      · subst heq
        simp only [List.foldl_cons]
        rw [hout m hjnr, appendConn_getD_self g m i hjg]
      · simp only [List.foldl_cons]
        rw [hmem m hmr, appendConn_getD_ne g j i m (by rintro rfl; exact hjnr hmr)]
    · intro k hk
      simp only [List.foldl_cons]
      rw [hout k (fun h => hk (List.mem_cons_of_mem _ h)),
        appendConn_getD_ne g j i k (by rintro rfl; exact hk (List.mem_cons_self _ _))]


/-- The structural invariant maintained by the builder fold
(`build_navigation_graph`): a convex vertex's node has no connections, a
reflex vertex's node starts with the placeholder `n + 1`, and every
recorded entry is either that placeholder or a symmetric real edge between
two reflex vertices. -/
def GraphInv (n : ℕ) (flags : ℕ → Bool) (g : List GraphNode) : Prop :=
  (∀ a, a < g.length →
      (flags a = false → (g.getD a default).connections = []) ∧
      (flags a = true → ∃ t, (g.getD a default).connections = (n + 1) :: t)) ∧
  (∀ a, a < g.length → ∀ b ∈ (g.getD a default).connections,
      b = n + 1 ∨ (b < g.length ∧ flags b = true ∧ flags a = true ∧
        a ∈ (g.getD b default).connections))

theorem buildStep_inv (n : ℕ) (accepts : ℕ → ℕ → Bool) (flags : ℕ → Bool)
    (g : List GraphNode) (v : Vec2 × Bool) (hinv : GraphInv n flags g)
    (hv : v.2 = flags g.length) :
    GraphInv n flags (buildStep n accepts flags g v) ∧
    (buildStep n accepts flags g v).length = g.length + 1 := by
  by_cases hb : v.2 = false
  · -- convex vertex: a node with no connections is appended
    have hstep : buildStep n accepts flags g v = g ++ [⟨[], v.1⟩] := by
      rw [buildStep, if_pos hb]
    rw [hstep]
    have hgetlt : ∀ a, a < g.length →
        (g ++ [(⟨[], v.1⟩ : GraphNode)]).getD a default = g.getD a default := by
      intro a ha; exact List.getD_append g _ default a ha
    have hgetend : (g ++ [(⟨[], v.1⟩ : GraphNode)]).getD g.length default
        = ⟨[], v.1⟩ := by
      rw [List.getD_eq_getElem?_getD, List.getElem?_concat_length]; rfl
    have hflagend : flags g.length = false := hv ▸ hb
    constructor
    · constructor
      · intro a ha
        rw [List.length_append, List.length_singleton] at ha
        rcases Nat.lt_succ_iff_lt_or_eq.mp ha with ha' | rfl
        · rw [hgetlt a ha']; exact hinv.1 a ha'
        · rw [hgetend]
          exact ⟨fun _ => rfl, fun ht => absurd (hflagend ▸ ht) (by simp)⟩
      · intro a ha b hbmem
        rw [List.length_append, List.length_singleton] at ha
        rcases Nat.lt_succ_iff_lt_or_eq.mp ha with ha' | rfl
        · rw [hgetlt a ha'] at hbmem
          rcases hinv.2 a ha' b hbmem with h | ⟨hblt, hfb, hfa, hmem⟩
          · exact Or.inl h
          · refine Or.inr ⟨?_, hfb, hfa, ?_⟩
            · rw [List.length_append, List.length_singleton]
              exact Nat.lt_succ_of_lt hblt
            · rw [hgetlt b hblt]; exact hmem
        · rw [hgetend] at hbmem
          exact absurd hbmem (List.not_mem_nil b)
    · simp
  · -- reflex vertex
    have hbt : v.2 = true := eq_true_of_ne_false hb
    have hflagend : flags g.length = true := hv ▸ hbt
    set accepted := (List.range g.length).filter
      (fun j => flags j && accepts j g.length) with hacc
    have hstep : buildStep n accepts flags g v
        = (accepted.foldl (fun g2 j => appendConn g2 j g.length) g)
            ++ [⟨(n + 1) :: accepted, v.1⟩] := by
      rw [buildStep, if_neg hb]
    have hacc_nd : accepted.Nodup :=
      (List.filter_sublist _).nodup (List.nodup_range g.length)
    have hacc_lt : ∀ j ∈ accepted, j < g.length := fun j hj =>
      List.mem_range.mp (List.mem_filter.mp hj).1
    have hacc_fl : ∀ j ∈ accepted, flags j = true := fun j hj =>
      (Bool.and_eq_true_iff.mp (List.mem_filter.mp hj).2).1
    obtain ⟨hlen2, hmem2, hout2⟩ :=
      appendConn_fold g.length accepted g hacc_nd hacc_lt
    set g2 := accepted.foldl (fun g2 j => appendConn g2 j g.length) g with hg2
    rw [hstep]
    have hgetlt : ∀ a, a < g.length →
        (g2 ++ [(⟨(n + 1) :: accepted, v.1⟩ : GraphNode)]).getD a default
          = g2.getD a default := by
      intro a ha
      exact List.getD_append g2 _ default a (hlen2 ▸ ha)
    have hgetend : (g2 ++ [(⟨(n + 1) :: accepted, v.1⟩ : GraphNode)]).getD
        g.length default = ⟨(n + 1) :: accepted, v.1⟩ := by
      rw [List.getD_eq_getElem?_getD, show g.length = g2.length from hlen2.symm,
        List.getElem?_concat_length]
      rfl
    have hlenall : (g2 ++ [(⟨(n + 1) :: accepted, v.1⟩ : GraphNode)]).length
        = g.length + 1 := by
      rw [List.length_append, List.length_singleton, hlen2]
    -- connections after the inner fold, by membership in `accepted`
    have hconn2 : ∀ a, a < g.length →
        (g2.getD a default).connections
          = if a ∈ accepted then (g.getD a default).connections ++ [g.length]
            else (g.getD a default).connections := by
      intro a _
      by_cases hmem : a ∈ accepted
      · rw [if_pos hmem, hmem2 a hmem]
      · rw [if_neg hmem, hout2 a hmem]
    refine ⟨⟨?_, ?_⟩, hlenall⟩
    · intro a ha
      rw [hlenall] at ha
      rcases Nat.lt_succ_iff_lt_or_eq.mp ha with ha' | rfl
      · rw [hgetlt a ha', hconn2 a ha']
        by_cases hmem : a ∈ accepted
        · rw [if_pos hmem]
          refine ⟨fun hf => absurd (hacc_fl a hmem) (by simp [hf]), fun _ => ?_⟩
          obtain ⟨t, ht⟩ := (hinv.1 a ha').2 (hacc_fl a hmem)
          exact ⟨t ++ [g.length], by rw [ht]; rfl⟩
        · rw [if_neg hmem]
          exact hinv.1 a ha'
      · rw [hgetend]
        exact ⟨fun hf => absurd (hflagend ▸ hf) (by simp [hflagend]),
          fun _ => ⟨accepted, rfl⟩⟩
    · intro a ha b hbmem
      rw [hlenall] at ha
      rcases Nat.lt_succ_iff_lt_or_eq.mp ha with ha' | rfl
      · rw [hgetlt a ha', hconn2 a ha'] at hbmem
        by_cases hmem : a ∈ accepted
        · rw [if_pos hmem] at hbmem
          rcases List.mem_append.mp hbmem with hbold | hbnew
          · -- an edge already present before this step
            rcases hinv.2 a ha' b hbold with h | ⟨hblt, hfb, hfa, hmemba⟩
            · exact Or.inl h
            · refine Or.inr ⟨by rw [hlenall]; exact Nat.lt_succ_of_lt hblt,
                hfb, hfa, ?_⟩
              rw [hgetlt b hblt, hconn2 b hblt]
              by_cases hbmem' : b ∈ accepted
              · rw [if_pos hbmem']; exact List.mem_append_left _ hmemba
              · rw [if_neg hbmem']; exact hmemba
          · -- the freshly appended edge to the new node `g.length`
            have hbeq : b = g.length := List.mem_singleton.mp hbnew
            subst hbeq
            refine Or.inr ⟨by rw [hlenall]; exact Nat.lt_succ_self _,
              hflagend, hacc_fl a hmem, ?_⟩
            rw [hgetend]
            exact List.mem_cons_of_mem _ hmem
        · rw [if_neg hmem] at hbmem
          rcases hinv.2 a ha' b hbmem with h | ⟨hblt, hfb, hfa, hmemba⟩
          · exact Or.inl h
          · refine Or.inr ⟨by rw [hlenall]; exact Nat.lt_succ_of_lt hblt,
              hfb, hfa, ?_⟩
            rw [hgetlt b hblt, hconn2 b hblt]
            by_cases hbmem' : b ∈ accepted
            · rw [if_pos hbmem']; exact List.mem_append_left _ hmemba
            · rw [if_neg hbmem']; exact hmemba
      · -- edges out of the freshly appended node
        rw [hgetend] at hbmem
        rcases List.mem_cons.mp hbmem with h | hbacc
        · exact Or.inl h
        · have hblt : b < g.length := hacc_lt b hbacc
          refine Or.inr ⟨by rw [hlenall]; exact Nat.lt_succ_of_lt hblt,
            hacc_fl b hbacc, hflagend, ?_⟩
          rw [hgetlt b hblt, hconn2 b hblt, if_pos hbacc]
          exact List.mem_append_right _ (List.mem_singleton.mpr rfl)


/-- The builder fold preserves `GraphInv` and adds one node per processed
vertex, as long as the flag function agrees with the concavity bits of the
vertices still to be processed. -/
theorem buildFold_inv (n : ℕ) (accepts : ℕ → ℕ → Bool) (flags : ℕ → Bool)
    (l : List (Vec2 × Bool)) :
    ∀ (g : List GraphNode), GraphInv n flags g →
      (∀ k, k < l.length → (l.getD k (⟨0, 0⟩, false)).2 = flags (g.length + k)) →
      GraphInv n flags (l.foldl (buildStep n accepts flags) g) ∧
      (l.foldl (buildStep n accepts flags) g).length = g.length + l.length := by
  induction l with
  | nil =>
    intro g hinv _
    exact ⟨hinv, by simp⟩
  | cons v rest ih =>
    intro g hinv hlink
    have hv : v.2 = flags g.length := by
      have h0 := hlink 0 (by simp)
      simpa using h0
    obtain ⟨hinv', hlen'⟩ := buildStep_inv n accepts flags g v hinv hv
    have hlink' : ∀ k, k < rest.length →
        (rest.getD k (⟨0, 0⟩, false)).2
          = flags ((buildStep n accepts flags g v).length + k) := by
      intro k hk
      rw [hlen']
      have h1 := hlink (k + 1) (by simpa using Nat.succ_lt_succ hk)
      simpa [Nat.add_assoc, Nat.add_comm 1 k] using h1
    obtain ⟨h1, h2⟩ := ih (buildStep n accepts flags g v) hinv' hlink'
    refine ⟨by simpa using h1, ?_⟩
    simp only [List.foldl_cons]
    rw [h2, hlen', List.length_cons]
    ring

/-- The invariant holds of every built graph, which has one node per
flattened vertex. -/
theorem buildNavigationGraph_inv (accepts : ℕ → ℕ → Bool)
    (obstacles : List NavigationObstacle) :
    GraphInv (nodesCount obstacles)
      (fun j => ((flattenVerts obstacles).getD j (⟨0, 0⟩, false)).2)
      (buildNavigationGraph accepts obstacles) ∧
    (buildNavigationGraph accepts obstacles).length
      = (flattenVerts obstacles).length := by
  have h0 : GraphInv (nodesCount obstacles)
      (fun j => ((flattenVerts obstacles).getD j (⟨0, 0⟩, false)).2)
      ([] : List GraphNode) :=
    ⟨fun a ha => absurd ha (by simp), fun a ha => absurd ha (by simp)⟩
  obtain ⟨h1, h2⟩ := buildFold_inv (nodesCount obstacles) accepts
    (fun j => ((flattenVerts obstacles).getD j (⟨0, 0⟩, false)).2)
    (flattenVerts obstacles) [] h0 (fun k _ => by simp)
  simp only [List.length_nil, Nat.zero_add] at h2
  exact ⟨h1, h2⟩

/-- Under the well-formedness that `NavigationObstacle::new` guarantees
(one concavity bit per vertex), the flattened vertex list has exactly
`nodes_count` entries. -/
theorem flattenVerts_length (obstacles : List NavigationObstacle)
    (hwf : obstaclesWF obstacles) :
    (flattenVerts obstacles).length = nodesCount obstacles := by
  induction obstacles with
  | nil => rfl
  | cons o rest ih =>
    have hrest := ih (fun o' ho' => hwf o' (List.mem_cons_of_mem _ ho'))
    have ho := hwf o (List.mem_cons_self _ _)
    simp only [flattenVerts, nodesCount, List.flatMap_cons, List.length_append,
      List.map_cons, List.sum_cons, List.length_zip, ho, min_self] at *
    rw [hrest]


/-- C6: in every navigation graph produced by `build_navigation_graph`, the
real edges are symmetric: whenever the connection list of a node `a`
contains an entry `b` other than the reserved placeholder
`nodes_count + 1` (the first entry of every reflex node), then `b` is a
node of the graph and its connection list contains `a`. -/
theorem buildNavigationGraph_edges_symmetric (accepts : ℕ → ℕ → Bool)
    (obstacles : List NavigationObstacle) (a b : ℕ)
    (ha : a < (buildNavigationGraph accepts obstacles).length)
    (hmem : b ∈ ((buildNavigationGraph accepts obstacles).getD a default).connections)
    (hnp : b ≠ nodesCount obstacles + 1) :
    b < (buildNavigationGraph accepts obstacles).length ∧
      a ∈ ((buildNavigationGraph accepts obstacles).getD b default).connections := by
  obtain ⟨hinv, _⟩ := buildNavigationGraph_inv accepts obstacles
  rcases hinv.2 a ha b hmem with h | ⟨hblt, _, _, hba⟩
  · exact absurd h hnp
  · exact ⟨hblt, hba⟩

theorem buildNavigationGraph_edges_symmetric_witness :
    1 < (buildNavigationGraph (fun _ _ => true)
        [⟨[⟨0, 0⟩, ⟨1, 0⟩], [true, true]⟩]).length ∧
      0 ∈ ((buildNavigationGraph (fun _ _ => true)
        [⟨[⟨0, 0⟩, ⟨1, 0⟩], [true, true]⟩]).getD 1 default).connections :=
  buildNavigationGraph_edges_symmetric (fun _ _ => true)
    [⟨[⟨0, 0⟩, ⟨1, 0⟩], [true, true]⟩] 0 1 (by decide) (by decide) (by decide)

/-- C7, counterexample: a single obstacle with two reflex vertices gives a
graph of `nodes_count = 2` nodes, and the first connection entry of node 0
is the placeholder `3 = nodes_count + 1`, not `nodes_count = 2` ("one past
the end of the graph") as the claim has it. -/
theorem placeholder_not_nodes_count :
    nodesCount [(⟨[⟨0, 0⟩, ⟨1, 0⟩], [true, true]⟩ : NavigationObstacle)] = 2 ∧
    (buildNavigationGraph (fun _ _ => true)
        [⟨[⟨0, 0⟩, ⟨1, 0⟩], [true, true]⟩]).length = 2 ∧
    ((buildNavigationGraph (fun _ _ => true)
        [⟨[⟨0, 0⟩, ⟨1, 0⟩], [true, true]⟩]).getD 0 default).connections
      = [3, 1] ∧
    (3 : ℕ) ≠ 2 := by decide

/-- C7 (amended): in every built navigation graph (with the one-bit-per-
vertex well-formedness that `NavigationObstacle::new` guarantees), each
reflex vertex's node has as first connection entry the placeholder
`nodes_count + 1`, which is the id of the query's end node (`goal` of the
A* adapter) — one past the *start* node's id `nodes_count`, hence *two*
past the last graph index, not "one past the end of the graph". -/
theorem reflex_first_entry_is_end_placeholder (accepts : ℕ → ℕ → Bool)
    (obstacles : List NavigationObstacle) (hwf : obstaclesWF obstacles) (a : ℕ)
    (ha : a < (buildNavigationGraph accepts obstacles).length)
    (hflag : ((flattenVerts obstacles).getD a (⟨0, 0⟩, false)).2 = true) :
    (∃ t, ((buildNavigationGraph accepts obstacles).getD a default).connections
        = (nodesCount obstacles + 1) :: t) ∧
    (∀ (euclid : Vec2 → Vec2 → ℚ) (startPos endPos : Vec2)
        (startConnections : List ℕ) (endCandidates : ℕ → Bool),
      (navigationAStarInput euclid (Navigation.new accepts obstacles)
          startPos endPos startConnections endCandidates).goal
        = nodesCount obstacles + 1 ∧
      (navigationAStarInput euclid (Navigation.new accepts obstacles)
          startPos endPos startConnections endCandidates).start
        = nodesCount obstacles) := by
  obtain ⟨hinv, hlen⟩ := buildNavigationGraph_inv accepts obstacles
  refine ⟨(hinv.1 a ha).2 hflag, ?_⟩
  intro euclid startPos endPos startConnections endCandidates
  have hg : (buildNavigationGraph accepts obstacles).length
      = nodesCount obstacles := by
    rw [hlen, flattenVerts_length obstacles hwf]
  constructor
  · show (buildNavigationGraph accepts obstacles).length + 1
      = nodesCount obstacles + 1
    rw [hg]
  · show (buildNavigationGraph accepts obstacles).length = nodesCount obstacles
    exact hg

theorem reflex_first_entry_is_end_placeholder_witness :
    ∃ t, ((buildNavigationGraph (fun _ _ => true)
        [⟨[⟨0, 0⟩, ⟨1, 0⟩], [true, true]⟩]).getD 0 default).connections
      = (nodesCount [(⟨[⟨0, 0⟩, ⟨1, 0⟩], [true, true]⟩ : NavigationObstacle)]
          + 1) :: t :=
  (reflex_first_entry_is_end_placeholder (fun _ _ => true)
    [⟨[⟨0, 0⟩, ⟨1, 0⟩], [true, true]⟩]
    (by intro o ho; rw [List.mem_singleton] at ho; subst ho; rfl)
    0 (by decide) (by decide)).1


/-- Every entry of the frontier after a neighbor-expansion fold either was
already in the frontier or records one of the expanded neighbors. -/
theorem expandFold_queue_nodes (input : AStarInput) (current : ℕ)
    (ns : List ℕ) :
    ∀ (st : AStarState) (e : NodeCost),
      e ∈ (ns.foldl (expandNeighbor input current) st).openQueue →
      e ∈ st.openQueue ∨ e.node ∈ ns := by
  induction ns with
  | nil => intro st e he; exact Or.inl he
  | cons m rest ih =>
    intro st e he
    simp only [List.foldl_cons] at he
    rcases ih _ e he with hq | hns
    · rcases expandNeighbor_cases input current st m with ⟨heq, _⟩ |
        ⟨vu, _, _, heq⟩
      · rw [heq] at hq
        exact Or.inl hq
      · rw [heq] at hq
        rcases List.mem_cons.mp hq with heq' | h
        · subst heq'
          exact Or.inr (List.mem_cons_self _ _)
        · exact Or.inl h
    · exact Or.inr (List.mem_cons_of_mem _ hns)

/-- If every frontier entry is `Good`, the `Good` nodes other than the goal
all have a defined (non-panicking) neighbor list, and the neighbors of a
`Good` node are again `Good`, then the checked A* loop never reports a
panic. -/
theorem aStarLoopChecked_ne_none (input : AStarInput) (nb : ℕ → Option (List ℕ))
    (Good : ℕ → Prop)
    (hnb : ∀ v, Good v → v ≠ input.goal →
      ∃ ns, nb v = some ns ∧ ∀ m ∈ ns, Good m) :
    ∀ (fuel : ℕ) (st : AStarState), (∀ e ∈ st.openQueue, Good e.node) →
      aStarLoopChecked input nb fuel st ≠ none := by
  intro fuel
  induction fuel with
  | zero => intro st _; simp [aStarLoopChecked]
  | succ f ih =>
    intro st hq
    rw [aStarLoopChecked]
    cases hpop : popMax st.openQueue with
    | none => simp
    | some pr =>
      obtain ⟨e, rest⟩ := pr
      have hgood : Good e.node := hq e (popMax_mem hpop).1
      dsimp only
      by_cases hgoal : e.node = input.goal
      · rw [if_pos hgoal]
        simp
      · rw [if_neg hgoal]
        by_cases hclosed : st.closedSet e.node = true
        · rw [if_pos hclosed]
          exact ih _ (fun e' he' => hq e' (popMax_rest_mem hpop e' he'))
        · rw [if_neg hclosed]
          obtain ⟨ns, hns, hnsg⟩ := hnb e.node hgood hgoal
          rw [hns]
          apply ih
          intro e' he'
          rcases expandFold_queue_nodes input e.node ns _ e' he' with h | h
          · exact hq e' (popMax_rest_mem hpop e' h)
          · exact hnsg _ h


/-- On the node set {start id, end id, reflex-vertex ids} the instrumented
neighbor adapter never reports a panic away from the end id, and all the
neighbors it returns lie in the same set. -/
theorem adapter_safe (nav : Navigation) (n : ℕ) (flags : ℕ → Bool)
    (hinv : GraphInv n flags nav.navigationGraph)
    (hn : n = nav.navigationGraph.length)
    (startConnections : List ℕ) (endCandidates : ℕ → Bool)
    (hstart : ∀ j ∈ startConnections,
      j < nav.navigationGraph.length ∧ flags j = true) :
    ∀ v, (v = nav.navigationGraph.length ∨ v = nav.navigationGraph.length + 1 ∨
          (v < nav.navigationGraph.length ∧ flags v = true)) →
      v ≠ nav.navigationGraph.length + 1 →
      ∃ ns, adapterNeighborsChecked nav startConnections endCandidates v
          = some ns ∧
        ∀ m ∈ ns, (m = nav.navigationGraph.length ∨
          m = nav.navigationGraph.length + 1 ∨
          (m < nav.navigationGraph.length ∧ flags m = true)) := by
  intro v hv hgoal
  rcases hv with hvL | hvE | ⟨hvlt, hvf⟩
  · refine ⟨startConnections, ?_, ?_⟩
    · rw [adapterNeighborsChecked, if_pos hvL]
    · intro m hm
      exact Or.inr (Or.inr (hstart m hm))
  · exact absurd hvE hgoal
  · have hvne : ¬ v = nav.navigationGraph.length := Nat.ne_of_lt hvlt
    obtain ⟨t, ht⟩ := (hinv.1 v hvlt).2 hvf
    have hmem_good : ∀ m ∈ (nav.navigationGraph.getD v default).connections,
        (m = nav.navigationGraph.length ∨ m = nav.navigationGraph.length + 1 ∨
          (m < nav.navigationGraph.length ∧ flags m = true)) := by
      intro m hm
      rcases hinv.2 v hvlt m hm with h | ⟨hmL, hmf, _, _⟩
      · exact Or.inr (Or.inl (by rw [h, hn]))
      · exact Or.inr (Or.inr ⟨hmL, hmf⟩)
    by_cases hec : endCandidates v = true
    · refine ⟨(nav.navigationGraph.getD v default).connections, ?_, hmem_good⟩
      rw [adapterNeighborsChecked, if_neg hvne, if_pos hvlt]
      dsimp only
      rw [if_pos hec]
    · refine ⟨(nav.navigationGraph.getD v default).connections.drop 1, ?_, ?_⟩
      · rw [adapterNeighborsChecked, if_neg hvne, if_pos hvlt]
        dsimp only
        rw [if_neg hec, if_pos ?h1]
        case h1 =>
          rw [ht]
          simp
      · intro m hm
        exact hmem_good m (List.mem_of_mem_drop hm)

/-- The checked A* run inside `find_path` never reports a panic, as long as
the query's start connections point at reflex graph nodes. -/
theorem navigation_loop_safe (euclid : Vec2 → Vec2 → ℚ) (nav : Navigation)
    (n : ℕ) (flags : ℕ → Bool)
    (hinv : GraphInv n flags nav.navigationGraph)
    (hn : n = nav.navigationGraph.length)
    (startPos endPos : Vec2) (startConnections : List ℕ)
    (endCandidates : ℕ → Bool)
    (hstart : ∀ j ∈ startConnections,
      j < nav.navigationGraph.length ∧ flags j = true)
    (fuel : ℕ) :
    aStarLoopChecked
      (navigationAStarInput euclid nav startPos endPos startConnections
        endCandidates)
      (adapterNeighborsChecked nav startConnections endCandidates) fuel
      (aStarInit (navigationAStarInput euclid nav startPos endPos
        startConnections endCandidates)) ≠ none := by
  apply aStarLoopChecked_ne_none _ _
    (fun v => v = nav.navigationGraph.length ∨
      v = nav.navigationGraph.length + 1 ∨
      (v < nav.navigationGraph.length ∧ flags v = true))
  · intro v hv hgoal
    exact adapter_safe nav n flags hinv hn startConnections endCandidates
      hstart v hv hgoal
  · intro e he
    have he' : e = ⟨nav.navigationGraph.length,
        euclid (getNodePosition nav startPos endPos
          nav.navigationGraph.length) endPos⟩ := by
      simpa [aStarInit, navigationAStarInput] using he
    rw [he']
    exact Or.inl rfl


/-- C10: `Navigation::find_path` is panic-free.  In the instrumented model
an outer `none` stands for a Rust panic of `NavigationAStarInput::neighbors`
— indexing `navigation_graph[node]` out of bounds (as would happen on the
end id or any id past the graph), or slicing `connections[1..]` of an empty
list (as would happen on a convex vertex's node).  Under the
one-bit-per-vertex well-formedness that `NavigationObstacle::new`
guarantees, every node the search ever pops is the start id, the end id
(returned before expansion) or a reflex-vertex node — whose connection
list always starts with the reserved placeholder, so the slice is applied
to a nonempty list — hence no panic, for every choice of the geometric
filters and of the fuel. -/
theorem findPath_never_panics (accepts : ℕ → ℕ → Bool)
    (inRange : ℕ → Vec2 → Bool) (euclid : Vec2 → Vec2 → ℚ)
    (obstacles : List NavigationObstacle) (hwf : obstaclesWF obstacles)
    (startPos endPos : Vec2) (fuel : ℕ) :
    findPath accepts inRange euclid obstacles startPos endPos fuel ≠ none := by
  rw [findPath]
  by_cases hfast : ¬ intersectsWithObstacle (Navigation.new accepts obstacles)
      ⟨startPos, endPos⟩ = true
  · rw [if_pos hfast]
    simp
  · rw [if_neg hfast]
    dsimp only
    intro hc
    obtain ⟨hinv, hlen⟩ := buildNavigationGraph_inv accepts obstacles
    have hn : nodesCount obstacles
        = (Navigation.new accepts obstacles).navigationGraph.length :=
      (hlen.trans (flattenVerts_length obstacles hwf)).symm
    have hstart : ∀ j ∈ (List.range (flattenVerts obstacles).length).filter
        (fun j => ((flattenVerts obstacles).getD j (⟨0, 0⟩, false)).2 &&
          inRange j startPos &&
          ! intersectsWithObstacle (Navigation.new accepts obstacles)
            ⟨startPos, ((flattenVerts obstacles).getD j (⟨0, 0⟩, false)).1⟩),
        j < (Navigation.new accepts obstacles).navigationGraph.length ∧
          ((flattenVerts obstacles).getD j (⟨0, 0⟩, false)).2 = true := by
      intro j hj
      have h1 := List.mem_range.mp (List.mem_filter.mp hj).1
      have h2 := (List.mem_filter.mp hj).2
      constructor
      · show j < (buildNavigationGraph accepts obstacles).length
        rw [hlen]
        exact h1
      · exact (Bool.and_eq_true_iff.mp (Bool.and_eq_true_iff.mp h2).1).1
    exact navigation_loop_safe euclid (Navigation.new accepts obstacles)
      (nodesCount obstacles)
      (fun j => ((flattenVerts obstacles).getD j (⟨0, 0⟩, false)).2)
      hinv hn startPos endPos _ _ hstart fuel (Option.map_eq_none'.mp hc)

theorem findPath_never_panics_witness :
    findPath (fun _ _ => true) (fun _ _ => true) (fun _ _ => 0)
      [⟨[⟨0, 0⟩, ⟨1, 0⟩], [true, true]⟩] ⟨0, 0⟩ ⟨1, 0⟩ 9 ≠ none :=
  findPath_never_panics (fun _ _ => true) (fun _ _ => true) (fun _ _ => 0)
    [⟨[⟨0, 0⟩, ⟨1, 0⟩], [true, true]⟩]
    (by intro o ho; rw [List.mem_singleton] at ho; subst ho; rfl)
    ⟨0, 0⟩ ⟨1, 0⟩ 9


/-! ### Rebounding lemmas and the C8 classification theorem -/

theorem boundDirectionR_spec (x : ℝ) (hlo : -(3 * Real.pi) < x)
    (hhi : x ≤ 3 * Real.pi) :
    (-Real.pi < boundDirectionR x ∧ boundDirectionR x ≤ Real.pi) ∧
    ∃ k : ℤ, boundDirectionR x = x + 2 * Real.pi * k := by
  have hpi := Real.pi_pos
  rw [boundDirectionR]
  split_ifs with h1 h2
  · exact ⟨⟨by linarith, by linarith⟩, ⟨-1, by push_cast; ring⟩⟩
  · exact ⟨⟨by linarith, by linarith⟩, ⟨1, by push_cast; ring⟩⟩
  · exact ⟨⟨by linarith, by linarith⟩, ⟨0, by push_cast; ring⟩⟩

theorem boundAngleR_spec (x : ℝ) (hlo : -(2 * Real.pi) < x)
    (hhi : x ≤ 4 * Real.pi) :
    (0 < boundAngleR x ∧ boundAngleR x ≤ 2 * Real.pi) ∧
    ∃ k : ℤ, boundAngleR x = x + 2 * Real.pi * k := by
  have hpi := Real.pi_pos
  rw [boundAngleR]
  split_ifs with h1 h2
  · exact ⟨⟨by linarith, by linarith⟩, ⟨-1, by push_cast; ring⟩⟩
  · exact ⟨⟨by linarith, by linarith⟩, ⟨1, by push_cast; ring⟩⟩
  · exact ⟨⟨by linarith, by linarith⟩, ⟨0, by push_cast; ring⟩⟩

/-- Two reals that differ by an integer multiple of `2π` but lie strictly
within `2π` of each other are equal. -/
theorem rep_eq_of_int_diff {x y : ℝ} (k : ℤ) (h : x - y = 2 * Real.pi * k)
    (hlt : |x - y| < 2 * Real.pi) : x = y := by
  have hpi := Real.pi_pos
  have hk : |(k : ℝ)| < 1 := by
    rw [h, abs_mul, abs_of_pos (by linarith : (0:ℝ) < 2 * Real.pi)] at hlt
    nlinarith [abs_nonneg (k : ℝ)]
  have hk0 : k = 0 := by
    have h1 : ((|k| : ℤ) : ℝ) < 1 := by rwa [Int.cast_abs]
    have h2 : |k| < 1 := by exact_mod_cast h1
    have h3 := abs_lt.mp h2
    omega
  rw [hk0] at h
  push_cast at h
  linarith

/-- The argument of `-z` differs from `arg z + π` by a multiple of `2π`. -/
theorem arg_neg_int_diff (z : ℂ) (hz : z ≠ 0) :
    ∃ k : ℤ, (-z).arg - (z.arg + Real.pi) = 2 * Real.pi * k := by
  have h := Complex.arg_neg_coe_angle hz
  rw [← Real.Angle.coe_add] at h
  exact Real.Angle.angle_eq_iff_two_pi_dvd_sub.mp h

theorem vdir_mem_Ioc (v : ℝ × ℝ) : -Real.pi < vdir v ∧ vdir v ≤ Real.pi := by
  have h := Complex.arg_mem_Ioc ⟨v.1, v.2⟩
  exact ⟨h.1, h.2⟩

/-- The direction of the reversed vector differs from the direction plus
`π` by a multiple of `2π`. -/
theorem vdir_rev_int_diff (a b : ℝ × ℝ) (hne : a ≠ b) :
    ∃ k : ℤ, vdir (vsub b a) - (vdir (vsub a b) + Real.pi)
      = 2 * Real.pi * k := by
  have hz : (⟨(vsub a b).1, (vsub a b).2⟩ : ℂ) ≠ 0 := by
    intro h
    apply hne
    rw [Complex.ext_iff] at h
    simp only [Complex.zero_re, Complex.zero_im, vsub] at h
    have h1 : a.1 = b.1 := by linarith [h.1]
    have h2 : a.2 = b.2 := by linarith [h.2]
    exact Prod.ext h1 h2
  have hneg : (⟨(vsub b a).1, (vsub b a).2⟩ : ℂ)
      = -⟨(vsub a b).1, (vsub a b).2⟩ := by
    rw [Complex.ext_iff]
    constructor
    · simp [vsub]
      try ring
    · simp [vsub]
      try ring
  rw [vdir, vdir, atan2R, atan2R, hneg]
  exact arg_neg_int_diff _ hz

/-- The `(0, 2π]` turn `theta` of the classification equals the claim's
`(-π, π]` signed turn (outgoing minus incoming direction) plus `π`. -/
theorem theta_eq_turn_add_pi {pd nd inD : ℝ}
    (hpdm : -Real.pi < pd ∧ pd ≤ Real.pi)
    (hndm : -Real.pi < nd ∧ nd ≤ Real.pi)
    (hinDm : -Real.pi < inD ∧ inD ≤ Real.pi)
    (k0 : ℤ) (hk0 : inD - (pd + Real.pi) = 2 * Real.pi * k0) :
    boundAngleR (nd - pd) = boundDirectionR (nd - inD) + Real.pi := by
  have hpi := Real.pi_pos
  obtain ⟨⟨hth1, hth2⟩, k1, hk1⟩ :=
    boundAngleR_spec (nd - pd) (by linarith [hpdm.1, hpdm.2, hndm.1, hndm.2])
      (by linarith [hpdm.1, hpdm.2, hndm.1, hndm.2])
  obtain ⟨⟨htu1, htu2⟩, k2, hk2⟩ :=
    boundDirectionR_spec (nd - inD)
      (by linarith [hinDm.1, hinDm.2, hndm.1, hndm.2])
      (by linarith [hinDm.1, hinDm.2, hndm.1, hndm.2])
  apply rep_eq_of_int_diff (k1 - k2 + k0)
  · rw [hk1, hk2]
    push_cast
    linarith [hk0]
  · rw [abs_lt]
    constructor
    · linarith
    · linarith

/-- C8: a vertex of a polygon that `NavigationObstacle::new` keeps
counter-clockwise (no canonicalizing reversal) is marked reflex in
`concave_vertices` exactly when its interior angle, measured as `π` minus
the signed turn from the incoming to the outgoing edge direction, exceeds
`π`.  (The turn `theta` the code computes in `(0, 2π]` is the signed turn
shifted by `π`, so `theta < π` is exactly "interior angle `> π`".) -/
theorem newConcaveBit_iff_interior_gt_pi (vertices : List (ℝ × ℝ))
    (hccw : windingOrderR vertices = ShapeWindingOrderR.CounterClockwise)
    (i : ℕ)
    (hp : prevVertexR vertices i ≠ vertices.getD i (0, 0)) :
    (newConcaveBit vertices i ↔ Real.pi < interiorAngleAt vertices i) := by
  have hpi := Real.pi_pos
  have hshape : newShapeR vertices = vertices := by
    rw [newShapeR, hccw]
    simp
  obtain ⟨k0, hk0⟩ :=
    vdir_rev_int_diff (prevVertexR vertices i) (vertices.getD i (0, 0)) hp
  have key := @theta_eq_turn_add_pi
    (vdir (vsub (prevVertexR vertices i) (vertices.getD i (0, 0))))
    (vdir (vsub (nextVertexR vertices i) (vertices.getD i (0, 0))))
    (vdir (vsub (vertices.getD i (0, 0)) (prevVertexR vertices i)))
    (vdir_mem_Ioc _) (vdir_mem_Ioc _) (vdir_mem_Ioc _) k0 hk0
  rw [newConcaveBit, hshape, thetaAt, interiorAngleAt, signedTurnAt, key]
  constructor
  · intro h
    linarith
  · intro h
    linarith

theorem newConcaveBit_iff_interior_gt_pi_witness :
    newConcaveBit [((2:ℝ), (8:ℝ)), (8, 8), (8, 2), (2, 2)] 0
      ↔ Real.pi < interiorAngleAt [((2:ℝ), (8:ℝ)), (8, 8), (8, 2), (2, 2)] 0 :=
  newConcaveBit_iff_interior_gt_pi _
    (by norm_num [windingOrderR, shoelaceR, crossR, List.rotate_cons_succ,
      List.rotate_zero])
    0
    (by norm_num [prevVertexR, Prod.ext_iff])


/-! ### Closed form of the expansion fans (C9 groundwork) -/

theorem cos_add_int_two_pi (x : ℝ) (j : ℤ) :
    Real.cos (x + 2 * Real.pi * j) = Real.cos x := by
  rw [show x + 2 * Real.pi * j = x + (j : ℝ) * (2 * Real.pi) by ring,
    Real.cos_add_int_mul_two_pi]

theorem sin_add_int_two_pi (x : ℝ) (j : ℤ) :
    Real.sin (x + 2 * Real.pi * j) = Real.sin x := by
  rw [show x + 2 * Real.pi * j = x + (j : ℝ) * (2 * Real.pi) by ring,
    Real.sin_add_int_mul_two_pi]

theorem boundDirectionR_int_diff (x : ℝ) :
    ∃ k : ℤ, boundDirectionR x = x + 2 * Real.pi * k := by
  rw [boundDirectionR]
  split_ifs
  · exact ⟨-1, by push_cast; ring⟩
  · exact ⟨1, by push_cast; ring⟩
  · exact ⟨0, by push_cast; ring⟩

theorem boundAngleR_int_diff (x : ℝ) :
    ∃ k : ℤ, boundAngleR x = x + 2 * Real.pi * k := by
  rw [boundAngleR]
  split_ifs
  · exact ⟨-1, by push_cast; ring⟩
  · exact ⟨1, by push_cast; ring⟩
  · exact ⟨0, by push_cast; ring⟩

theorem cos_boundAngleR (x : ℝ) : Real.cos (boundAngleR x) = Real.cos x := by
  obtain ⟨k, hk⟩ := boundAngleR_int_diff x
  rw [hk, cos_add_int_two_pi]

theorem sin_boundAngleR (x : ℝ) : Real.sin (boundAngleR x) = Real.sin x := by
  obtain ⟨k, hk⟩ := boundAngleR_int_diff x
  rw [hk, sin_add_int_two_pi]

theorem cos_boundDirectionR (x : ℝ) :
    Real.cos (boundDirectionR x) = Real.cos x := by
  obtain ⟨k, hk⟩ := boundDirectionR_int_diff x
  rw [hk, cos_add_int_two_pi]

theorem sin_boundDirectionR (x : ℝ) :
    Real.sin (boundDirectionR x) = Real.sin x := by
  obtain ⟨k, hk⟩ := boundDirectionR_int_diff x
  rw [hk, sin_add_int_two_pi]

/-- The fan loop in closed form: the `k`-th emitted point sits at angle
`d0 - k·sigma` (the intermediate `(-π, π]` rebounds drop out under `cos`
and `sin`). -/
theorem fanAux_eq (v : ℝ × ℝ) (delta sigma : ℝ) (count : ℕ) :
    ∀ d0, fanAux v delta sigma d0 count
      = (List.range count).map fun k : ℕ =>
          vadd v (Real.cos (d0 - (k : ℝ) * sigma) * delta,
            Real.sin (d0 - (k : ℝ) * sigma) * delta) := by
  induction count with
  | zero => intro d0; simp [fanAux]
  | succ m ih =>
    intro d0
    rw [fanAux, ih (boundDirectionR (d0 - sigma)), List.range_succ_eq_map,
      List.map_cons, List.map_map]
    congr 1
    · simp [dirMagR, unitR, vmul, cos_boundAngleR, sin_boundAngleR]
    · apply List.map_congr_left
      intro k hk
      obtain ⟨j, hj⟩ := boundDirectionR_int_diff (d0 - sigma)
      simp only [Function.comp_apply]
      rw [hj]
      have h1 : d0 - sigma + 2 * Real.pi * j - k * sigma
          = (d0 - (k + 1 : ℕ) * sigma) + 2 * Real.pi * j := by
        push_cast
        ring
      rw [h1, cos_add_int_two_pi, sin_add_int_two_pi]

/-- With `delta = 1` the fan is exactly `fanMap`. -/
theorem fanAux_one_eq_fanMap (v : ℝ × ℝ) (sigma d0 : ℝ) (count : ℕ) :
    fanAux v 1 sigma d0 count = fanMap v d0 sigma count := by
  rw [fanAux_eq]
  apply List.map_congr_left
  intro k hk
  simp [mul_one]

theorem crossR_unit (a b : ℝ) :
    crossR (Real.cos a, Real.sin a) (Real.cos b, Real.sin b)
      = Real.sin (b - a) := by
  simp only [crossR, Real.sin_sub]
  ring

theorem crossR_sub_unit (a b c d : ℝ) :
    crossR (vsub (Real.cos a, Real.sin a) (Real.cos b, Real.sin b))
      (vsub (Real.cos c, Real.sin c) (Real.cos d, Real.sin d))
      = Real.sin (c - a) - Real.sin (d - a) - Real.sin (c - b)
        + Real.sin (d - b) := by
  simp only [crossR, vsub, Real.sin_sub]
  ring

theorem vsub_vadd_same (c x y : ℝ × ℝ) :
    vsub (vadd c x) (vadd c y) = vsub x y := by
  simp only [vsub, vadd, Prod.mk.injEq]
  constructor
  · ring
  · ring


/-! ### Evaluating the expansion on the C9 square -/

theorem boundAngleR_of_mem {x : ℝ} (h1 : 0 < x) (h2 : x ≤ 2 * Real.pi) :
    boundAngleR x = x := by
  rw [boundAngleR]
  split_ifs with ha hb
  · linarith
  · linarith
  · rfl

theorem boundDirectionR_of_mem {x : ℝ} (h1 : -Real.pi < x)
    (h2 : x ≤ Real.pi) :
    boundDirectionR x = x := by
  rw [boundDirectionR]
  split_ifs with ha hb
  · linarith
  · linarith
  · rfl

theorem boundDirectionR_neg_pi : boundDirectionR (-Real.pi) = Real.pi := by
  have hpi := Real.pi_pos
  rw [boundDirectionR]
  split_ifs with ha hb
  · linarith
  · ring
  · linarith

theorem vdir_east {a : ℝ} (ha : 0 < a) : vdir (a, 0) = 0 := by
  have h : ((⟨a, 0⟩ : ℂ)) = (a : ℂ) * 1 := by
    simp [Complex.ext_iff]
  rw [vdir, atan2R]
  rw [h, Complex.arg_real_mul 1 ha, Complex.arg_one]

theorem vdir_west {a : ℝ} (ha : 0 < a) : vdir (-a, 0) = Real.pi := by
  have h : ((⟨-a, 0⟩ : ℂ)) = (a : ℂ) * (-1) := by
    simp [Complex.ext_iff]
  rw [vdir, atan2R]
  rw [h, Complex.arg_real_mul (-1) ha, Complex.arg_neg_one]

theorem vdir_north {a : ℝ} (ha : 0 < a) : vdir (0, a) = Real.pi / 2 := by
  have h : ((⟨0, a⟩ : ℂ)) = (a : ℂ) * Complex.I := by
    simp [Complex.ext_iff]
  rw [vdir, atan2R]
  rw [h, Complex.arg_real_mul Complex.I ha, Complex.arg_I]

theorem vdir_south {a : ℝ} (ha : 0 < a) : vdir (0, -a) = -(Real.pi / 2) := by
  have h : ((⟨0, -a⟩ : ℂ)) = (a : ℂ) * (-Complex.I) := by
    simp [Complex.ext_iff]
  rw [vdir, atan2R]
  rw [h, Complex.arg_real_mul (-Complex.I) ha, Complex.arg_neg_I]

theorem newShapeR_squareR : newShapeR squareR = squareCanon := by
  have hs : shoelaceR squareR = 72 := by
    norm_num [shoelaceR, squareR, crossR, List.rotate_cons_succ,
      List.rotate_zero]
  have hw : windingOrderR squareR = ShapeWindingOrderR.Clockwise := by
    rw [windingOrderR, hs]
    norm_num
  rw [newShapeR, hw]
  simp [squareR, squareCanon]

/-- Every corner of the canonical square is classified reflex by
`expand`'s recomputation and emits a quarter-circle fan. -/
theorem expandStepR_corner (vs : List (ℝ × ℝ)) (res : ℝ) (i : ℕ)
    (v : ℝ × ℝ) (pd nd d0 ed : ℝ)
    (hv : vs.getD i (0, 0) = v)
    (hpd : vdir (vsub (prevVertexR vs i) v) = pd)
    (hnd : vdir (vsub (nextVertexR vs i) v) = nd)
    (hth : boundAngleR (nd - pd) = Real.pi / 2)
    (hsd : boundDirectionR (pd - Real.pi / 2) = d0)
    (hed : boundDirectionR (nd + Real.pi / 2) = ed)
    (hdiff : boundAngleR (d0 - ed) = Real.pi / 2) :
    expandStepR vs 1 res i
      = fanAux v 1 (Real.pi / 2 / (stepsFor res : ℝ)) d0 (stepsFor res + 1) := by
  have hpi := Real.pi_pos
  rw [expandStepR]
  simp only [hv, hpd, hnd, hth, hsd, hed, hdiff, stepsFor]
  rw [if_pos (by linarith : Real.pi / 2 < Real.pi),
    if_neg (by intro h; linarith : ¬ Real.pi / 2 = 2 * Real.pi)]

theorem expandStep_c0 (res : ℝ) :
    expandStepR squareCanon 1 res 0
      = fanAux (2, 8) 1 (Real.pi / 2 / (stepsFor res : ℝ)) Real.pi
          (stepsFor res + 1) := by
  have hpi := Real.pi_pos
  apply expandStepR_corner squareCanon res 0 (2, 8)
    (-(Real.pi / 2)) 0 Real.pi (Real.pi / 2)
  · rfl
  · rw [show vsub (prevVertexR squareCanon 0) (2, 8) = (0, -6) by
      norm_num [prevVertexR, squareCanon, vsub]]
    exact vdir_south (by norm_num)
  · rw [show vsub (nextVertexR squareCanon 0) (2, 8) = (6, 0) by
      norm_num [nextVertexR, squareCanon, vsub]]
    exact vdir_east (by norm_num)
  · rw [show (0 : ℝ) - -(Real.pi / 2) = Real.pi / 2 by ring]
    exact boundAngleR_of_mem (by linarith) (by linarith)
  · rw [show -(Real.pi / 2) - Real.pi / 2 = -Real.pi by ring]
    exact boundDirectionR_neg_pi
  · rw [show (0 : ℝ) + Real.pi / 2 = Real.pi / 2 by ring]
    exact boundDirectionR_of_mem (by linarith) (by linarith)
  · rw [show Real.pi - Real.pi / 2 = Real.pi / 2 by ring]
    exact boundAngleR_of_mem (by linarith) (by linarith)

theorem expandStep_c1 (res : ℝ) :
    expandStepR squareCanon 1 res 1
      = fanAux (8, 8) 1 (Real.pi / 2 / (stepsFor res : ℝ)) (Real.pi / 2)
          (stepsFor res + 1) := by
  have hpi := Real.pi_pos
  apply expandStepR_corner squareCanon res 1 (8, 8)
    Real.pi (-(Real.pi / 2)) (Real.pi / 2) 0
  · rfl
  · rw [show vsub (prevVertexR squareCanon 1) (8, 8) = (-6, 0) by
      norm_num [prevVertexR, squareCanon, vsub]]
    exact vdir_west (by norm_num)
  · rw [show vsub (nextVertexR squareCanon 1) (8, 8) = (0, -6) by
      norm_num [nextVertexR, squareCanon, vsub]]
    exact vdir_south (by norm_num)
  · rw [show -(Real.pi / 2) - Real.pi = -(3 * Real.pi / 2) by ring]
    rw [boundAngleR]
    split_ifs with ha hb
    · linarith
    · ring
    · linarith
  · rw [show Real.pi - Real.pi / 2 = Real.pi / 2 by ring]
    exact boundDirectionR_of_mem (by linarith) (by linarith)
  · rw [show -(Real.pi / 2) + Real.pi / 2 = 0 by ring]
    exact boundDirectionR_of_mem (by linarith) (by linarith)
  · rw [show Real.pi / 2 - 0 = Real.pi / 2 by ring]
    exact boundAngleR_of_mem (by linarith) (by linarith)

theorem expandStep_c2 (res : ℝ) :
    expandStepR squareCanon 1 res 2
      = fanAux (8, 2) 1 (Real.pi / 2 / (stepsFor res : ℝ)) 0
          (stepsFor res + 1) := by
  have hpi := Real.pi_pos
  apply expandStepR_corner squareCanon res 2 (8, 2)
    (Real.pi / 2) Real.pi 0 (-(Real.pi / 2))
  · rfl
  · rw [show vsub (prevVertexR squareCanon 2) (8, 2) = (0, 6) by
      norm_num [prevVertexR, squareCanon, vsub]]
    exact vdir_north (by norm_num)
  · rw [show vsub (nextVertexR squareCanon 2) (8, 2) = (-6, 0) by
      norm_num [nextVertexR, squareCanon, vsub]]
    exact vdir_west (by norm_num)
  · rw [show Real.pi - Real.pi / 2 = Real.pi / 2 by ring]
    exact boundAngleR_of_mem (by linarith) (by linarith)
  · rw [show Real.pi / 2 - Real.pi / 2 = 0 by ring]
    exact boundDirectionR_of_mem (by linarith) (by linarith)
  · rw [show Real.pi + Real.pi / 2 = 3 * Real.pi / 2 by ring]
    rw [boundDirectionR]
    split_ifs with ha hb
    · ring
    · linarith
    · linarith
  · rw [show (0 : ℝ) - -(Real.pi / 2) = Real.pi / 2 by ring]
    exact boundAngleR_of_mem (by linarith) (by linarith)

theorem expandStep_c3 (res : ℝ) :
    expandStepR squareCanon 1 res 3
      = fanAux (2, 2) 1 (Real.pi / 2 / (stepsFor res : ℝ)) (-(Real.pi / 2))
          (stepsFor res + 1) := by
  have hpi := Real.pi_pos
  apply expandStepR_corner squareCanon res 3 (2, 2)
    0 (Real.pi / 2) (-(Real.pi / 2)) Real.pi
  · rfl
  · rw [show vsub (prevVertexR squareCanon 3) (2, 2) = (6, 0) by
      norm_num [prevVertexR, squareCanon, vsub]]
    exact vdir_east (by norm_num)
  · rw [show vsub (nextVertexR squareCanon 3) (2, 2) = (0, 6) by
      norm_num [nextVertexR, squareCanon, vsub]]
    exact vdir_north (by norm_num)
  · rw [show Real.pi / 2 - 0 = Real.pi / 2 by ring]
    exact boundAngleR_of_mem (by linarith) (by linarith)
  · rw [show (0 : ℝ) - Real.pi / 2 = -(Real.pi / 2) by ring]
    exact boundDirectionR_of_mem (by linarith) (by linarith)
  · rw [show Real.pi / 2 + Real.pi / 2 = Real.pi by ring]
    exact boundDirectionR_of_mem (by linarith) (by linarith)
  · rw [show -(Real.pi / 2) - Real.pi = -(3 * Real.pi / 2) by ring]
    rw [boundAngleR]
    split_ifs with ha hb
    · linarith
    · ring
    · linarith

/-- The full expanded vertex list of the C9 square: four quarter-circle
fans, one per corner. -/
theorem expandObstacle_squareR_eq (res : ℝ) :
    expandObstacleR squareR 1 res
      = fanMap (2, 8) Real.pi (Real.pi / 2 / (stepsFor res : ℝ))
          (stepsFor res + 1)
        ++ fanMap (8, 8) (Real.pi / 2) (Real.pi / 2 / (stepsFor res : ℝ))
          (stepsFor res + 1)
        ++ fanMap (8, 2) 0 (Real.pi / 2 / (stepsFor res : ℝ))
          (stepsFor res + 1)
        ++ fanMap (2, 2) (-(Real.pi / 2)) (Real.pi / 2 / (stepsFor res : ℝ))
          (stepsFor res + 1) := by
  rw [expandObstacleR, newShapeR_squareR, expandVerticesR]
  rw [show squareCanon.length = 4 from rfl]
  rw [show List.range 4 = [0, 1, 2, 3] from rfl]
  simp only [List.flatMap_cons, List.flatMap_nil, List.append_nil]
  rw [expandStep_c0, expandStep_c1, expandStep_c2, expandStep_c3,
    fanAux_one_eq_fanMap, fanAux_one_eq_fanMap, fanAux_one_eq_fanMap,
    fanAux_one_eq_fanMap]
  rw [List.append_assoc, List.append_assoc]


theorem fanMap_length (c : ℝ × ℝ) (d0 sigma : ℝ) (n : ℕ) :
    (fanMap c d0 sigma n).length = n := by
  simp [fanMap]

theorem fanMap_getD (c : ℝ × ℝ) (d0 sigma : ℝ) (n k : ℕ) (hk : k < n) :
    (fanMap c d0 sigma n).getD k (0, 0)
      = vadd c (Real.cos (d0 - k * sigma), Real.sin (d0 - k * sigma)) := by
  rw [fanMap, List.getD_eq_getElem?_getD, List.getElem?_map,
    List.getElem?_range hk]
  rfl

theorem expandObstacle_squareR_length (res : ℝ) :
    (expandObstacleR squareR 1 res).length = 4 * (stepsFor res + 1) := by
  rw [expandObstacle_squareR_eq]
  simp only [List.length_append, fanMap_length]
  ring

/-- Master indexing formula: the `k`-th point of the `q`-th fan of the
expanded square sits at distance 1 from corner `q` of the canonical
square, at angle `π - q·(π/2) - k·σ`. -/
theorem ex_getD (res : ℝ) (q k : ℕ) (hq : q < 4) (hk : k ≤ stepsFor res) :
    (expandObstacleR squareR 1 res).getD (q * (stepsFor res + 1) + k) (0, 0)
      = vadd (squareCanon.getD q (0, 0))
          (Real.cos (Real.pi - q * (Real.pi / 2)
              - k * (Real.pi / 2 / (stepsFor res : ℝ))),
            Real.sin (Real.pi - q * (Real.pi / 2)
              - k * (Real.pi / 2 / (stepsFor res : ℝ)))) := by
  rw [expandObstacle_squareR_eq]
  interval_cases q
  · rw [show 0 * (stepsFor res + 1) + k = k by ring]
    rw [List.getD_append _ _ _ _
      (by simp only [List.length_append, fanMap_length]; omega)]
    rw [List.getD_append _ _ _ _
      (by simp only [List.length_append, fanMap_length]; omega)]
    rw [List.getD_append _ _ _ _ (by rw [fanMap_length]; omega)]
    rw [fanMap_getD _ _ _ _ _ (by omega)]
    rw [show Real.pi - (0 : ℕ) * (Real.pi / 2)
          - k * (Real.pi / 2 / (stepsFor res : ℝ))
        = Real.pi - k * (Real.pi / 2 / (stepsFor res : ℝ)) by push_cast; ring]
    rfl
  · rw [show 1 * (stepsFor res + 1) + k = (stepsFor res + 1) + k by ring]
    rw [List.getD_append _ _ _ _
      (by simp only [List.length_append, fanMap_length]; omega)]
    rw [List.getD_append _ _ _ _
      (by simp only [List.length_append, fanMap_length]; omega)]
    rw [List.getD_append_right _ _ _ _ (by rw [fanMap_length]; omega)]
    rw [fanMap_length, show stepsFor res + 1 + k - (stepsFor res + 1) = k
      by omega]
    rw [fanMap_getD _ _ _ _ _ (by omega)]
    rw [show Real.pi - (1 : ℕ) * (Real.pi / 2)
          - k * (Real.pi / 2 / (stepsFor res : ℝ))
        = Real.pi / 2 - k * (Real.pi / 2 / (stepsFor res : ℝ))
      by push_cast; ring]
    rfl
  · rw [show 2 * (stepsFor res + 1) + k
        = (stepsFor res + 1) + (stepsFor res + 1) + k by ring]
    rw [List.getD_append _ _ _ _
      (by simp only [List.length_append, fanMap_length]; omega)]
    rw [List.getD_append_right _ _ _ _
      (by simp only [List.length_append, fanMap_length]; omega)]
    rw [show ((fanMap ((2 : ℝ), (8 : ℝ)) Real.pi
          (Real.pi / 2 / (stepsFor res : ℝ)) (stepsFor res + 1)
        ++ fanMap (8, 8) (Real.pi / 2) (Real.pi / 2 / (stepsFor res : ℝ))
          (stepsFor res + 1)).length) = 2 * (stepsFor res + 1)
      by simp only [List.length_append, fanMap_length]; ring]
    rw [show (stepsFor res + 1) + (stepsFor res + 1) + k
        - 2 * (stepsFor res + 1) = k by omega]
    rw [fanMap_getD _ _ _ _ _ (by omega)]
    rw [show Real.pi - (2 : ℕ) * (Real.pi / 2)
          - k * (Real.pi / 2 / (stepsFor res : ℝ))
        = 0 - k * (Real.pi / 2 / (stepsFor res : ℝ)) by push_cast; ring]
    rfl
  · rw [show 3 * (stepsFor res + 1) + k
        = (stepsFor res + 1) + (stepsFor res + 1) + (stepsFor res + 1) + k
      by ring]
    rw [List.getD_append_right _ _ _ _
      (by simp only [List.length_append, fanMap_length]; omega)]
    rw [show ((fanMap ((2 : ℝ), (8 : ℝ)) Real.pi
          (Real.pi / 2 / (stepsFor res : ℝ)) (stepsFor res + 1)
        ++ fanMap (8, 8) (Real.pi / 2) (Real.pi / 2 / (stepsFor res : ℝ))
          (stepsFor res + 1)
        ++ fanMap (8, 2) 0 (Real.pi / 2 / (stepsFor res : ℝ))
          (stepsFor res + 1)).length) = 3 * (stepsFor res + 1)
      by simp only [List.length_append, fanMap_length]; ring]
    rw [show (stepsFor res + 1) + (stepsFor res + 1) + (stepsFor res + 1) + k
        - 3 * (stepsFor res + 1) = k by omega]
    rw [fanMap_getD _ _ _ _ _ (by omega)]
    rw [show Real.pi - (3 : ℕ) * (Real.pi / 2)
          - k * (Real.pi / 2 / (stepsFor res : ℝ))
        = -(Real.pi / 2) - k * (Real.pi / 2 / (stepsFor res : ℝ))
      by push_cast; ring]
    rfl


theorem vsub_vadd_vadd_same (a b x : ℝ × ℝ) :
    vsub (vadd a x) (vadd b x) = vsub a b := by
  simp only [vsub, vadd, Prod.mk.injEq]
  constructor
  · ring
  · ring

theorem crossR_sub_left (a b w : ℝ × ℝ) :
    crossR (vsub a b) w = crossR a w - crossR b w := by
  simp only [crossR, vsub]
  ring

theorem crossR_sub_right (w a b : ℝ × ℝ) :
    crossR w (vsub a b) = crossR w a - crossR w b := by
  simp only [crossR, vsub]
  ring

theorem crossR_smul_right (a : ℝ × ℝ) (c ψ : ℝ) :
    crossR a (c * Real.cos ψ, c * Real.sin ψ)
      = c * crossR a (Real.cos ψ, Real.sin ψ) := by
  simp only [crossR]
  ring

theorem crossR_smul_left (c ψ : ℝ) (a : ℝ × ℝ) :
    crossR (c * Real.cos ψ, c * Real.sin ψ) a
      = c * crossR (Real.cos ψ, Real.sin ψ) a := by
  simp only [crossR]
  ring

/-- Three consecutive points of one arc fan always turn clockwise. -/
theorem inFan_cross_neg (θ sigma : ℝ) (hsin : 0 < Real.sin sigma)
    (hcos : Real.cos sigma < 1) :
    crossR
      (vsub (Real.cos (θ - sigma), Real.sin (θ - sigma))
        (Real.cos θ, Real.sin θ))
      (vsub (Real.cos (θ - 2 * sigma), Real.sin (θ - 2 * sigma))
        (Real.cos (θ - sigma), Real.sin (θ - sigma))) < 0 := by
  rw [crossR_sub_unit]
  rw [show θ - 2 * sigma - (θ - sigma) = -sigma by ring,
    show θ - sigma - (θ - sigma) = (0 : ℝ) by ring,
    show θ - 2 * sigma - θ = -(2 * sigma) by ring,
    show θ - sigma - θ = -sigma by ring]
  rw [Real.sin_neg, Real.sin_zero, Real.sin_neg, Real.sin_two_mul]
  nlinarith

/-- The turn at the junction where a fan hands over to the straight edge
towards the next fan is clockwise. -/
theorem junction1_cross_neg (φ sigma : ℝ) (hcos : Real.cos sigma < 1) :
    crossR
      (vsub (Real.cos φ, Real.sin φ)
        (Real.cos (φ + sigma), Real.sin (φ + sigma)))
      (6 * Real.cos (φ - Real.pi / 2), 6 * Real.sin (φ - Real.pi / 2))
      < 0 := by
  rw [crossR_sub_left, crossR_smul_right, crossR_smul_right, crossR_unit,
    crossR_unit]
  rw [show φ - Real.pi / 2 - φ = -(Real.pi / 2) by ring,
    show φ - Real.pi / 2 - (φ + sigma) = -(Real.pi / 2 + sigma) by ring]
  rw [Real.sin_neg, Real.sin_neg, Real.sin_pi_div_two, Real.sin_add,
    Real.sin_pi_div_two, Real.cos_pi_div_two]
  nlinarith

/-- The turn at the junction where the straight edge hands over to the
next fan is clockwise. -/
theorem junction2_cross_neg (φ sigma : ℝ) (hcos : Real.cos sigma < 1) :
    crossR
      (6 * Real.cos (φ - Real.pi / 2), 6 * Real.sin (φ - Real.pi / 2))
      (vsub (Real.cos (φ - sigma), Real.sin (φ - sigma))
        (Real.cos φ, Real.sin φ)) < 0 := by
  rw [crossR_sub_right, crossR_smul_left, crossR_smul_left, crossR_unit,
    crossR_unit]
  rw [show φ - sigma - (φ - Real.pi / 2) = Real.pi / 2 - sigma by ring,
    show φ - (φ - Real.pi / 2) = Real.pi / 2 by ring]
  rw [Real.sin_pi_div_two_sub, Real.sin_pi_div_two]
  linarith


/-- The expanded C9 square is discretely convex: every consecutive edge
pair of the cycle turns strictly clockwise. -/
theorem expandObstacle_squareR_convexCycle (res : ℝ) :
    ConvexCycle (expandObstacleR squareR 1 res) := by
  have hpi := Real.pi_pos
  obtain ⟨s, hsdef⟩ : ∃ s, stepsFor res = s := ⟨_, rfl⟩
  have hs1 : 1 ≤ s := by
    rw [← hsdef]
    exact Nat.le_max_right _ 1
  have hs1cast : (1 : ℝ) ≤ (s : ℝ) := by exact_mod_cast hs1
  have hscast : (0 : ℝ) < (s : ℝ) := by linarith
  obtain ⟨sigma, hsigdef⟩ : ∃ x : ℝ, Real.pi / 2 / (s : ℝ) = x := ⟨_, rfl⟩
  have hssig : (s : ℝ) * sigma = Real.pi / 2 := by
    rw [← hsigdef]
    field_simp
    ring
  have hsig_pos : 0 < sigma := by
    rw [← hsigdef]
    positivity
  have hsig_le : sigma ≤ Real.pi / 2 := by nlinarith
  have hsin : 0 < Real.sin sigma :=
    Real.sin_pos_of_pos_of_lt_pi hsig_pos (by linarith)
  have hcos : Real.cos sigma < 1 := by
    have h := Real.cos_lt_cos_of_nonneg_of_le_pi (le_refl 0)
      (show sigma ≤ Real.pi by linarith) hsig_pos
    rwa [Real.cos_zero] at h
  have hL : (expandObstacleR squareR 1 res).length = 4 * (s + 1) := by
    rw [expandObstacle_squareR_length, hsdef]
  have hPoint : ∀ m q k : ℕ, q < 4 → k ≤ s →
      m % (4 * (s + 1)) = q * (s + 1) + k →
      cyclicGet (expandObstacleR squareR 1 res) m
        = vadd (squareCanon.getD q (0, 0))
            (Real.cos (Real.pi - q * (Real.pi / 2) - k * sigma),
              Real.sin (Real.pi - q * (Real.pi / 2) - k * sigma)) := by
    intro m q k hq hk hm
    rw [cyclicGet, hL, hm]
    have h := ex_getD res q k hq (by omega)
    rw [hsdef, hsigdef] at h
    exact h
  intro j hj
  rw [hL] at hj
  obtain ⟨q, k, hq, hk, hjeq⟩ : ∃ q k, q < 4 ∧ k ≤ s ∧ j = q * (s + 1) + k := by
    refine ⟨j / (s + 1), j % (s + 1), ?_, ?_, ?_⟩
    · rw [Nat.div_lt_iff_lt_mul (by omega)]
      omega
    · have h := Nat.mod_lt j (show 0 < s + 1 by omega)
      omega
    · have h := Nat.div_add_mod j (s + 1)
      rw [Nat.mul_comm] at h
      omega
  have hmul : q * (s + 1) ≤ 3 * (s + 1) := Nat.mul_le_mul_right _ (by omega)
  rcases (show k + 2 ≤ s ∨ k + 1 = s ∨ k = s by omega) with hA | hB | hC
  · -- all three points inside fan q
    have hm0 : j % (4 * (s + 1)) = q * (s + 1) + k := by
      rw [Nat.mod_eq_of_lt hj]
      exact hjeq
    have hm1 : (j + 1) % (4 * (s + 1)) = q * (s + 1) + (k + 1) := by
      rw [Nat.mod_eq_of_lt (by omega)]
      omega
    have hm2 : (j + 2) % (4 * (s + 1)) = q * (s + 1) + (k + 2) := by
      rw [Nat.mod_eq_of_lt (by omega)]
      omega
    have P0 := hPoint j q k hq (by omega) hm0
    have P1 := hPoint (j + 1) q (k + 1) hq (by omega) hm1
    have P2 := hPoint (j + 2) q (k + 2) hq (by omega) hm2
    rw [show Real.pi - (q : ℝ) * (Real.pi / 2) - ((k + 1 : ℕ) : ℝ) * sigma
        = Real.pi - (q : ℝ) * (Real.pi / 2) - (k : ℝ) * sigma - sigma
      by push_cast; ring] at P1
    rw [show Real.pi - (q : ℝ) * (Real.pi / 2) - ((k + 2 : ℕ) : ℝ) * sigma
        = Real.pi - (q : ℝ) * (Real.pi / 2) - (k : ℝ) * sigma - 2 * sigma
      by push_cast; ring] at P2
    rw [P0, P1, P2, vsub_vadd_same, vsub_vadd_same]
    exact inFan_cross_neg _ sigma hsin hcos
  · -- the fan's last step followed by the straight edge to the next fan
    have hkc : (k : ℝ) = (s : ℝ) - 1 := by
      have h : ((k : ℝ) + 1) = (s : ℝ) := by exact_mod_cast hB
      linarith
    interval_cases q
    · have hm0 : j % (4 * (s + 1)) = 0 * (s + 1) + k := by
        rw [Nat.mod_eq_of_lt hj]
        exact hjeq
      have hm1 : (j + 1) % (4 * (s + 1)) = 0 * (s + 1) + s := by
        rw [Nat.mod_eq_of_lt (by omega)]
        omega
      have hm2 : (j + 2) % (4 * (s + 1)) = 1 * (s + 1) + 0 := by
        rw [Nat.mod_eq_of_lt (by omega)]
        omega
      have P0 := hPoint j 0 k (by omega) (by omega) hm0
      have P1 := hPoint (j + 1) 0 s (by omega) (by omega) hm1
      have P2 := hPoint (j + 2) 1 0 (by omega) (by omega) hm2
      rw [show Real.pi - ((0 : ℕ) : ℝ) * (Real.pi / 2) - (k : ℝ) * sigma
          = Real.pi / 2 + sigma by
        rw [hkc]; push_cast; linear_combination -hssig] at P0
      rw [show Real.pi - ((0 : ℕ) : ℝ) * (Real.pi / 2) - (s : ℝ) * sigma
          = Real.pi / 2 by push_cast; linear_combination -hssig] at P1
      rw [show Real.pi - ((1 : ℕ) : ℝ) * (Real.pi / 2) - ((0 : ℕ) : ℝ) * sigma
          = Real.pi / 2 by push_cast; ring] at P2
      rw [P0, P1, P2, vsub_vadd_same, vsub_vadd_vadd_same]
      rw [show vsub (squareCanon.getD 1 (0, 0)) (squareCanon.getD 0 (0, 0))
          = ((6 : ℝ), (0 : ℝ)) by norm_num [vsub, squareCanon]]
      rw [show ((6 : ℝ), (0 : ℝ))
          = (6 * Real.cos (Real.pi / 2 - Real.pi / 2),
            6 * Real.sin (Real.pi / 2 - Real.pi / 2)) by
        rw [show Real.pi / 2 - Real.pi / 2 = (0 : ℝ) by ring]
        norm_num]
      exact junction1_cross_neg (Real.pi / 2) sigma hcos
    · have hm0 : j % (4 * (s + 1)) = 1 * (s + 1) + k := by
        rw [Nat.mod_eq_of_lt hj]
        exact hjeq
      have hm1 : (j + 1) % (4 * (s + 1)) = 1 * (s + 1) + s := by
        rw [Nat.mod_eq_of_lt (by omega)]
        omega
      have hm2 : (j + 2) % (4 * (s + 1)) = 2 * (s + 1) + 0 := by
        rw [Nat.mod_eq_of_lt (by omega)]
        omega
      have P0 := hPoint j 1 k (by omega) (by omega) hm0
      have P1 := hPoint (j + 1) 1 s (by omega) (by omega) hm1
      have P2 := hPoint (j + 2) 2 0 (by omega) (by omega) hm2
      rw [show Real.pi - ((1 : ℕ) : ℝ) * (Real.pi / 2) - (k : ℝ) * sigma
          = (0 : ℝ) + sigma by
        rw [hkc]; push_cast; linear_combination -hssig] at P0
      rw [show Real.pi - ((1 : ℕ) : ℝ) * (Real.pi / 2) - (s : ℝ) * sigma
          = (0 : ℝ) by push_cast; linear_combination -hssig] at P1
      rw [show Real.pi - ((2 : ℕ) : ℝ) * (Real.pi / 2) - ((0 : ℕ) : ℝ) * sigma
          = (0 : ℝ) by push_cast; ring] at P2
      rw [P0, P1, P2, vsub_vadd_same, vsub_vadd_vadd_same]
      rw [show vsub (squareCanon.getD 2 (0, 0)) (squareCanon.getD 1 (0, 0))
          = ((0 : ℝ), (-6 : ℝ)) by norm_num [vsub, squareCanon]]
      rw [show ((0 : ℝ), (-6 : ℝ))
          = (6 * Real.cos ((0 : ℝ) - Real.pi / 2),
            6 * Real.sin ((0 : ℝ) - Real.pi / 2)) by
        rw [show (0 : ℝ) - Real.pi / 2 = -(Real.pi / 2) by ring]
        rw [Real.cos_neg, Real.sin_neg, Real.cos_pi_div_two,
          Real.sin_pi_div_two]
        norm_num]
      exact junction1_cross_neg 0 sigma hcos
    · have hm0 : j % (4 * (s + 1)) = 2 * (s + 1) + k := by
        rw [Nat.mod_eq_of_lt hj]
        exact hjeq
      have hm1 : (j + 1) % (4 * (s + 1)) = 2 * (s + 1) + s := by
        rw [Nat.mod_eq_of_lt (by omega)]
        omega
      have hm2 : (j + 2) % (4 * (s + 1)) = 3 * (s + 1) + 0 := by
        rw [Nat.mod_eq_of_lt (by omega)]
        omega
      have P0 := hPoint j 2 k (by omega) (by omega) hm0
      have P1 := hPoint (j + 1) 2 s (by omega) (by omega) hm1
      have P2 := hPoint (j + 2) 3 0 (by omega) (by omega) hm2
      rw [show Real.pi - ((2 : ℕ) : ℝ) * (Real.pi / 2) - (k : ℝ) * sigma
          = -(Real.pi / 2) + sigma by
        rw [hkc]; push_cast; linear_combination -hssig] at P0
      rw [show Real.pi - ((2 : ℕ) : ℝ) * (Real.pi / 2) - (s : ℝ) * sigma
          = -(Real.pi / 2) by push_cast; linear_combination -hssig] at P1
      rw [show Real.pi - ((3 : ℕ) : ℝ) * (Real.pi / 2) - ((0 : ℕ) : ℝ) * sigma
          = -(Real.pi / 2) by push_cast; ring] at P2
      rw [P0, P1, P2, vsub_vadd_same, vsub_vadd_vadd_same]
      rw [show vsub (squareCanon.getD 3 (0, 0)) (squareCanon.getD 2 (0, 0))
          = ((-6 : ℝ), (0 : ℝ)) by norm_num [vsub, squareCanon]]
      rw [show ((-6 : ℝ), (0 : ℝ))
          = (6 * Real.cos (-(Real.pi / 2) - Real.pi / 2),
            6 * Real.sin (-(Real.pi / 2) - Real.pi / 2)) by
        rw [show -(Real.pi / 2) - Real.pi / 2 = -Real.pi by ring]
        rw [Real.cos_neg, Real.sin_neg, Real.cos_pi, Real.sin_pi]
        norm_num]
      exact junction1_cross_neg (-(Real.pi / 2)) sigma hcos
    · have hm0 : j % (4 * (s + 1)) = 3 * (s + 1) + k := by
        rw [Nat.mod_eq_of_lt hj]
        exact hjeq
      have hm1 : (j + 1) % (4 * (s + 1)) = 3 * (s + 1) + s := by
        rw [Nat.mod_eq_of_lt (by omega)]
        omega
      have hm2 : (j + 2) % (4 * (s + 1)) = 0 * (s + 1) + 0 := by
        rw [show j + 2 = 4 * (s + 1) by omega, Nat.mod_self]
        omega
      have P0 := hPoint j 3 k (by omega) (by omega) hm0
      have P1 := hPoint (j + 1) 3 s (by omega) (by omega) hm1
      have P2 := hPoint (j + 2) 0 0 (by omega) (by omega) hm2
      rw [show Real.pi - ((3 : ℕ) : ℝ) * (Real.pi / 2) - (k : ℝ) * sigma
          = -Real.pi + sigma by
        rw [hkc]; push_cast; linear_combination -hssig] at P0
      rw [show Real.pi - ((3 : ℕ) : ℝ) * (Real.pi / 2) - (s : ℝ) * sigma
          = -Real.pi by push_cast; linear_combination -hssig] at P1
      rw [show Real.pi - ((0 : ℕ) : ℝ) * (Real.pi / 2) - ((0 : ℕ) : ℝ) * sigma
          = Real.pi by push_cast; ring] at P2
      rw [show ((Real.cos Real.pi, Real.sin Real.pi) : ℝ × ℝ)
          = (Real.cos (-Real.pi), Real.sin (-Real.pi)) by
        rw [Real.cos_neg, Real.sin_neg, Real.sin_pi]
        norm_num] at P2
      rw [P0, P1, P2, vsub_vadd_same, vsub_vadd_vadd_same]
      rw [show vsub (squareCanon.getD 0 (0, 0)) (squareCanon.getD 3 (0, 0))
          = ((0 : ℝ), (6 : ℝ)) by norm_num [vsub, squareCanon]]
      rw [show ((0 : ℝ), (6 : ℝ))
          = (6 * Real.cos (-Real.pi - Real.pi / 2),
            6 * Real.sin (-Real.pi - Real.pi / 2)) by
        rw [show -Real.pi - Real.pi / 2 = -(Real.pi + Real.pi / 2) by ring]
        rw [Real.cos_neg, Real.sin_neg, Real.cos_add, Real.sin_add,
          Real.cos_pi, Real.sin_pi, Real.cos_pi_div_two,
          Real.sin_pi_div_two]
        norm_num]
      exact junction1_cross_neg (-Real.pi) sigma hcos
  · -- the straight edge followed by the next fan's first step
    interval_cases q
    · have hm0 : j % (4 * (s + 1)) = 0 * (s + 1) + s := by
        rw [Nat.mod_eq_of_lt hj]
        omega
      have hm1 : (j + 1) % (4 * (s + 1)) = 1 * (s + 1) + 0 := by
        rw [Nat.mod_eq_of_lt (by omega)]
        omega
      have hm2 : (j + 2) % (4 * (s + 1)) = 1 * (s + 1) + 1 := by
        rw [Nat.mod_eq_of_lt (by omega)]
        omega
      have P0 := hPoint j 0 s (by omega) (by omega) hm0
      have P1 := hPoint (j + 1) 1 0 (by omega) (by omega) hm1
      have P2 := hPoint (j + 2) 1 1 (by omega) (by omega) hm2
      rw [show Real.pi - ((0 : ℕ) : ℝ) * (Real.pi / 2) - (s : ℝ) * sigma
          = Real.pi / 2 by push_cast; linear_combination -hssig] at P0
      rw [show Real.pi - ((1 : ℕ) : ℝ) * (Real.pi / 2) - ((0 : ℕ) : ℝ) * sigma
          = Real.pi / 2 by push_cast; ring] at P1
      rw [show Real.pi - ((1 : ℕ) : ℝ) * (Real.pi / 2) - ((1 : ℕ) : ℝ) * sigma
          = Real.pi / 2 - sigma by push_cast; ring] at P2
      rw [P0, P1, P2, vsub_vadd_vadd_same, vsub_vadd_same]
      rw [show vsub (squareCanon.getD 1 (0, 0)) (squareCanon.getD 0 (0, 0))
          = ((6 : ℝ), (0 : ℝ)) by norm_num [vsub, squareCanon]]
      rw [show ((6 : ℝ), (0 : ℝ))
          = (6 * Real.cos (Real.pi / 2 - Real.pi / 2),
            6 * Real.sin (Real.pi / 2 - Real.pi / 2)) by
        rw [show Real.pi / 2 - Real.pi / 2 = (0 : ℝ) by ring]
        norm_num]
      exact junction2_cross_neg (Real.pi / 2) sigma hcos
    · have hm0 : j % (4 * (s + 1)) = 1 * (s + 1) + s := by
        rw [Nat.mod_eq_of_lt hj]
        omega
      have hm1 : (j + 1) % (4 * (s + 1)) = 2 * (s + 1) + 0 := by
        rw [Nat.mod_eq_of_lt (by omega)]
        omega
      have hm2 : (j + 2) % (4 * (s + 1)) = 2 * (s + 1) + 1 := by
        rw [Nat.mod_eq_of_lt (by omega)]
        omega
      have P0 := hPoint j 1 s (by omega) (by omega) hm0
      have P1 := hPoint (j + 1) 2 0 (by omega) (by omega) hm1
      have P2 := hPoint (j + 2) 2 1 (by omega) (by omega) hm2
      rw [show Real.pi - ((1 : ℕ) : ℝ) * (Real.pi / 2) - (s : ℝ) * sigma
          = (0 : ℝ) by push_cast; linear_combination -hssig] at P0
      rw [show Real.pi - ((2 : ℕ) : ℝ) * (Real.pi / 2) - ((0 : ℕ) : ℝ) * sigma
          = (0 : ℝ) by push_cast; ring] at P1
      rw [show Real.pi - ((2 : ℕ) : ℝ) * (Real.pi / 2) - ((1 : ℕ) : ℝ) * sigma
          = (0 : ℝ) - sigma by push_cast; ring] at P2
      rw [P0, P1, P2, vsub_vadd_vadd_same, vsub_vadd_same]
      rw [show vsub (squareCanon.getD 2 (0, 0)) (squareCanon.getD 1 (0, 0))
          = ((0 : ℝ), (-6 : ℝ)) by norm_num [vsub, squareCanon]]
      rw [show ((0 : ℝ), (-6 : ℝ))
          = (6 * Real.cos ((0 : ℝ) - Real.pi / 2),
            6 * Real.sin ((0 : ℝ) - Real.pi / 2)) by
        rw [show (0 : ℝ) - Real.pi / 2 = -(Real.pi / 2) by ring]
        rw [Real.cos_neg, Real.sin_neg, Real.cos_pi_div_two,
          Real.sin_pi_div_two]
        norm_num]
      exact junction2_cross_neg 0 sigma hcos
    · have hm0 : j % (4 * (s + 1)) = 2 * (s + 1) + s := by
        rw [Nat.mod_eq_of_lt hj]
        omega
      have hm1 : (j + 1) % (4 * (s + 1)) = 3 * (s + 1) + 0 := by
        rw [Nat.mod_eq_of_lt (by omega)]
        omega
      have hm2 : (j + 2) % (4 * (s + 1)) = 3 * (s + 1) + 1 := by
        rw [Nat.mod_eq_of_lt (by omega)]
        omega
      have P0 := hPoint j 2 s (by omega) (by omega) hm0
      have P1 := hPoint (j + 1) 3 0 (by omega) (by omega) hm1
      have P2 := hPoint (j + 2) 3 1 (by omega) (by omega) hm2
      rw [show Real.pi - ((2 : ℕ) : ℝ) * (Real.pi / 2) - (s : ℝ) * sigma
          = -(Real.pi / 2) by push_cast; linear_combination -hssig] at P0
      rw [show Real.pi - ((3 : ℕ) : ℝ) * (Real.pi / 2) - ((0 : ℕ) : ℝ) * sigma
          = -(Real.pi / 2) by push_cast; ring] at P1
      rw [show Real.pi - ((3 : ℕ) : ℝ) * (Real.pi / 2) - ((1 : ℕ) : ℝ) * sigma
          = -(Real.pi / 2) - sigma by push_cast; ring] at P2
      rw [P0, P1, P2, vsub_vadd_vadd_same, vsub_vadd_same]
      rw [show vsub (squareCanon.getD 3 (0, 0)) (squareCanon.getD 2 (0, 0))
          = ((-6 : ℝ), (0 : ℝ)) by norm_num [vsub, squareCanon]]
      rw [show ((-6 : ℝ), (0 : ℝ))
          = (6 * Real.cos (-(Real.pi / 2) - Real.pi / 2),
            6 * Real.sin (-(Real.pi / 2) - Real.pi / 2)) by
        rw [show -(Real.pi / 2) - Real.pi / 2 = -Real.pi by ring]
        rw [Real.cos_neg, Real.sin_neg, Real.cos_pi, Real.sin_pi]
        norm_num]
      exact junction2_cross_neg (-(Real.pi / 2)) sigma hcos
    · have hm0 : j % (4 * (s + 1)) = 3 * (s + 1) + s := by
        rw [Nat.mod_eq_of_lt hj]
        omega
      have hm1 : (j + 1) % (4 * (s + 1)) = 0 * (s + 1) + 0 := by
        rw [show j + 1 = 4 * (s + 1) by omega, Nat.mod_self]
        omega
      have hm2 : (j + 2) % (4 * (s + 1)) = 0 * (s + 1) + 1 := by
        rw [show j + 2 = 4 * (s + 1) + 1 by omega,
          Nat.add_comm (4 * (s + 1)) 1, Nat.add_mod_right,
          Nat.mod_eq_of_lt (by omega)]
        omega
      have P0 := hPoint j 3 s (by omega) (by omega) hm0
      have P1 := hPoint (j + 1) 0 0 (by omega) (by omega) hm1
      have P2 := hPoint (j + 2) 0 1 (by omega) (by omega) hm2
      rw [show Real.pi - ((3 : ℕ) : ℝ) * (Real.pi / 2) - (s : ℝ) * sigma
          = -Real.pi by push_cast; linear_combination -hssig] at P0
      rw [show Real.pi - ((0 : ℕ) : ℝ) * (Real.pi / 2) - ((0 : ℕ) : ℝ) * sigma
          = Real.pi by push_cast; ring] at P1
      rw [show ((Real.cos Real.pi, Real.sin Real.pi) : ℝ × ℝ)
          = (Real.cos (-Real.pi), Real.sin (-Real.pi)) by
        rw [Real.cos_neg, Real.sin_neg, Real.sin_pi]
        norm_num] at P1
      rw [show Real.pi - ((0 : ℕ) : ℝ) * (Real.pi / 2) - ((1 : ℕ) : ℝ) * sigma
          = Real.pi - sigma by push_cast; ring] at P2
      rw [show ((Real.cos (Real.pi - sigma), Real.sin (Real.pi - sigma))
            : ℝ × ℝ)
          = (Real.cos (-Real.pi - sigma), Real.sin (-Real.pi - sigma)) by
        rw [show Real.pi - sigma
            = (-Real.pi - sigma) + 2 * Real.pi * ((1 : ℤ) : ℝ) by
          push_cast; ring]
        rw [cos_add_int_two_pi, sin_add_int_two_pi]] at P2
      rw [P0, P1, P2, vsub_vadd_vadd_same, vsub_vadd_same]
      rw [show vsub (squareCanon.getD 0 (0, 0)) (squareCanon.getD 3 (0, 0))
          = ((0 : ℝ), (6 : ℝ)) by norm_num [vsub, squareCanon]]
      rw [show ((0 : ℝ), (6 : ℝ))
          = (6 * Real.cos (-Real.pi - Real.pi / 2),
            6 * Real.sin (-Real.pi - Real.pi / 2)) by
        rw [show -Real.pi - Real.pi / 2 = -(Real.pi + Real.pi / 2) by ring]
        rw [Real.cos_neg, Real.sin_neg, Real.cos_add, Real.sin_add,
          Real.cos_pi, Real.sin_pi, Real.cos_pi_div_two,
          Real.sin_pi_div_two]
        norm_num]
      exact junction2_cross_neg (-Real.pi) sigma hcos


theorem mem_of_getD {l : List (ℝ × ℝ)} {j : ℕ} (h : j < l.length) :
    l.getD j (0, 0) ∈ l := by
  rw [List.getD_eq_getElem?_getD, List.getElem?_eq_getElem h]
  exact List.getElem_mem h

theorem stepsFor_pos (res : ℝ) : 1 ≤ stepsFor res := Nat.le_max_right _ 1

/-- The eight axis-aligned points of the expanded square: the first and
last point of each corner fan. -/
theorem ex_eight_points (res : ℝ) :
    (expandObstacleR squareR 1 res).getD
        (0 * (stepsFor res + 1) + 0) (0, 0) = (1, 8) ∧
    (expandObstacleR squareR 1 res).getD
        (0 * (stepsFor res + 1) + stepsFor res) (0, 0) = (2, 9) ∧
    (expandObstacleR squareR 1 res).getD
        (1 * (stepsFor res + 1) + 0) (0, 0) = (8, 9) ∧
    (expandObstacleR squareR 1 res).getD
        (1 * (stepsFor res + 1) + stepsFor res) (0, 0) = (9, 8) ∧
    (expandObstacleR squareR 1 res).getD
        (2 * (stepsFor res + 1) + 0) (0, 0) = (9, 2) ∧
    (expandObstacleR squareR 1 res).getD
        (2 * (stepsFor res + 1) + stepsFor res) (0, 0) = (8, 1) ∧
    (expandObstacleR squareR 1 res).getD
        (3 * (stepsFor res + 1) + 0) (0, 0) = (2, 1) ∧
    (expandObstacleR squareR 1 res).getD
        (3 * (stepsFor res + 1) + stepsFor res) (0, 0) = (1, 2) := by
  have hpi := Real.pi_pos
  have hs1 := stepsFor_pos res
  have hsne : ((stepsFor res : ℕ) : ℝ) ≠ 0 := by
    have h0 : 0 < stepsFor res := hs1
    exact_mod_cast Nat.pos_iff_ne_zero.mp h0
  have hzero : ∀ q : ℕ, q < 4 →
      Real.pi - (q : ℝ) * (Real.pi / 2)
          - ((0 : ℕ) : ℝ) * (Real.pi / 2 / (stepsFor res : ℝ))
        = Real.pi - (q : ℝ) * (Real.pi / 2) := by
    intro q _
    push_cast
    ring
  have hfull : ∀ q : ℕ, q < 4 →
      Real.pi - (q : ℝ) * (Real.pi / 2)
          - ((stepsFor res : ℕ) : ℝ) * (Real.pi / 2 / (stepsFor res : ℝ))
        = Real.pi - (q : ℝ) * (Real.pi / 2) - Real.pi / 2 := by
    intro q _
    field_simp
    ring
  refine ⟨?_, ?_, ?_, ?_, ?_, ?_, ?_, ?_⟩
  · have h := ex_getD res 0 0 (by omega) (by omega)
    rw [hzero 0 (by omega)] at h
    rw [h]
    rw [show Real.pi - ((0 : ℕ) : ℝ) * (Real.pi / 2) = Real.pi by
      push_cast; ring]
    norm_num [vadd, squareCanon, Real.cos_pi, Real.sin_pi]
  · have h := ex_getD res 0 (stepsFor res) (by omega) (by omega)
    rw [hfull 0 (by omega)] at h
    rw [h]
    rw [show Real.pi - ((0 : ℕ) : ℝ) * (Real.pi / 2) - Real.pi / 2
        = Real.pi / 2 by push_cast; ring]
    norm_num [vadd, squareCanon, Real.cos_pi_div_two, Real.sin_pi_div_two]
  · have h := ex_getD res 1 0 (by omega) (by omega)
    rw [hzero 1 (by omega)] at h
    rw [h]
    rw [show Real.pi - ((1 : ℕ) : ℝ) * (Real.pi / 2) = Real.pi / 2 by
      push_cast; ring]
    norm_num [vadd, squareCanon, Real.cos_pi_div_two, Real.sin_pi_div_two]
  · have h := ex_getD res 1 (stepsFor res) (by omega) (by omega)
    rw [hfull 1 (by omega)] at h
    rw [h]
    rw [show Real.pi - ((1 : ℕ) : ℝ) * (Real.pi / 2) - Real.pi / 2
        = (0 : ℝ) by push_cast; ring]
    norm_num [vadd, squareCanon]
  · have h := ex_getD res 2 0 (by omega) (by omega)
    rw [hzero 2 (by omega)] at h
    rw [h]
    rw [show Real.pi - ((2 : ℕ) : ℝ) * (Real.pi / 2) = (0 : ℝ) by
      push_cast; ring]
    norm_num [vadd, squareCanon]
  · have h := ex_getD res 2 (stepsFor res) (by omega) (by omega)
    rw [hfull 2 (by omega)] at h
    rw [h]
    rw [show Real.pi - ((2 : ℕ) : ℝ) * (Real.pi / 2) - Real.pi / 2
        = -(Real.pi / 2) by push_cast; ring]
    rw [Real.cos_neg, Real.sin_neg]
    norm_num [vadd, squareCanon, Real.cos_pi_div_two, Real.sin_pi_div_two]
  · have h := ex_getD res 3 0 (by omega) (by omega)
    rw [hzero 3 (by omega)] at h
    rw [h]
    rw [show Real.pi - ((3 : ℕ) : ℝ) * (Real.pi / 2) = -(Real.pi / 2) by
      push_cast; ring]
    rw [Real.cos_neg, Real.sin_neg]
    norm_num [vadd, squareCanon, Real.cos_pi_div_two, Real.sin_pi_div_two]
  · have h := ex_getD res 3 (stepsFor res) (by omega) (by omega)
    rw [hfull 3 (by omega)] at h
    rw [h]
    rw [show Real.pi - ((3 : ℕ) : ℝ) * (Real.pi / 2) - Real.pi / 2
        = -Real.pi by push_cast; ring]
    rw [Real.cos_neg, Real.sin_neg]
    norm_num [vadd, squareCanon, Real.cos_pi, Real.sin_pi]


/-- C9: expanding the obstacle `NavigationObstacle::new([(2,2),(8,2),(8,8),(2,8)])`
by `expand(delta = 1, resolution)` for any `resolution > 0` yields a convex
polygon (every turn of the cycle is strict and in the same direction) whose
convex hull strictly contains the original square — the square's hull is
contained in the expanded hull while the expanded vertex `(2,9)` lies
outside the square — and every original edge reappears offset outward by
exactly `delta = 1`: for each edge of the canonical square there is a
consecutive (cyclic) vertex pair of the expansion equal to that edge
translated by the edge's outward unit normal (`nuList`, perpendicular to
the edge, of unit length, pointing away from the square's center
`(5,5)`). -/
theorem square_expand_convex_strictly_contains (resolution : ℝ)
    (hres : 0 < resolution) :
    ConvexCycle (expandObstacleR squareR 1 resolution) ∧
    (convexHull ℝ {p : ℝ × ℝ | p ∈ squareR}
      ⊆ convexHull ℝ
          {p : ℝ × ℝ | p ∈ expandObstacleR squareR 1 resolution}) ∧
    ((2 : ℝ), (9 : ℝ))
      ∈ convexHull ℝ
          {p : ℝ × ℝ | p ∈ expandObstacleR squareR 1 resolution} ∧
    ((2 : ℝ), (9 : ℝ)) ∉ convexHull ℝ {p : ℝ × ℝ | p ∈ squareR} ∧
    (∀ i, i < 4 →
      dotR (nuList.getD i (0, 0)) (nuList.getD i (0, 0)) = 1 ∧
      dotR (nuList.getD i (0, 0))
        (vsub (cyclicGet squareCanon (i + 1)) (cyclicGet squareCanon i))
        = 0 ∧
      0 < dotR (nuList.getD i (0, 0))
        (vsub (cyclicGet squareCanon i) (5, 5)) ∧
      ∃ j, j < (expandObstacleR squareR 1 resolution).length ∧
        cyclicGet (expandObstacleR squareR 1 resolution) j
          = vadd (cyclicGet squareCanon i) (nuList.getD i (0, 0)) ∧
        cyclicGet (expandObstacleR squareR 1 resolution) (j + 1)
          = vadd (cyclicGet squareCanon (i + 1)) (nuList.getD i (0, 0))) := by
  obtain ⟨h18, h29, h89, h98, h92, h81, h21, h12⟩ := ex_eight_points resolution
  have hs1 := stepsFor_pos resolution
  have hLen := expandObstacle_squareR_length resolution
  have hmem : ∀ (idx : ℕ) (p : ℝ × ℝ),
      idx < 4 * (stepsFor resolution + 1) →
      (expandObstacleR squareR 1 resolution).getD idx (0, 0) = p →
      p ∈ {q : ℝ × ℝ | q ∈ expandObstacleR squareR 1 resolution} := by
    intro idx p hidx hval
    rw [← hval]
    exact mem_of_getD (by rw [hLen]; exact hidx)
  have hm29 := hmem _ _ (by omega) h29
  have hm21 := hmem _ _ (by omega) h21
  have hm89 := hmem _ _ (by omega) h89
  have hm81 := hmem _ _ (by omega) h81
  have hh29 := subset_convexHull ℝ _ hm29
  have hh21 := subset_convexHull ℝ _ hm21
  have hh89 := subset_convexHull ℝ _ hm89
  have hh81 := subset_convexHull ℝ _ hm81
  have hcombo : ∀ (a z : ℝ × ℝ) (c1 c2 : ℝ) (p : ℝ × ℝ),
      a ∈ convexHull ℝ {q : ℝ × ℝ | q ∈ expandObstacleR squareR 1 resolution} →
      z ∈ convexHull ℝ {q : ℝ × ℝ | q ∈ expandObstacleR squareR 1 resolution} →
      0 ≤ c1 → 0 ≤ c2 → c1 + c2 = 1 → c1 • a + c2 • z = p →
      p ∈ convexHull ℝ
        {q : ℝ × ℝ | q ∈ expandObstacleR squareR 1 resolution} := by
    intro a z c1 c2 p ha hz h1 h2 h12' hp
    have h := convex_convexHull ℝ _ ha hz h1 h2 h12'
    rwa [hp] at h
  have hc22 := hcombo _ _ (7/8) (1/8) ((2 : ℝ), (2 : ℝ)) hh21 hh29
    (by norm_num) (by norm_num) (by norm_num)
    (by norm_num [Prod.smul_mk, Prod.mk_add_mk, smul_eq_mul])
  have hc28 := hcombo _ _ (1/8) (7/8) ((2 : ℝ), (8 : ℝ)) hh21 hh29
    (by norm_num) (by norm_num) (by norm_num)
    (by norm_num [Prod.smul_mk, Prod.mk_add_mk, smul_eq_mul])
  have hc82 := hcombo _ _ (7/8) (1/8) ((8 : ℝ), (2 : ℝ)) hh81 hh89
    (by norm_num) (by norm_num) (by norm_num)
    (by norm_num [Prod.smul_mk, Prod.mk_add_mk, smul_eq_mul])
  have hc88 := hcombo _ _ (1/8) (7/8) ((8 : ℝ), (8 : ℝ)) hh81 hh89
    (by norm_num) (by norm_num) (by norm_num)
    (by norm_num [Prod.smul_mk, Prod.mk_add_mk, smul_eq_mul])
  refine ⟨expandObstacle_squareR_convexCycle resolution, ?_, hh29, ?_, ?_⟩
  · apply convexHull_min ?_ (convex_convexHull ℝ _)
    intro p hp
    simp only [Set.mem_setOf_eq, squareR, List.mem_cons,
      List.mem_singleton, List.not_mem_nil, or_false] at hp
    rcases hp with rfl | rfl | rfl | rfl
    · exact hc22
    · exact hc82
    · exact hc88
    · exact hc28
  · intro hcon
    have hsub : convexHull ℝ {p : ℝ × ℝ | p ∈ squareR}
        ⊆ {p : ℝ × ℝ | p.2 ≤ 8} := by
      apply convexHull_min
      · intro p hp
        simp only [Set.mem_setOf_eq, squareR, List.mem_cons,
          List.mem_singleton, List.not_mem_nil, or_false] at hp
        rcases hp with rfl | rfl | rfl | rfl <;> norm_num
      · exact convex_halfSpace_le ⟨fun a b => rfl, fun c a => rfl⟩ 8
    have h9 := hsub hcon
    simp only [Set.mem_setOf_eq] at h9
    norm_num at h9
  · intro i hi
    interval_cases i
    · refine ⟨by norm_num [dotR, nuList],
        by norm_num [dotR, nuList, vsub, cyclicGet, squareCanon],
        by norm_num [dotR, nuList, vsub, cyclicGet, squareCanon], ?_⟩
      refine ⟨0 * (stepsFor resolution + 1) + stepsFor resolution,
        by omega, ?_, ?_⟩
      · rw [cyclicGet, hLen, Nat.mod_eq_of_lt (by omega), h29]
        norm_num [vadd, cyclicGet, squareCanon, nuList]
      · rw [cyclicGet, hLen, Nat.mod_eq_of_lt (by omega)]
        rw [show 0 * (stepsFor resolution + 1) + stepsFor resolution + 1
            = 1 * (stepsFor resolution + 1) + 0 by ring]
        rw [h89]
        norm_num [vadd, cyclicGet, squareCanon, nuList]
    · refine ⟨by norm_num [dotR, nuList],
        by norm_num [dotR, nuList, vsub, cyclicGet, squareCanon],
        by norm_num [dotR, nuList, vsub, cyclicGet, squareCanon], ?_⟩
      refine ⟨1 * (stepsFor resolution + 1) + stepsFor resolution,
        by omega, ?_, ?_⟩
      · rw [cyclicGet, hLen, Nat.mod_eq_of_lt (by omega), h98]
        norm_num [vadd, cyclicGet, squareCanon, nuList]
      · rw [cyclicGet, hLen, Nat.mod_eq_of_lt (by omega)]
        rw [show 1 * (stepsFor resolution + 1) + stepsFor resolution + 1
            = 2 * (stepsFor resolution + 1) + 0 by ring]
        rw [h92]
        norm_num [vadd, cyclicGet, squareCanon, nuList]
    · refine ⟨by norm_num [dotR, nuList],
        by norm_num [dotR, nuList, vsub, cyclicGet, squareCanon],
        by norm_num [dotR, nuList, vsub, cyclicGet, squareCanon], ?_⟩
      refine ⟨2 * (stepsFor resolution + 1) + stepsFor resolution,
        by omega, ?_, ?_⟩
      · rw [cyclicGet, hLen, Nat.mod_eq_of_lt (by omega), h81]
        norm_num [vadd, cyclicGet, squareCanon, nuList]
      · rw [cyclicGet, hLen, Nat.mod_eq_of_lt (by omega)]
        rw [show 2 * (stepsFor resolution + 1) + stepsFor resolution + 1
            = 3 * (stepsFor resolution + 1) + 0 by ring]
        rw [h21]
        norm_num [vadd, cyclicGet, squareCanon, nuList]
    · refine ⟨by norm_num [dotR, nuList],
        by norm_num [dotR, nuList, vsub, cyclicGet, squareCanon],
        by norm_num [dotR, nuList, vsub, cyclicGet, squareCanon], ?_⟩
      refine ⟨3 * (stepsFor resolution + 1) + stepsFor resolution,
        by omega, ?_, ?_⟩
      · rw [cyclicGet, hLen, Nat.mod_eq_of_lt (by omega), h12]
        norm_num [vadd, cyclicGet, squareCanon, nuList]
      · rw [cyclicGet, hLen]
        rw [show 3 * (stepsFor resolution + 1) + stepsFor resolution + 1
            = 4 * (stepsFor resolution + 1) by ring]
        rw [Nat.mod_self]
        have h18' := h18
        rw [show 0 * (stepsFor resolution + 1) + 0 = 0 by ring] at h18'
        rw [h18']
        norm_num [vadd, cyclicGet, squareCanon, nuList]

theorem square_expand_convex_strictly_contains_witness :
    ConvexCycle (expandObstacleR squareR 1 10) ∧
    (convexHull ℝ {p : ℝ × ℝ | p ∈ squareR}
      ⊆ convexHull ℝ {p : ℝ × ℝ | p ∈ expandObstacleR squareR 1 10}) ∧
    ((2 : ℝ), (9 : ℝ))
      ∈ convexHull ℝ {p : ℝ × ℝ | p ∈ expandObstacleR squareR 1 10} ∧
    ((2 : ℝ), (9 : ℝ)) ∉ convexHull ℝ {p : ℝ × ℝ | p ∈ squareR} ∧
    (∀ i, i < 4 →
      dotR (nuList.getD i (0, 0)) (nuList.getD i (0, 0)) = 1 ∧
      dotR (nuList.getD i (0, 0))
        (vsub (cyclicGet squareCanon (i + 1)) (cyclicGet squareCanon i))
        = 0 ∧
      0 < dotR (nuList.getD i (0, 0))
        (vsub (cyclicGet squareCanon i) (5, 5)) ∧
      ∃ j, j < (expandObstacleR squareR 1 10).length ∧
        cyclicGet (expandObstacleR squareR 1 10) j
          = vadd (cyclicGet squareCanon i) (nuList.getD i (0, 0)) ∧
        cyclicGet (expandObstacleR squareR 1 10) (j + 1)
          = vadd (cyclicGet squareCanon (i + 1)) (nuList.getD i (0, 0))) :=
  square_expand_convex_strictly_contains 10 (by norm_num)


theorem WalkTo.last_mem {input : AStarInput} {a b : ℕ} {l : List ℕ}
    (h : WalkTo input a b l) : b ∈ l := by
  cases h with
  | base => simp
  | step _ _ => simp

/-- A rooted chain drives the reconstruction loop to success: with enough
fuel the loop returns the chain (prepended to the accumulator). -/
theorem reconstructPath_of_chain (cameFrom : ℕ → Option ℕ) :
    ∀ (l : List ℕ) (n : ℕ) (acc : List ℕ) (fuel : ℕ),
      l.getLast? = some n →
      List.Chain' (fun a b => cameFrom b = some a) l →
      (∃ h0, l.head? = some h0 ∧ cameFrom h0 = none) →
      l.length ≤ fuel →
      reconstructPath cameFrom fuel n acc = some (l ++ acc) := by
  intro l
  induction l using List.reverseRecOn with
  | nil => intro n acc fuel hlast; simp at hlast
  | append_singleton l' b ihl =>
    intro n acc fuel hlast hchain hhead hfuel
    obtain rfl : b = n := by simpa using hlast
    cases fuel with
    | zero =>
      exfalso
      simp at hfuel
    | succ f =>
      rw [reconstructPath]
      cases l' with
      | nil =>
        obtain ⟨h0, hh0, hcn⟩ := hhead
        obtain rfl : b = h0 := by simpa using hh0
        rw [hcn]
        simp
      | cons y r =>
        have hsplit := List.chain'_append.mp
          (show List.Chain' (fun s t => cameFrom t = some s) ((y :: r) ++ [b]) from hchain)
        set a := (y :: r).getLast (by simp) with ha
        have halast : (y :: r).getLast? = some a := List.getLast?_eq_getLast _ _
        have hlink : cameFrom b = some a := hsplit.2.2 a (by simpa using halast) b (by simp)
        rw [hlink]
        obtain ⟨h0, hh0, hcn⟩ := hhead
        have hh0' : (y :: r).head? = some h0 := by simpa using hh0
        have hres := ihl a (b :: acc) f halast hsplit.1 ⟨h0, hh0', hcn⟩
          (by simp at hfuel ⊢; omega)
        dsimp only
        rw [hres]
        simp

/-- Along a `came_from` chain every node's g-score is finite and bounded
by the g-score of the chain's last node. -/
theorem came_chain_g_le (input : AStarInput) (st : AStarState)
    (hd : ∀ a b, b ∈ input.neighbors a → 0 ≤ input.distance a b)
    (hce : CameEdgeP input st) :
    ∀ (l : List ℕ) (u : ℕ) (vu : ℚ),
      List.Chain' (fun a b => st.cameFrom b = some a) l →
      l.getLast? = some u → st.gScore u = some vu →
      ∀ x ∈ l, ∃ vx, st.gScore x = some vx ∧ vx ≤ vu := by
  intro l
  induction l using List.reverseRecOn with
  | nil => intro u vu _ _ _ x hx; simp at hx
  | append_singleton l' b ihl =>
    intro u vu hchain hlast hg x hx
    obtain rfl : b = u := by simpa using hlast
    rcases List.mem_append.mp hx with hx' | hx'
    · cases l' with
      | nil => simp at hx'
      | cons y r =>
        have hsplit := List.chain'_append.mp
          (show List.Chain' (fun s t => st.cameFrom t = some s) ((y :: r) ++ [b]) from hchain)
        set a := (y :: r).getLast (by simp) with ha
        have halast : (y :: r).getLast? = some a := List.getLast?_eq_getLast _ _
        have hlink : st.cameFrom b = some a := hsplit.2.2 a (by simpa using halast) b (by simp)
        obtain ⟨hadj, vn, vc, hvn, hvc, hedge⟩ := hce b a hlink
        obtain rfl : vn = vu := by rw [hg] at hvn; simpa using hvn.symm
        have hd0 := hd a b hadj
        obtain ⟨vx, hvx, hle⟩ := ihl a vc hsplit.1 halast hvc x hx'
        exact ⟨vx, hvx, by linarith⟩
    · obtain rfl : x = b := by simpa using hx'
      exact ⟨vu, hg, le_refl _⟩

/-- Updating the predecessor map at a node outside a chain leaves the
chain's links intact. -/
theorem chain_update_of_not_mem (cameFrom : ℕ → Option ℕ) (nb : ℕ) (w : Option ℕ) :
    ∀ (l : List ℕ), nb ∉ l →
      List.Chain' (fun a b => cameFrom b = some a) l →
      List.Chain' (fun a b => Function.update cameFrom nb w b = some a) l := by
  intro l
  induction l with
  | nil => intro _ _; simp
  | cons x r ih =>
    intro hnb hch
    cases r with
    | nil => simp
    | cons y t =>
      rw [List.chain'_cons] at hch ⊢
      refine ⟨?_, ih (fun h => hnb (List.mem_cons_of_mem x h)) hch.2⟩
      have hy : y ≠ nb := by
        intro h
        apply hnb
        rw [← h]
        simp
      rw [Function.update_noteq hy]
      exact hch.1

/-- In a chain starting at `nb`, every later node's g-score dominates
`nb`'s. -/
theorem came_chain_nb_le (input : AStarInput) (st : AStarState)
    (hd : ∀ a b, b ∈ input.neighbors a → 0 ≤ input.distance a b)
    (hce : CameEdgeP input st) {nb y : ℕ} {l2 : List ℕ} {vy : ℚ}
    (hch : List.Chain' (fun a b => st.cameFrom b = some a) (nb :: l2))
    (hy : y ∈ l2) (hgy : st.gScore y = some vy) :
    ∃ vnb, st.gScore nb = some vnb ∧ vnb ≤ vy := by
  obtain ⟨m1, m2, rfl⟩ := List.append_of_mem hy
  have hpre : (nb :: (m1 ++ [y])) <+: (nb :: (m1 ++ y :: m2)) := by
    refine ⟨m2, ?_⟩
    simp
  have hch' : List.Chain' (fun a b => st.cameFrom b = some a) (nb :: (m1 ++ [y])) :=
    hch.prefix hpre
  have hlast : (nb :: (m1 ++ [y])).getLast? = some y := by
    rw [show nb :: (m1 ++ [y]) = (nb :: m1) ++ [y] by simp, List.getLast?_concat]
  obtain ⟨vnb, hvnb, hle⟩ := came_chain_g_le input st hd hce (nb :: (m1 ++ [y])) y vy
    hch' hlast hgy nb (by simp)
  exact ⟨vnb, hvnb, hle⟩

/-- The relaxation fold never increases any g-score. -/
theorem expandFold_g_mono (input : AStarInput) (u : ℕ) :
    ∀ (l : List ℕ) (st0 : AStarState) (n : ℕ),
      optLe ((List.foldl (expandNeighbor input u) st0 l).gScore n) (st0.gScore n) := by
  intro l
  induction l with
  | nil => intro st0 n; rw [List.foldl_nil]; exact optLe_refl _
  | cons m0 l' ih =>
    intro st0 n
    rw [List.foldl_cons]
    refine optLe_trans (ih (expandNeighbor input u st0 m0) n) ?_
    rcases expandNeighbor_cases input u st0 m0 with ⟨heq, _⟩ | ⟨vu, hgu, hlt, heq⟩
    · rw [heq]; exact optLe_refl _
    · rw [heq]
      show optLe (Function.update st0.gScore m0 (some (vu + input.distance u m0)) n)
        (st0.gScore n)
      by_cases hn : n = m0
      · subst hn
        rw [Function.update_same]
        exact optLe_of_optLtB hlt
      · rw [Function.update_noteq hn]
        exact optLe_refl _

/-- One expansion either leaves the state untouched or strictly decreases
some neighbor's g-score. -/
theorem expandFold_id_or_strict (input : AStarInput) (u : ℕ) :
    ∀ (l : List ℕ) (st0 : AStarState),
      List.foldl (expandNeighbor input u) st0 l = st0 ∨
      ∃ n ∈ l, optLtB ((List.foldl (expandNeighbor input u) st0 l).gScore n)
          (st0.gScore n) = true := by
  intro l
  induction l with
  | nil => intro st0; left; rfl
  | cons m0 l' ih =>
    intro st0
    rw [List.foldl_cons]
    rcases expandNeighbor_cases input u st0 m0 with ⟨heq, _⟩ | ⟨vu, hgu, hlt, heq⟩
    · rw [heq]
      rcases ih st0 with h | ⟨n, hn, h⟩
      · left; exact h
      · right; exact ⟨n, List.mem_cons_of_mem m0 hn, h⟩
    · right
      refine ⟨m0, List.mem_cons_self m0 l', ?_⟩
      have hmono := expandFold_g_mono input u l' (expandNeighbor input u st0 m0) m0
      have hstep : optLtB ((expandNeighbor input u st0 m0).gScore m0)
          (st0.gScore m0) = true := by
        rw [heq]
        show optLtB (Function.update st0.gScore m0 (some (vu + input.distance u m0)) m0)
          (st0.gScore m0) = true
        rw [Function.update_same]
        exact hlt
      exact optLtB_of_optLe_of_optLtB (optLe_trans hmono (by rw [heq]; exact optLe_refl _))
        hstep


/-- One neighbor relaxation preserves the `came_from` edge inequalities and
the existence of rooted predecessor chains.  The relaxed node's new chain is
the expanded node's chain extended by one link; a chain that ran through the
relaxed node is spliced onto the new chain at that point. -/
theorem expandNeighbor_chain (input : AStarInput) (u : ℕ) (st : AStarState) (nb : ℕ)
    (hd : ∀ a b, b ∈ input.neighbors a → 0 ≤ input.distance a b)
    (hnb : nb ∈ input.neighbors u)
    (hce : CameEdgeP input st) (hcf : CFChainP st) :
    CameEdgeP input (expandNeighbor input u st nb) ∧
      CFChainP (expandNeighbor input u st nb) := by
  rcases expandNeighbor_cases input u st nb with ⟨heq, _⟩ | ⟨vu, hgu, hlt, heq⟩
  · rw [heq]; exact ⟨hce, hcf⟩
  rw [heq]
  have hdnb := hd u nb hnb
  have hune : u ≠ nb := by
    intro h
    subst h
    rw [hgu] at hlt
    simp [optLtB] at hlt
    linarith
  obtain ⟨lu, hlu⟩ := hcf u vu hgu
  have hlub := came_chain_g_le input st hd hce lu u vu hlu.chain hlu.last_eq hgu
  have hnblu : nb ∉ lu := by
    intro hmem
    obtain ⟨vx, hvx, hle⟩ := hlub nb hmem
    rw [hvx] at hlt
    simp [optLtB] at hlt
    linarith
  have hlune : lu ≠ [] := hlu.ne_nil
  obtain ⟨h0u, hh0u, hcnu⟩ := hlu.rooted
  have hh0umem : h0u ∈ lu := List.mem_of_mem_head? (by rw [hh0u]; rfl)
  have hh0unb : h0u ≠ nb := fun h => hnblu (h ▸ hh0umem)
  have hchlunb : List.Chain' (fun s t =>
      Function.update st.cameFrom nb (some u) t = some s) (lu ++ [nb]) := by
    rw [List.chain'_append]
    refine ⟨chain_update_of_not_mem st.cameFrom nb (some u) lu hnblu hlu.chain,
      List.chain'_singleton _, ?_⟩
    intro x hx z hz
    rw [Option.mem_def, hlu.last_eq] at hx
    simp only [Option.some.injEq] at hx
    rw [Option.mem_def] at hz
    simp only [List.head?_cons, Option.some.injEq] at hz
    rw [← hx, ← hz, Function.update_same]
  have hnodlunb : (lu ++ [nb]).Nodup :=
    hlu.nodup.append (List.nodup_singleton _) (by
      intro x hxlu hxnb
      rw [List.mem_singleton] at hxnb
      exact hnblu (hxnb ▸ hxlu))
  constructor
  · -- came_from edges
    intro n c hc
    dsimp only at hc ⊢
    by_cases hn : n = nb
    · obtain rfl : nb = n := hn.symm
      rw [Function.update_same] at hc
      obtain rfl : u = c := by simpa using hc
      refine ⟨hnb, vu + input.distance u nb, vu, ?_, ?_, le_refl _⟩
      · rw [Function.update_same]
      · rw [Function.update_noteq hune]
        exact hgu
    · rw [Function.update_noteq hn] at hc
      obtain ⟨hadj, vn, vc, hvn, hvc, hedge⟩ := hce n c hc
      refine ⟨hadj, ?_⟩
      by_cases hcnb : c = nb
      · obtain rfl : nb = c := hcnb.symm
        rw [hvc] at hlt
        simp [optLtB] at hlt
        refine ⟨vn, vu + input.distance u nb, ?_, ?_, ?_⟩
        · rw [Function.update_noteq hn]; exact hvn
        · rw [Function.update_same]
        · linarith
      · refine ⟨vn, vc, ?_, ?_, hedge⟩
        · rw [Function.update_noteq hn]; exact hvn
        · rw [Function.update_noteq hcnb]; exact hvc
  · -- rooted chains
    intro n v hgn
    dsimp only at hgn
    by_cases hn : n = nb
    · obtain rfl : nb = n := hn.symm
      refine ⟨lu ++ [nb], ?_, ?_, hchlunb, ⟨h0u, ?_, ?_⟩, hnodlunb⟩
      · simp
      · rw [List.getLast?_concat]
      · cases lu with
        | nil => exact absurd rfl hlune
        | cons a r => simpa using hh0u
      · dsimp only
        rw [Function.update_noteq hh0unb]
        exact hcnu
    · rw [Function.update_noteq hn] at hgn
      obtain ⟨l, hl⟩ := hcf n v hgn
      by_cases hmem : nb ∈ l
      · -- splice the old chain at nb onto the expanded node's chain
        obtain ⟨l1, l2, rfl⟩ := List.append_of_mem hmem
        have hall := came_chain_g_le input st hd hce (l1 ++ nb :: l2) n v
          hl.chain hl.last_eq hgn
        obtain ⟨vnb, hvnb, hvnbv⟩ := hall nb (by simp)
        have hltnb : vu + input.distance u nb < vnb := by
          rw [hvnb] at hlt
          simpa [optLtB] using hlt
        have hch12 := List.chain'_append.mp
          (show List.Chain' (fun s t => st.cameFrom t = some s) (l1 ++ (nb :: l2))
            from hl.chain)
        have hchnb2 : List.Chain' (fun s t => st.cameFrom t = some s) (nb :: l2) :=
          hch12.2.1
        have hnodnb2 : (nb :: l2).Nodup :=
          hl.nodup.sublist (List.sublist_append_right l1 (nb :: l2))
        have hnbl2 : nb ∉ l2 := (List.nodup_cons.mp hnodnb2).1
        have hl2ne : l2 ≠ [] := by
          intro h
          subst h
          have hlast' := hl.last_eq
          rw [List.getLast?_concat] at hlast'
          exact hn (by simpa using hlast'.symm)
        refine ⟨(lu ++ [nb]) ++ l2, ?_, ?_, ?_, ⟨h0u, ?_, ?_⟩, ?_⟩
        · simp
        · have h2 : l2.getLast? = some n := by
            have hlast' := hl.last_eq
            rw [show l1 ++ nb :: l2 = (l1 ++ [nb]) ++ l2 by simp] at hlast'
            rwa [List.getLast?_append_of_ne_nil _ hl2ne] at hlast'
          rw [List.getLast?_append_of_ne_nil _ hl2ne]
          exact h2
        · rw [List.chain'_append]
          refine ⟨hchlunb, chain_update_of_not_mem st.cameFrom nb (some u) l2
            hnbl2 hchnb2.tail, ?_⟩
          intro x hx z hz
          rw [Option.mem_def, List.getLast?_concat] at hx
          simp only [Option.some.injEq] at hx
          cases l2 with
          | nil => exact absurd rfl hl2ne
          | cons y0 r2 =>
            rw [Option.mem_def] at hz
            simp only [List.head?_cons, Option.some.injEq] at hz
            have hy0 : st.cameFrom y0 = some nb := (List.chain'_cons.mp hchnb2).1
            have hy0nb : y0 ≠ nb := by
              intro h
              exact hnbl2 (h ▸ List.mem_cons_self y0 r2)
            rw [← hx, ← hz]
            dsimp only
            rw [Function.update_noteq hy0nb]
            exact hy0
        · cases lu with
          | nil => exact absurd rfl hlune
          | cons a r => simpa using hh0u
        · dsimp only
          rw [Function.update_noteq hh0unb]
          exact hcnu
        · refine List.Nodup.append hnodlunb ((List.nodup_cons.mp hnodnb2).2) ?_
          intro x hx1 hx2
          rcases List.mem_append.mp hx1 with hxlu | hxnb
          · obtain ⟨vx, hvx, hvxle⟩ := hlub x hxlu
            obtain ⟨vnb', hvnb', hvnb'le⟩ := came_chain_nb_le input st hd hce
              hchnb2 hx2 hvx
            rw [hvnb] at hvnb'
            have hvnb'eq : vnb' = vnb := by simpa using hvnb'.symm
            rw [hvnb'eq] at hvnb'le
            linarith
          · rw [List.mem_singleton] at hxnb
            exact hnbl2 (hxnb ▸ hx2)
      · obtain ⟨h0, hh0, hcn0⟩ := hl.rooted
        have hh0mem : h0 ∈ l := List.mem_of_mem_head? (by rw [hh0]; rfl)
        have hh0nb : h0 ≠ nb := fun h => hmem (h ▸ hh0mem)
        refine ⟨l, hl.ne_nil, hl.last_eq,
          chain_update_of_not_mem st.cameFrom nb (some u) l hmem hl.chain,
          ⟨h0, hh0, ?_⟩, hl.nodup⟩
        dsimp only
        rw [Function.update_noteq hh0nb]
        exact hcn0

/-- The whole relaxation fold preserves edge inequalities and rooted
chains. -/
theorem expandFold_chain (input : AStarInput) (u : ℕ)
    (hd : ∀ a b, b ∈ input.neighbors a → 0 ≤ input.distance a b) :
    ∀ (l : List ℕ) (st0 : AStarState), (∀ m ∈ l, m ∈ input.neighbors u) →
      CameEdgeP input st0 → CFChainP st0 →
      CameEdgeP input (List.foldl (expandNeighbor input u) st0 l) ∧
        CFChainP (List.foldl (expandNeighbor input u) st0 l) := by
  intro l
  induction l with
  | nil => intro st0 _ h1 h2; exact ⟨h1, h2⟩
  | cons m0 l' ih =>
    intro st0 hmem h1 h2
    rw [List.foldl_cons]
    obtain ⟨h1', h2'⟩ := expandNeighbor_chain input u st0 m0 hd
      (hmem m0 (List.mem_cons_self m0 l')) h1 h2
    exact ih _ (fun m hm => hmem m (List.mem_cons_of_mem m0 hm)) h1' h2'


theorem den_dvd_int_mul {q : ℚ} {D : ℕ} (h : (q.den : ℕ) ∣ D) :
    ∃ z : ℤ, q * (D : ℚ) = (z : ℚ) := by
  obtain ⟨k, hk⟩ := h
  refine ⟨q.num * k, ?_⟩
  rw [hk]
  push_cast
  rw [← mul_assoc, Rat.mul_den_eq_num]

theorem denomProd_pos (input : AStarInput) : 0 < denomProd input :=
  Finset.prod_pos (fun (p : ℕ × ℕ) _ => (input.distance p.1 p.2).pos)

/-- Every walk cost times the denominator product is an integer. -/
theorem walkCost_mul_denom_int (input : AStarInput)
    (hwf : ∀ x y, y ∈ input.neighbors x → y < input.len)
    (hstart : input.start < input.len) :
    ∀ (l : List ℕ) (n : ℕ), WalkTo input input.start n l →
      ∃ z : ℤ, pathCost input l * (denomProd input : ℚ) = (z : ℚ) := by
  intro l n hw
  induction hw with
  | base => exact ⟨0, by simp [pathCost]⟩
  | @step a b l' hw' hnbr ih =>
    obtain ⟨z1, hz1⟩ := ih
    have ha : a < input.len := hw'.nodes_lt hstart hwf a hw'.last_mem
    have hb : b < input.len := hwf a b hnbr
    have hdvd : ((input.distance a b).den : ℕ) ∣ denomProd input :=
      @Finset.dvd_prod_of_mem (ℕ × ℕ) ℕ _ (fun p => (input.distance p.1 p.2).den)
        (a, b) (Finset.range input.len ×ˢ Finset.range input.len)
        (by rw [Finset.mem_product]; exact ⟨Finset.mem_range.mpr ha, Finset.mem_range.mpr hb⟩)
    obtain ⟨z2, hz2⟩ := den_dvd_int_mul hdvd
    refine ⟨z1 + z2, ?_⟩
    rw [pathCost_snoc input l' a b hw'.last, add_mul, hz1, hz2]
    push_cast
    ring

theorem rankOf_le_rankOf {D : ℕ} (hD : 0 < D) {v w : ℚ}
    (hv : ∃ z : ℤ, v * (D : ℚ) = (z : ℚ)) (hw : ∃ z : ℤ, w * (D : ℚ) = (z : ℚ))
    (hw0 : 0 ≤ w) (hle : w ≤ v) :
    rankOf D (some w) ≤ rankOf D (some v) := by
  obtain ⟨z1, hz1⟩ := hv
  obtain ⟨z2, hz2⟩ := hw
  have hDQ : (0 : ℚ) < (D : ℚ) := by exact_mod_cast hD
  have h1 : (z2 : ℚ) ≤ (z1 : ℚ) := by
    rw [← hz1, ← hz2]
    exact mul_le_mul_of_nonneg_right hle (le_of_lt hDQ)
  have h2 : (0 : ℚ) ≤ (z2 : ℚ) := by
    rw [← hz2]
    exact mul_nonneg hw0 (le_of_lt hDQ)
  have hz21 : z2 ≤ z1 := by exact_mod_cast h1
  have hz20 : (0 : ℤ) ≤ z2 := by exact_mod_cast h2
  show ((w * (D : ℚ))).num.toNat ≤ ((v * (D : ℚ))).num.toNat
  rw [hz1, hz2, Rat.num_intCast, Rat.num_intCast]
  omega

theorem rankOf_lt_rankOf {D : ℕ} (hD : 0 < D) {v w : ℚ}
    (hv : ∃ z : ℤ, v * (D : ℚ) = (z : ℚ)) (hw : ∃ z : ℤ, w * (D : ℚ) = (z : ℚ))
    (hw0 : 0 ≤ w) (hlt : w < v) :
    rankOf D (some w) < rankOf D (some v) := by
  obtain ⟨z1, hz1⟩ := hv
  obtain ⟨z2, hz2⟩ := hw
  have hDQ : (0 : ℚ) < (D : ℚ) := by exact_mod_cast hD
  have h1 : (z2 : ℚ) < (z1 : ℚ) := by
    rw [← hz1, ← hz2]
    exact mul_lt_mul_of_pos_right hlt hDQ
  have h2 : (0 : ℚ) ≤ (z2 : ℚ) := by
    rw [← hz2]
    exact mul_nonneg hw0 (le_of_lt hDQ)
  have hz21 : z2 < z1 := by exact_mod_cast h1
  have hz20 : (0 : ℤ) ≤ z2 := by exact_mod_cast h2
  show ((w * (D : ℚ))).num.toNat < ((v * (D : ℚ))).num.toNat
  rw [hz1, hz2, Rat.num_intCast, Rat.num_intCast]
  omega

/-- A pointwise g-decrease that actually changes some node below `len`
strictly decreases the lexicographic measure (number of infinite scores,
then total rank). -/
theorem measure_decreases (input : AStarInput) {st st' : AStarState}
    (hmono : ∀ n, optLe (st'.gScore n) (st.gScore n))
    (hrs : ∀ n v, st.gScore n = some v → ∃ z : ℤ, v * (denomProd input : ℚ) = (z : ℚ))
    (hrs' : ∀ n v, st'.gScore n = some v → ∃ z : ℤ, v * (denomProd input : ℚ) = (z : ℚ))
    (hnn' : ∀ n v, st'.gScore n = some v → 0 ≤ v)
    {n0 : ℕ} (hn0 : n0 < input.len) (hne : st'.gScore n0 ≠ st.gScore n0) :
    noneCount input st' < noneCount input st ∨
      (noneCount input st' = noneCount input st ∧
        rankSum input st' < rankSum input st) := by
  classical
  have hD := denomProd_pos input
  have hnone : ∀ x, st'.gScore x = none → st.gScore x = none := by
    intro x hx
    have h := hmono x
    rw [hx] at h
    cases hgx : st.gScore x with
    | none => rfl
    | some v => rw [hgx] at h; simp [optLe] at h
  have hsub : (Finset.range input.len).filter (fun n => st'.gScore n = none) ⊆
      (Finset.range input.len).filter (fun n => st.gScore n = none) := by
    intro x hx
    rw [Finset.mem_filter] at hx ⊢
    exact ⟨hx.1, hnone x hx.2⟩
  by_cases hlt : noneCount input st' < noneCount input st
  · exact Or.inl hlt
  · right
    have hcard : noneCount input st' = noneCount input st :=
      le_antisymm (Finset.card_le_card hsub) (not_lt.mp hlt)
    refine ⟨hcard, ?_⟩
    have hseteq : (Finset.range input.len).filter (fun n => st'.gScore n = none) =
        (Finset.range input.len).filter (fun n => st.gScore n = none) :=
      Finset.eq_of_subset_of_card_le hsub (le_of_eq hcard.symm)
    have hiff : ∀ x, x < input.len → (st.gScore x = none → st'.gScore x = none) := by
      intro x hx hgx
      have hmem : x ∈ (Finset.range input.len).filter (fun n => st.gScore n = none) := by
        rw [Finset.mem_filter]
        exact ⟨Finset.mem_range.mpr hx, hgx⟩
      rw [← hseteq, Finset.mem_filter] at hmem
      exact hmem.2
    refine Finset.sum_lt_sum ?_ ?_
    · intro i hi
      rw [Finset.mem_range] at hi
      cases hgi : st.gScore i with
      | none =>
        rw [hiff i hi hgi]
      | some v =>
        cases hgi' : st'.gScore i with
        | none =>
          have := hnone i hgi'
          rw [this] at hgi
          exact absurd hgi (by simp)
        | some w =>
          have hle : w ≤ v := by
            have h := hmono i
            rw [hgi, hgi'] at h
            exact h
          exact rankOf_le_rankOf hD (hrs i v hgi) (hrs' i w hgi') (hnn' i w hgi') hle
    · refine ⟨n0, Finset.mem_range.mpr hn0, ?_⟩
      cases hgi : st.gScore n0 with
      | none =>
        have h' := hiff n0 hn0 hgi
        rw [h', hgi] at hne
        exact absurd rfl hne
      | some v =>
        cases hgi' : st'.gScore n0 with
        | none =>
          have := hnone n0 hgi'
          rw [this] at hgi
          exact absurd hgi (by simp)
        | some w =>
          have hlt2 : w < v := by
            have h := hmono n0
            rw [hgi, hgi'] at h
            rcases lt_or_eq_of_le (show w ≤ v from h) with h2 | h2
            · exact h2
            · exfalso
              rw [hgi, hgi', h2] at hne
              exact absurd rfl hne
          exact rankOf_lt_rankOf hD (hrs n0 v hgi) (hrs' n0 w hgi') (hnn' n0 w hgi') hlt2


/-- The consistency-free invariant holds just before the main loop. -/
theorem invc_init (input : AStarInput) : InvC input (aStarInit input) := by
  have hg : (aStarInit input).gScore
      = Function.update (fun _ => none) input.start (some 0) := rfl
  have hq : (aStarInit input).openQueue
      = [⟨input.start, input.heuristic input.start⟩] := rfl
  have hcf : (aStarInit input).cameFrom = fun _ => none := rfl
  have hcs : (aStarInit input).closedSet = fun _ => false := rfl
  have hgn : ∀ n v, (aStarInit input).gScore n = some v → n = input.start ∧ v = 0 := by
    intro n v h
    rw [hg] at h
    by_cases hn : n = input.start
    · rw [hn, Function.update_same] at h
      exact ⟨hn, by simpa using h.symm⟩
    · rw [Function.update_noteq hn] at h
      simp at h
  refine ⟨?_, ?_, ?_, ?_, ?_, ?_, ?_, ?_, ?_, ?_⟩
  · exact ⟨0, by rw [hg, Function.update_same]⟩
  · intro n v h
    rw [(hgn n v h).2]
  · intro n v h
    obtain ⟨hn1, hv1⟩ := hgn n v h
    rw [hn1, hv1]
    exact ⟨[input.start], WalkTo.base, rfl⟩
  · intro n c h
    rw [hcf] at h
    simp at h
  · intro n v h
    obtain ⟨hn1, _⟩ := hgn n v h
    subst hn1
    refine ⟨[input.start], by simp, rfl, List.chain'_singleton _,
      ⟨input.start, rfl, by rw [hcf]⟩, List.nodup_singleton _⟩
  · intro e he
    rw [hq, List.mem_singleton] at he
    rw [he, hg]
    exact ⟨0, Function.update_same _ _ _⟩
  · intro n v h
    obtain ⟨hn1, _⟩ := hgn n v h
    left
    refine ⟨⟨input.start, input.heuristic input.start⟩, ?_, hn1.symm⟩
    rw [hq]
    simp
  · intro n h
    rw [hcs] at h
    simp at h
  · rw [hcs]
  · intro v h
    obtain ⟨hn1, _⟩ := hgn input.goal v h
    refine ⟨⟨input.start, input.heuristic input.start⟩, ?_, hn1.symm⟩
    rw [hq]
    simp

/-- Discarding the popped entry of an already-closed node preserves the
consistency-free invariant. -/
theorem invc_skip (input : AStarInput) {st : AStarState} {e : NodeCost}
    {rest : List NodeCost} (hInv : InvC input st)
    (hpop : popMax st.openQueue = some (e, rest)) (hcl : st.closedSet e.node = true) :
    InvC input { st with openQueue := rest } := by
  obtain ⟨hemem, hrest⟩ := popMax_mem hpop
  have hgne : e.node ≠ input.goal := by
    intro h
    rw [h, hInv.goal_not_closed] at hcl
    exact absurd hcl (by simp)
  have hceq : CameEdgeP input { st with openQueue := rest } := by
    intro n c hc
    exact hInv.came_edge n c hc
  have hcfq : CFChainP { st with openQueue := rest } := by
    intro n v hg
    obtain ⟨l, hl⟩ := hInv.cf_chain n v hg
    exact ⟨l, hl.ne_nil, hl.last_eq, hl.chain, hl.rooted, hl.nodup⟩
  refine ⟨hInv.gstart_fin, hInv.g_nonneg, hInv.g_real, hceq, hcfq,
    ?_, ?_, hInv.closed_fin, hInv.goal_not_closed, ?_⟩
  · intro p hp
    exact hInv.queue_fin p (popMax_rest_mem hpop p hp)
  · intro n v hg
    by_cases hne : n = e.node
    · right
      subst hne
      exact hInv.closed_fin e.node hcl
    · rcases hInv.entry_or_expanded n v hg with ⟨e', he'mem, he'n⟩ | hs
      · left
        have hee : e' ≠ e := by
          intro h
          rw [h] at he'n
          exact hne he'n.symm
        exact ⟨e', by rw [show ({ st with openQueue := rest } : AStarState).openQueue
          = rest from rfl, hrest]; exact (List.mem_erase_of_ne hee).mpr he'mem, he'n⟩
      · exact Or.inr hs
  · intro v hg
    obtain ⟨e', he'mem, he'n⟩ := hInv.goal_entry v hg
    have hee : e' ≠ e := by
      intro h
      rw [h] at he'n
      exact hgne he'n
    exact ⟨e', by rw [show ({ st with openQueue := rest } : AStarState).openQueue
      = rest from rfl, hrest]; exact (List.mem_erase_of_ne hee).mpr he'mem, he'n⟩

/-- Expanding a popped non-goal node preserves the consistency-free
invariant.  No assumption on the heuristic is needed. -/
theorem invc_expand (input : AStarInput)
    (hd : ∀ a b, b ∈ input.neighbors a → 0 ≤ input.distance a b)
    {st : AStarState} {e : NodeCost} {rest : List NodeCost} (hInv : InvC input st)
    (hpop : popMax st.openQueue = some (e, rest)) (hgoal : e.node ≠ input.goal) :
    InvC input (expandAll input e.node { st with openQueue := rest }) := by
  obtain ⟨hemem, hrest⟩ := popMax_mem hpop
  obtain ⟨vu, hgu⟩ := hInv.queue_fin e hemem
  obtain ⟨hA, hB, hCD, hE, hF, hH, hG⟩ :=
    expandAll_facts input e.node vu hd (input.neighbors e.node)
      { st with openQueue := rest } (expandAll input e.node { st with openQueue := rest })
      (fun m hm => hm) hgu rfl
  have hfin : ∀ n v, st.gScore n = some v →
      ∃ w, (expandAll input e.node { st with openQueue := rest }).gScore n = some w := by
    intro n v hg
    have h := hB n
    rw [show ({ st with openQueue := rest } : AStarState).gScore = st.gScore from rfl,
      hg] at h
    obtain ⟨w, hw, _⟩ := optLe_some_dest h
    exact ⟨w, hw⟩
  have hsettled : ∀ m ∈ input.neighbors e.node,
      ∃ w, (expandAll input e.node { st with openQueue := rest }).gScore m = some w := by
    intro m hm
    have h := hE m hm
    obtain ⟨w, hw, _⟩ := optLe_some_dest h
    exact ⟨w, hw⟩
  have hceq : CameEdgeP input { st with openQueue := rest } := by
    intro n c hc
    exact hInv.came_edge n c hc
  have hcfq : CFChainP { st with openQueue := rest } := by
    intro n v hg
    obtain ⟨l, hl⟩ := hInv.cf_chain n v hg
    exact ⟨l, hl.ne_nil, hl.last_eq, hl.chain, hl.rooted, hl.nodup⟩
  obtain ⟨hce', hcf'⟩ := expandFold_chain input e.node hd (input.neighbors e.node)
    { st with openQueue := rest } (fun m hm => hm) hceq hcfq
  refine ⟨?_, ?_, ?_, hce', hcf', ?_, ?_, ?_, ?_, ?_⟩
  · obtain ⟨v0, hv0⟩ := hInv.gstart_fin
    exact hfin input.start v0 hv0
  · -- g_nonneg
    intro n vn hg
    rcases hCD n with ⟨h1, _⟩ | ⟨hmem, hgn, _, _, _⟩
    · exact hInv.g_nonneg n vn (h1 ▸ hg)
    · rw [hgn] at hg
      obtain rfl : vn = vu + input.distance e.node n := by simpa using hg.symm
      have h0 := hd e.node n hmem
      have h1 := hInv.g_nonneg e.node vu hgu
      linarith
  · -- g_real
    intro n vn hg
    rcases hCD n with ⟨h1, _⟩ | ⟨hmem, hgn, _, _, _⟩
    · exact hInv.g_real n vn (h1 ▸ hg)
    · rw [hgn] at hg
      obtain rfl : vn = vu + input.distance e.node n := by simpa using hg.symm
      obtain ⟨lw, hlw, hlc⟩ := hInv.g_real e.node vu hgu
      exact ⟨lw ++ [n], WalkTo.step hlw hmem,
        by rw [pathCost_snoc input lw e.node n hlw.last, hlc]⟩
  · -- queue_fin
    intro p hp
    rcases hF p hp with hp0 | ⟨_, hgp, _⟩
    · have hpm : p ∈ st.openQueue := popMax_rest_mem hpop p hp0
      obtain ⟨v, hv⟩ := hInv.queue_fin p hpm
      exact hfin p.node v hv
    · exact ⟨vu + input.distance e.node p.node, hgp⟩
  · -- entry_or_expanded
    intro n vn hg
    by_cases hnu : n = e.node
    · right
      subst hnu
      exact hsettled
    · rcases hCD n with ⟨h1, _⟩ | ⟨_, _, _, _, hp⟩
      · have hgold : st.gScore n = some vn := h1 ▸ hg
        rcases hInv.entry_or_expanded n vn hgold with ⟨e', he'mem, he'n⟩ | hs
        · left
          have hee : e' ≠ e := by
            intro h
            rw [h] at he'n
            exact hnu he'n.symm
          refine ⟨e', hH e' ?_, he'n⟩
          rw [show ({ st with openQueue := rest } : AStarState).openQueue = rest from rfl,
            hrest]
          exact (List.mem_erase_of_ne hee).mpr he'mem
        · right
          intro m hm
          obtain ⟨w, hw⟩ := hs m hm
          exact hfin m w hw
      · left
        obtain ⟨p, hpmem, hpn, _⟩ := hp
        exact ⟨p, hpmem, hpn⟩
  · -- closed_fin
    intro n hcln
    rcases hG n with hcl1 | ⟨hnu, _⟩
    · rw [show ({ st with openQueue := rest } : AStarState).closedSet = st.closedSet
        from rfl] at hcl1
      rw [hcl1] at hcln
      intro m hm
      obtain ⟨w, hw⟩ := hInv.closed_fin n hcln m hm
      exact hfin m w hw
    · subst hnu
      exact hsettled
  · -- goal_not_closed
    rcases hG input.goal with hcl1 | ⟨hnu, _⟩
    · rw [show ({ st with openQueue := rest } : AStarState).closedSet = st.closedSet
        from rfl] at hcl1
      rw [hcl1]
      exact hInv.goal_not_closed
    · exact absurd hnu.symm hgoal
  · -- goal_entry
    intro v hg
    rcases hCD input.goal with ⟨h1, _⟩ | ⟨_, _, _, _, hp⟩
    · have hgold : st.gScore input.goal = some v := h1 ▸ hg
      obtain ⟨e', he'mem, he'n⟩ := hInv.goal_entry v hgold
      have hee : e' ≠ e := by
        intro h
        rw [h] at he'n
        exact hgoal he'n
      refine ⟨e', hH e' ?_, he'n⟩
      rw [show ({ st with openQueue := rest } : AStarState).openQueue = rest from rfl,
        hrest]
      exact (List.mem_erase_of_ne hee).mpr he'mem
    · obtain ⟨p, hpmem, hpn, _⟩ := hp
      exact ⟨p, hpmem, hpn⟩


/-- If the frontier is empty, every node reachable from the start by a walk
already has a finite g-score. -/
theorem reachable_fin_of_no_queue (input : AStarInput) {st : AStarState}
    (hInv : InvC input st) (hq : st.openQueue = []) :
    ∀ (l : List ℕ) (n : ℕ), WalkTo input input.start n l →
      ∃ v, st.gScore n = some v := by
  intro l n hw
  induction hw with
  | base => exact hInv.gstart_fin
  | @step a b l' hw' hnbr ih =>
    obtain ⟨va, hva⟩ := ih
    rcases hInv.entry_or_expanded a va hva with ⟨e', hem, _⟩ | hs
    · rw [hq] at hem
      simp at hem
    · exact hs b hnbr

/-- Whenever the goal node holds a finite g-score, the reconstruction loop
succeeds within the fuel `a_star` gives it. -/
theorem goalPop_reconstructs (input : AStarInput)
    (hd : ∀ a b, b ∈ input.neighbors a → 0 ≤ input.distance a b)
    (hwf : ∀ x y, y ∈ input.neighbors x → y < input.len)
    (hstart : input.start < input.len)
    {st : AStarState} {v : ℚ} (hInv : InvC input st)
    (hgv : st.gScore input.goal = some v) :
    ∃ p, reconstructPath st.cameFrom (input.len + 1) input.goal [] = some p := by
  obtain ⟨l, hl⟩ := hInv.cf_chain input.goal v hgv
  have hallfin := came_chain_g_le input st hd hInv.came_edge l input.goal v
    hl.chain hl.last_eq hgv
  have hmemlt : ∀ x ∈ l, x < input.len := by
    intro x hx
    obtain ⟨vx, hvx, _⟩ := hallfin x hx
    obtain ⟨lw, hlw, _⟩ := hInv.g_real x vx hvx
    exact hlw.nodes_lt hstart hwf x hlw.last_mem
  have hlen : l.length ≤ input.len := nodup_length_le input.len l hl.nodup hmemlt
  exact ⟨l ++ [], reconstructPath_of_chain st.cameFrom l input.goal [] (input.len + 1)
    hl.last_eq hl.chain hl.rooted (by omega)⟩

/-- From any state satisfying the consistency-free invariant, if the goal is
reachable at all, the main loop returns a path for some fuel: the
lexicographic measure (number of infinite g-scores, total rank of the finite
g-scores on the discrete weight grid, queue length) strictly decreases at
every non-returning iteration, and the frontier cannot empty while the goal
is unreturned. -/
theorem aStarLoop_completes (input : AStarInput)
    (hd : ∀ a b, b ∈ input.neighbors a → 0 ≤ input.distance a b)
    (hwf : ∀ x y, y ∈ input.neighbors x → y < input.len)
    (hstart : input.start < input.len)
    (hreach : ∃ l, IsWalkBetween input input.start input.goal l) :
    ∀ (k1 k2 k3 : ℕ) (st : AStarState), InvC input st →
      noneCount input st = k1 → rankSum input st = k2 →
      st.openQueue.length = k3 →
      ∃ fuel p, aStarLoop input fuel st = some p := by
  obtain ⟨l0, hl0⟩ := hreach
  have hw0 : WalkTo input input.start input.goal l0 := isWalkBetween_walkTo l0 input.goal hl0
  intro k1
  induction k1 using Nat.strong_induction_on with
  | _ k1 ih1 =>
  intro k2
  induction k2 using Nat.strong_induction_on with
  | _ k2 ih2 =>
  intro k3
  induction k3 using Nat.strong_induction_on with
  | _ k3 ih3 =>
  intro st hInv hk1 hk2 hk3
  cases hpop : popMax st.openQueue with
  | none =>
    exfalso
    rw [popMax_none_iff] at hpop
    obtain ⟨v, hv⟩ := reachable_fin_of_no_queue input hInv hpop l0 input.goal hw0
    obtain ⟨e', hem, _⟩ := hInv.goal_entry v hv
    rw [hpop] at hem
    simp at hem
  | some pr =>
    obtain ⟨e, rest⟩ := pr
    by_cases hgoal : e.node = input.goal
    · -- the goal is popped: the loop returns the reconstructed path
      obtain ⟨hemem, -⟩ := popMax_mem hpop
      obtain ⟨v, hv⟩ := hInv.queue_fin e hemem
      rw [hgoal] at hv
      obtain ⟨p, hp⟩ := goalPop_reconstructs input hd hwf hstart hInv hv
      refine ⟨1, p, ?_⟩
      rw [show (1 : ℕ) = 0 + 1 from rfl, aStarLoop, hpop]
      dsimp only
      rw [if_pos hgoal, hgoal]
      exact hp
    · have hlt3 : rest.length < k3 := by
        obtain ⟨hemem, hrest⟩ := popMax_mem hpop
        rw [← hk3, hrest, List.length_erase_of_mem hemem]
        have h0 : 0 < st.openQueue.length :=
          List.length_pos.mpr (List.ne_nil_of_mem hemem)
        omega
      by_cases hcl : st.closedSet e.node = true
      · -- skip branch: the queue shrinks, g-scores untouched
        have hInv' := invc_skip input hInv hpop hcl
        obtain ⟨fuel, p, hp⟩ := ih3 rest.length hlt3 { st with openQueue := rest }
          hInv' hk1 hk2 rfl
        refine ⟨fuel + 1, p, ?_⟩
        rw [aStarLoop, hpop]
        dsimp only
        rw [if_neg hgoal, if_pos hcl]
        exact hp
      · -- expand branch
        have hInv' := invc_expand input hd hInv hpop hgoal
        have hfold : List.foldl (expandNeighbor input e.node)
            { st with openQueue := rest } (input.neighbors e.node)
            = expandAll input e.node { st with openQueue := rest } := rfl
        have hz : ∀ (stx : AStarState), InvC input stx → ∀ n v, stx.gScore n = some v →
            ∃ z : ℤ, v * (denomProd input : ℚ) = (z : ℚ) := by
          intro stx hI n v hg
          obtain ⟨lw, hlw, hlc⟩ := hI.g_real n v hg
          obtain ⟨z, hzz⟩ := walkCost_mul_denom_int input hwf hstart lw n hlw
          exact ⟨z, by rw [← hlc]; exact hzz⟩
        rcases expandFold_id_or_strict input e.node (input.neighbors e.node)
          { st with openQueue := rest } with hid | ⟨n0, hn0mem, hstrict⟩
        · rw [hfold] at hid
          obtain ⟨fuel, p, hp⟩ := ih3 rest.length hlt3
            (expandAll input e.node { st with openQueue := rest }) hInv'
            (by rw [hid]; exact hk1) (by rw [hid]; exact hk2) (by rw [hid])
          refine ⟨fuel + 1, p, ?_⟩
          rw [aStarLoop, hpop]
          dsimp only
          rw [if_neg hgoal, if_neg hcl]
          exact hp
        · rw [hfold] at hstrict
          have hn0lt : n0 < input.len := hwf e.node n0 hn0mem
          have hmono : ∀ n, optLe
              ((expandAll input e.node { st with openQueue := rest }).gScore n)
              (st.gScore n) := by
            intro n
            have h := expandFold_g_mono input e.node (input.neighbors e.node)
              { st with openQueue := rest } n
            rw [hfold] at h
            exact h
          have hne0 : (expandAll input e.node { st with openQueue := rest }).gScore n0
              ≠ st.gScore n0 := by
            intro h
            rw [show ({ st with openQueue := rest } : AStarState).gScore n0
              = st.gScore n0 from rfl] at hstrict
            rw [h, optLtB_irrefl] at hstrict
            exact absurd hstrict (by simp)
          rcases measure_decreases input hmono (hz st hInv) (hz _ hInv')
            hInv'.g_nonneg hn0lt hne0 with h1 | ⟨heq, h2⟩
          · obtain ⟨fuel, p, hp⟩ := ih1
              (noneCount input (expandAll input e.node { st with openQueue := rest }))
              (by rw [← hk1]; exact h1)
              (rankSum input (expandAll input e.node { st with openQueue := rest }))
              ((expandAll input e.node { st with openQueue := rest }).openQueue.length)
              (expandAll input e.node { st with openQueue := rest }) hInv' rfl rfl rfl
            refine ⟨fuel + 1, p, ?_⟩
            rw [aStarLoop, hpop]
            dsimp only
            rw [if_neg hgoal, if_neg hcl]
            exact hp
          · obtain ⟨fuel, p, hp⟩ := ih2
              (rankSum input (expandAll input e.node { st with openQueue := rest }))
              (by rw [← hk2]; exact h2)
              ((expandAll input e.node { st with openQueue := rest }).openQueue.length)
              (expandAll input e.node { st with openQueue := rest }) hInv'
              (by rw [← hk1]; exact heq) rfl rfl
            refine ⟨fuel + 1, p, ?_⟩
            rw [aStarLoop, hpop]
            dsimp only
            rw [if_neg hgoal, if_neg hcl]
            exact hp

/-- `a_star` returns a path for some fuel whenever the goal is reachable. -/
theorem aStar_completes (input : AStarInput)
    (hd : ∀ a b, b ∈ input.neighbors a → 0 ≤ input.distance a b)
    (hwf : ∀ x y, y ∈ input.neighbors x → y < input.len)
    (hstart : input.start < input.len)
    (hreach : ∃ l, IsWalkBetween input input.start input.goal l) :
    ∃ fuel p, aStar fuel input = some p :=
  aStarLoop_completes input hd hwf hstart hreach _ _ _ (aStarInit input)
    (invc_init input) rfl rfl rfl


/-- C1 (amended): for every `AStarInput` with nonnegative distances and
well-formed node ids, (1) under a *consistent* heuristic (the triangle
inequality `h(a) ≤ d(a,b) + h(b)` on every edge — admissibility alone is
not enough, see the counterexample) every path `a_star` returns is a walk
from `start()` to `end()` whose total edge distance equals the true
shortest-path distance, and (2) with no assumption on the heuristic at
all, `a_star` returns a path whenever `end()` is reachable from
`start()`. -/
theorem aStar_consistent_returns_shortest_path (input : AStarInput)
    (hd : ∀ a b, b ∈ input.neighbors a → 0 ≤ input.distance a b)
    (hwf : ∀ x y, y ∈ input.neighbors x → y < input.len)
    (hstart : input.start < input.len) :
    ((∀ a b, b ∈ input.neighbors a →
        input.heuristic a ≤ input.distance a b + input.heuristic b) →
      ∀ (fuel : ℕ) (p : List ℕ), aStar fuel input = some p →
        IsWalkBetween input input.start input.goal p ∧
          shortestDist input input.goal = some (pathCost input p) ∧
          ∀ q, IsWalkBetween input input.start input.goal q →
            pathCost input p ≤ pathCost input q) ∧
    ((∃ l, IsWalkBetween input input.start input.goal l) →
      ∃ (fuel : ℕ) (p : List ℕ), aStar fuel input = some p) :=
  ⟨fun hh fuel p hres =>
      aStarLoop_optimal input hd hh hwf hstart fuel (aStarInit input) p
        (inv_init input) hres,
    fun hreach => aStar_completes input hd hwf hstart hreach⟩

theorem aStar_consistent_returns_shortest_path_witness :
    (IsWalkBetween consistentInput consistentInput.start consistentInput.goal [0, 1] ∧
      shortestDist consistentInput consistentInput.goal
        = some (pathCost consistentInput [0, 1]) ∧
      ∀ q, IsWalkBetween consistentInput consistentInput.start consistentInput.goal q →
        pathCost consistentInput [0, 1] ≤ pathCost consistentInput q) ∧
    (∃ fuel p, aStar fuel consistentInput = some p) := by
  have h := aStar_consistent_returns_shortest_path consistentInput
    (by intro a b _; norm_num [consistentInput])
    (by
      intro x y hy
      by_cases hx : x = 0
      · rw [hx] at hy
        simp [consistentInput] at hy
        simp [hy, consistentInput]
      · simp [consistentInput, hx] at hy)
    (by norm_num [consistentInput])
  refine ⟨h.1 (by intro a b _; norm_num [consistentInput]) 5 [0, 1] ?_, h.2 ⟨[0, 1], ?_⟩⟩
  · norm_num [aStar, aStarInit, aStarLoop, popMax, maxEntry, NodeCost.ltB, expandAll,
      expandNeighbor, optAdd, optLtB, reconstructPath, consistentInput, Function.update]
  · exact ⟨rfl, rfl, by simp [consistentInput]⟩

end PathFinder
